import Mathlib

/-!
# pod-utilities-node: a shallow embedding of `lib/main.js`

The JavaScript helpers of `lib/main.js` are rendered as Lean functions over a
small model of JavaScript data.

Modelling conventions.

* A JavaScript value is a finite tree (`JSValue`).  Objects are records of own
  enumerable string-keyed properties, listed in the order in which
  `Object.keys` enumerates them.  Numbers and dates carry an integer payload:
  the code never inspects it apart from truthiness.
* A value records the own properties of an object, not its prototype: plain
  data has the builtin prototypes.  `obj.hasOwnProperty(k)` is a method call:
  an own property named `hasOwnProperty` shadows the builtin method, and the
  call of a value that is not a function throws.
* `extractKeysFromObject` builds its result by assignment, and the assignment
  `newObj['__proto__'] = v` runs the setter of `Object.prototype`, which can
  give the result another prototype.  Its argument and result are therefore
  `JSObject`s, which record the prototype next to the own properties.
* Own-property order follows ECMAScript (`OrdinaryOwnPropertyKeys`): array
  indices first, in ascending numeric order, then the other names in creation
  order.
* `config.notTrimFields` comes from `lib/config.js`; it is a parameter here,
  given by the list of its own property names, `hasOwnProperty` not being one
  of them.
* `clone` is the external package of that name.  Its copy loop leaves out the
  own properties named like a method of `Object.prototype`, and it assigns an
  own property `__proto__` to the copy, which creates no property but makes an
  object or `null` the prototype of the copy.  That prototype is not recorded
  in a value; the theorems that say what a trimming function returns for the
  fields of its argument assume `ordinaryNames`, which excludes these names.
* The schema validator `pod-ajv` is an external module; it is a parameter,
  with its contract that a rejecting call exposes the list of violations.
* Functions that can throw return `Except Fault`.  The recursion of
  `trimNestedObject` follows the mutated clone, so it is driven by a fuel
  argument; theorems state how much fuel is enough.
* The calendar functions call the external packages `moment` and
  `moment-jalaali`.  Their argument here is the value `moment(date)`, given by
  its Jalaali date and its local time of day; `format` is rendered for the
  tokens that the two format strings of `lib/main.js` use.
* Values as trees cannot tell a changed object from a copy.  For the question
  whether a call changes the caller's object, `trimObject` and
  `trimNestedObject` have a second rendering over a store of objects with
  addresses (namespace `Store`), in which `clone` allocates and a property
  write updates the object at an address.
-/

namespace PodUtilities

/-! ## JavaScript data -/

/-- JavaScript values that plain data can hold. -/
inductive JSValue where
  | undefined
  | null
  | bool (b : Bool)
  | number (n : Int)
  | string (s : String)
  | date (t : Int)
  | array (xs : List JSValue)
  | object (fields : List (String × JSValue))

/-- Ways in which a call fails to produce a value. -/
inductive Fault where
  | typeError
  | outOfFuel
  deriving DecidableEq

namespace JSValue

mutual
/-- Nesting depth of a value: the number of nested calls `trimNestedObject`
can make on it. -/
def depth : JSValue → Nat
  | array xs => 1 + depthList xs
  | object fs => 1 + depthFields fs
  | _ => 1
/-- Largest depth among the elements. -/
def depthList : List JSValue → Nat
  | [] => 0
  | x :: xs => max (depth x) (depthList xs)
/-- Largest depth among the property values. -/
def depthFields : List (String × JSValue) → Nat
  | [] => 0
  | (_, v) :: fs => max (depth v) (depthFields fs)
end

mutual
/-- Representation invariant: at every level the property names of an object
are pairwise distinct (a JavaScript object has one slot per name). -/
def distinctKeys : JSValue → Bool
  | array xs => distinctKeysList xs
  | object fs => distinctKeysFields fs
  | _ => true
/-- The invariant on every element. -/
def distinctKeysList : List JSValue → Bool
  | [] => true
  | x :: xs => distinctKeys x && distinctKeysList xs
/-- The invariant on a property list: the head name does not occur again, the
head value and the tail satisfy the invariant. -/
def distinctKeysFields : List (String × JSValue) → Bool
  | [] => true
  | (k, v) :: fs => !(fs.map Prod.fst).contains k && distinctKeys v && distinctKeysFields fs
end

end JSValue

open JSValue

/-! ## Strings: `String.prototype.trim` and array-index names -/

/-- ECMAScript `WhiteSpace` and `LineTerminator` code points, the characters
that `trim` strips. -/
def isJSWhiteSpace (c : Char) : Bool :=
  [0x09, 0x0A, 0x0B, 0x0C, 0x0D, 0x20, 0xA0, 0x1680, 0x2000, 0x2001, 0x2002, 0x2003,
   0x2004, 0x2005, 0x2006, 0x2007, 0x2008, 0x2009, 0x200A, 0x2028, 0x2029, 0x202F,
   0x205F, 0x3000, 0xFEFF].contains c.toNat

/-- Drop the white space at the end of a character list. -/
def dropTrailingWs (cs : List Char) : List Char :=
  (cs.reverse.dropWhile isJSWhiteSpace).reverse

/-- The builtin `String.prototype.trim`: strip white space at both ends. -/
def jsTrim (s : String) : String :=
  ⟨dropTrailingWs (s.data.dropWhile isJSWhiteSpace)⟩

/-- The decimal digit character of `d < 10`. -/
def digitChar (d : Nat) : Char :=
  match d with
  | 0 => '0' | 1 => '1' | 2 => '2' | 3 => '3' | 4 => '4'
  | 5 => '5' | 6 => '6' | 7 => '7' | 8 => '8' | _ => '9'

/-- The value of a decimal digit character. -/
def charDigit? (c : Char) : Option Nat :=
  if 48 ≤ c.toNat ∧ c.toNat ≤ 57 then some (c.toNat - 48) else none

/-- Decimal digits of `n`, least significant first. -/
def digitsRev : Nat → Nat → List Nat
  | 0, _ => []
  | fuel + 1, n => if n < 10 then [n] else (n % 10) :: digitsRev fuel (n / 10)

/-- The property name of array index `n` (`ToString` of the number). -/
def indexKey (n : Nat) : String :=
  ⟨((digitsRev (n + 1) n).reverse).map digitChar⟩

/-- Read a digit string, most significant digit first. -/
def parseDigits : List Char → Nat → Option Nat
  | [], acc => some acc
  | c :: cs, acc =>
    match charDigit? c with
    | some d => parseDigits cs (acc * 10 + d)
    | none => none

/-- The number denoted by a canonical numeric name: `k` is the decimal
rendering of exactly that number (no sign, no leading zero). -/
def canonicalIndex? (k : String) : Option Nat :=
  match parseDigits k.data 0 with
  | some n => if indexKey n = k then some n else none
  | none => none

/-- ECMAScript array index: a canonical numeric name below `2^32 - 1`. -/
def arrayIndex? (k : String) : Option Nat :=
  match canonicalIndex? k with
  | some n => if n < 2 ^ 32 - 1 then some n else none
  | none => none

/-! ## Own properties -/

/-- Names of a property list, in enumeration order. -/
def propNames (fs : List (String × JSValue)) : List String := fs.map Prod.fst

/-- First value stored under `k` in a property list. -/
def lookupProp (k : String) : List (String × JSValue) → Option JSValue
  | [] => none
  | (k', v) :: fs => if k' = k then some v else lookupProp k fs

/-- Overwrite the value of the existing property `k`, keeping its place. -/
def replaceProp (k : String) (v : JSValue) : List (String × JSValue) → List (String × JSValue)
  | [] => []
  | (k', v') :: fs => if k' = k then (k, v) :: fs else (k', v') :: replaceProp k v fs

/-- Whether a new property `k` is enumerated before the existing property
`k'`: only an array index is, before a larger index or a plain name. -/
def enumeratedBefore (k k' : String) : Bool :=
  match arrayIndex? k, arrayIndex? k' with
  | some n, some m => decide (n < m)
  | some _, none => true
  | none, _ => false

/-- Create the property `k`, at the place ECMAScript enumerates it. -/
def insertProp (k : String) (v : JSValue) : List (String × JSValue) → List (String × JSValue)
  | [] => [(k, v)]
  | (k', v') :: fs =>
    if enumeratedBefore k k' then (k, v) :: (k', v') :: fs
    else (k', v') :: insertProp k v fs

/-- The property list after a write that updates the own property `k` or
creates it. -/
def setNames (k : String) (v : JSValue) (fs : List (String × JSValue)) : List (String × JSValue) :=
  if (propNames fs).contains k then replaceProp k v fs else insertProp k v fs

/-- The operator `typeof`. -/
def typeOf : JSValue → String
  | .undefined => "undefined"
  | .null => "object"
  | .bool _ => "boolean"
  | .number _ => "number"
  | .string _ => "string"
  | .date _ => "object"
  | .array _ => "object"
  | .object _ => "object"

/-- The builtin `Array.isArray`. -/
def isArray : JSValue → Bool
  | .array _ => true
  | _ => false

/-- The conversion `ToBoolean`. -/
def toBoolean : JSValue → Bool
  | .undefined => false
  | .null => false
  | .bool b => b
  | .number n => decide (n ≠ 0)
  | .string s => decide (s ≠ "")
  | _ => true

/-- The builtin `Object.keys`: own enumerable names in enumeration order; it
throws on `undefined` and `null`. -/
def objectKeys : JSValue → Except Fault (List String)
  | .undefined => .error .typeError
  | .null => .error .typeError
  | .string s => .ok ((List.range s.length).map indexKey)
  | .array xs => .ok ((List.range xs.length).map indexKey)
  | .object fs => .ok (propNames fs)
  | _ => .ok []

/-- The names of the own data properties of `Object.prototype`: `constructor`
and the methods.  None of them has a setter. -/
def objectPrototypeMethods : List String :=
  ["constructor", "__defineGetter__", "__defineSetter__", "hasOwnProperty",
   "__lookupGetter__", "__lookupSetter__", "isPrototypeOf", "propertyIsEnumerable",
   "toString", "valueOf", "toLocaleString"]

/-- The builtin method `Object.prototype.hasOwnProperty` applied to a value that
is not `undefined` or `null`: the own-property test. -/
def ownProperty (obj : JSValue) (k : String) : Bool :=
  match obj with
  | .object fs => (propNames fs).contains k
  | .array xs =>
    k = "length" ||
      (match canonicalIndex? k with
       | some i => decide (i < xs.length)
       | none => false)
  | .string s =>
    k = "length" ||
      (match canonicalIndex? k with
       | some i => decide (i < s.length)
       | none => false)
  | _ => false

/-- The method call `obj.hasOwnProperty(k)`.  Reading the method of `undefined`
or `null` throws.  On an object with an own property named `hasOwnProperty`
the call is of that property's value, which is data and not a function, and
throws.  Otherwise the name resolves to the builtin method. -/
def hasOwnProperty (obj : JSValue) (k : String) : Except Fault Bool :=
  match obj with
  | .undefined => .error .typeError
  | .null => .error .typeError
  | .object fs =>
    if (propNames fs).contains "hasOwnProperty" then .error .typeError
    else .ok (ownProperty obj k)
  | other => .ok (ownProperty other k)

/-- Property read `obj[k]` for own properties; a name that is not an own
property reads as `undefined`. -/
def getProp (obj : JSValue) (k : String) : JSValue :=
  match obj with
  | .object fs => (lookupProp k fs).getD .undefined
  | .array xs =>
    if k = "length" then .number xs.length
    else
      match canonicalIndex? k with
      | some i => xs.getD i .undefined
      | none => .undefined
  | .string s =>
    if k = "length" then .number s.length
    else
      match canonicalIndex? k with
      | some i =>
        (match s.data.get? i with
         | some c => .string (String.singleton c)
         | none => .undefined)
      | none => .undefined
  | _ => .undefined

/-- Property write `obj[k] = v` in non-strict code.  An object updates the own
property in place or creates it; the name `__proto__`, when it is not an own
property, is the accessor of `Object.prototype`, whose setter creates no
property (the prototype it may set is not part of a value).  An array stores
at an index below its length (the code writes to no other name of an array);
a write on a primitive is ignored. -/
def setProp (obj : JSValue) (k : String) (v : JSValue) : JSValue :=
  match obj with
  | .object fs =>
    if k = "__proto__" ∧ (propNames fs).contains k = false then .object fs
    else .object (setNames k v fs)
  | .array xs =>
    match canonicalIndex? k with
    | some i => .array (xs.set i v)
    | none => .array xs
  | other => other

mutual
/-- The external `clone` package: a deep copy.  A primitive, `null` and
`undefined` are returned as they are, a date is copied, and an array is
copied element by element. -/
def clone : JSValue → JSValue
  | .array xs => .array (cloneList xs)
  | .object fs => .object (cloneFields fs)
  | other => other
/-- The copies of the elements of an array. -/
def cloneList : List JSValue → List JSValue
  | [] => []
  | x :: xs => clone x :: cloneList xs
/-- The copy loop `for (var i in parent)` of `clone` on a plain object, whose
prototype is `Object.prototype`.  A name that `Object.prototype` holds as a
property without a setter is passed over (`continue`).  For the name
`__proto__` the assignment `child[i] = ...` runs the setter of
`Object.prototype` and creates no property.  Every other property is created
in the copy, in enumeration order, with the copy of its value. -/
def cloneFields : List (String × JSValue) → List (String × JSValue)
  | [] => []
  | (k, v) :: fs =>
    if objectPrototypeMethods.contains k then cloneFields fs
    else if k = "__proto__" then cloneFields fs
    else (k, clone v) :: cloneFields fs
end

mutual
/-- No property, at any depth, is named like a property of `Object.prototype`:
`clone` then copies every property, and the copy has the prototype of the
original. -/
def ordinaryNames : JSValue → Bool
  | .array xs => ordinaryNamesList xs
  | .object fs => ordinaryNamesFields fs
  | _ => true
/-- The same for the elements of an array. -/
def ordinaryNamesList : List JSValue → Bool
  | [] => true
  | x :: xs => ordinaryNames x && ordinaryNamesList xs
/-- The same for the properties of an object. -/
def ordinaryNamesFields : List (String × JSValue) → Bool
  | [] => true
  | (k, v) :: fs =>
    !objectPrototypeMethods.contains k && !(k == "__proto__") && ordinaryNames v &&
      ordinaryNamesFields fs
end

/-! ## `extractKeysFromObject` -/

/-- The prototype of an object: `Object.prototype`, none, or a data object (a
mapping, an array or a date) that a write to `__proto__` has put there. -/
inductive Proto where
  | objectPrototype
  | null
  | date (t : Int)
  | array (xs : List JSValue)
  | object (fields : List (String × JSValue))

/-- An object with its prototype and its own enumerable properties.  A plain
mapping has the prototype `Object.prototype`. -/
structure JSObject where
  proto : Proto
  fields : List (String × JSValue)

/-- The prototype that the setter of `__proto__` installs for the assigned
value: the value itself when it is an object or `null`; any other value is
ignored. -/
def protoOf : JSValue → Option Proto
  | .null => some .null
  | .date t => some (.date t)
  | .array xs => some (.array xs)
  | .object fs => some (.object fs)
  | _ => none

namespace JSObject

/-- The name `k` is not found on the prototype chain before `Object.prototype`:
a prototype that is a mapping does not hold it as an own property, and the
chain does not end before `Object.prototype`.  (An array or a date holds
neither `hasOwnProperty` nor `__proto__`, the names this is asked for.) -/
def reachesObjectPrototype (o : JSObject) (k : String) : Bool :=
  match o.proto with
  | .objectPrototype => true
  | .null => false
  | .date _ => true
  | .array _ => true
  | .object gs => !(propNames gs).contains k

/-- The builtin `Object.keys`. -/
def objectKeys (o : JSObject) : List String := propNames o.fields

/-- The method call `obj.hasOwnProperty(k)`.  The name resolves to an own
property of that name, else along the prototype chain; what is found before
`Object.prototype` is data, not a function, and calling it throws, as does
calling `undefined` when the chain ends without the name.  The builtin method
is the own-property test. -/
def hasOwnProperty (o : JSObject) (k : String) : Except Fault Bool :=
  if (propNames o.fields).contains "hasOwnProperty" then .error .typeError
  else if o.reachesObjectPrototype "hasOwnProperty" then .ok ((propNames o.fields).contains k)
  else .error .typeError

/-- Property read `obj[k]` of an own property. -/
def getProp (o : JSObject) (k : String) : JSValue :=
  (lookupProp k o.fields).getD .undefined

/-- Property write `obj[k] = v` in non-strict code.  An own property is
updated in place.  Otherwise the name `__proto__`, when it resolves to the
accessor of `Object.prototype`, runs the setter: an object or `null` becomes
the prototype, any other value is ignored, and no property is created.  In
every other case the own property is created, at the place ECMAScript
enumerates it. -/
def setProp (o : JSObject) (k : String) (v : JSValue) : JSObject :=
  if (propNames o.fields).contains k then { o with fields := replaceProp k v o.fields }
  else if k = "__proto__" ∧ o.reachesObjectPrototype "__proto__" = true then
    match protoOf v with
    | some p => { o with proto := p }
    | none => o
  else { o with fields := insertProp k v o.fields }

end JSObject

/-- The `for` loop of `extractKeysFromObject`, from position `i` on, with the
object built so far. -/
def extractKeysLoop (obj : JSObject) : List String → JSObject → Except Fault JSObject
  | [], newObj => .ok newObj
  | f :: rest, newObj =>
    match obj.hasOwnProperty f with
    | .error e => .error e
    | .ok true => extractKeysLoop obj rest (newObj.setProp f (obj.getProp f))
    | .ok false => extractKeysLoop obj rest newObj

/-- Source: `extractKeysFromObject (obj, fieldArray)`; `newObj` starts as `{}`. -/
def extractKeysFromObject (obj : JSObject) (fieldArray : List String) : Except Fault JSObject :=
  extractKeysLoop obj fieldArray ⟨.objectPrototype, []⟩

/-- What the loop of `extractKeysFromObject` builds from the own properties
`fs` when no write meets the accessor `__proto__`: each name of `fieldArray`
that is an own property is updated or created with the value `fs` holds. -/
def extractFields (fs : List (String × JSValue)) :
    List String → List (String × JSValue) → List (String × JSValue)
  | [], acc => acc
  | f :: rest, acc =>
    if (propNames fs).contains f then
      extractFields fs rest (setNames f ((lookupProp f fs).getD .undefined) acc)
    else extractFields fs rest acc

/-- The names of `ks` in the order of their first occurrence, each once. -/
def firstOccurrences : List String → List String
  | [] => []
  | k :: ks => k :: (firstOccurrences ks).filter (fun x => decide (x ≠ k))

/-- Both names are array indices and the first is the smaller number. -/
def indexLt (a b : String) : Bool :=
  match arrayIndex? a, arrayIndex? b with
  | some n, some m => decide (n < m)
  | _, _ => false

/-- The names of `fieldArray` that are own properties of `obj`. -/
def matchedNames (obj : JSValue) (fieldArray : List String) : List String :=
  fieldArray.filter (fun k => ownProperty obj k)

/-- The name list after a new name `k` is created. -/
def insertName (k : String) : List String → List String
  | [] => [k]
  | k' :: ks => if enumeratedBefore k k' then k :: k' :: ks else k' :: insertName k ks

/-- The matched names of `fieldArray` that are not array indices. -/
def plainMatched (obj : JSValue) (fieldArray : List String) : List String :=
  (matchedNames obj fieldArray).filter (fun k => (arrayIndex? k).isNone)

/-! ## `trimObject` and `trimNestedObject` -/

/-- The method call `v.trim()` on a string value. -/
def callTrim : JSValue → JSValue
  | .string s => .string (jsTrim s)
  | v => v

/-- The loop bound `v.length` of an array or a string. -/
def lengthOf : JSValue → Nat
  | .array xs => xs.length
  | .string s => s.length
  | _ => 0

/-- The inner `for` loop over `j`: trim the string elements of `arr`. -/
def trimElementsLoop : List Nat → JSValue → JSValue
  | [], arr => arr
  | j :: js, arr =>
    if typeOf (getProp arr (indexKey j)) = "string" then
      trimElementsLoop js (setProp arr (indexKey j) (callTrim (getProp arr (indexKey j))))
    else trimElementsLoop js arr

/-- The inner loop run on the whole of `arr`. -/
def trimElements (arr : JSValue) : JSValue :=
  trimElementsLoop (List.range (lengthOf arr)) arr

/-- The `for` loop of `trimObject` over the remaining names `fields`.  Each
test begins with the call `obj.hasOwnProperty(fields[i])`, which can throw.
The second test applies `Array.isArray` to the name `fields[i]`, a string. -/
def trimObjectLoop (notTrimFields : List String) : List String → JSValue → Except Fault JSValue
  | [], obj => .ok obj
  | f :: rest, obj =>
    match hasOwnProperty obj f with
    | .error e => .error e
    | .ok own =>
      if own = true ∧ typeOf (getProp obj f) = "string" ∧ f ∉ notTrimFields then
        trimObjectLoop notTrimFields rest (setProp obj f (callTrim (getProp obj f)))
      else if own = true ∧ isArray (.string f) = true ∧ f ∉ notTrimFields then
        trimObjectLoop notTrimFields rest (setProp obj f (trimElements (getProp obj f)))
      else trimObjectLoop notTrimFields rest obj

/-- Source: `trimObject (inpObj)`. -/
def trimObject (notTrimFields : List String) (inpObj : JSValue) : Except Fault JSValue :=
  match objectKeys (clone inpObj) with
  | .ok fields => trimObjectLoop notTrimFields fields (clone inpObj)
  | .error e => .error e

/-- The `for` loop of `trimNestedObject` over the remaining names; `recur` is
the recursive call.  Each test begins with the call
`obj.hasOwnProperty(fields[i])`, which can throw. -/
def trimNestedLoop (notTrimFields : List String) (recur : JSValue → Except Fault JSValue) :
    List String → JSValue → Except Fault JSValue
  | [], obj => .ok obj
  | f :: rest, obj =>
    match hasOwnProperty obj f with
    | .error e => .error e
    | .ok own =>
      if own = true ∧ typeOf (getProp obj f) = "string" ∧ f ∉ notTrimFields then
        trimNestedLoop notTrimFields recur rest (setProp obj f (callTrim (getProp obj f)))
      else if own = true ∧ typeOf (getProp obj f) = "object" ∧ f ∉ notTrimFields then
        match recur (getProp obj f) with
        | .ok r => trimNestedLoop notTrimFields recur rest (setProp obj f r)
        | .error e => .error e
      else if own = true ∧ isArray (.string f) = true ∧ f ∉ notTrimFields then
        trimNestedLoop notTrimFields recur rest (setProp obj f (trimElements (getProp obj f)))
      else trimNestedLoop notTrimFields recur rest obj

/-- Source: `trimNestedObject (inpObj)`, with `fuel` bounding the nesting of
recursive calls. -/
def trimNestedObject (notTrimFields : List String) : Nat → JSValue → Except Fault JSValue
  | 0, _ => .error .outOfFuel
  | fuel + 1, inpObj =>
    match objectKeys (clone inpObj) with
    | .ok fields =>
      trimNestedLoop notTrimFields (trimNestedObject notTrimFields fuel) fields (clone inpObj)
    | .error e => .error e

/-! ## A structural description of `trimNestedObject`

The description is of the run of `trimNestedObject` on a value with ordinary
names, which `clone` copies whole; on any other value the function runs on the
copy that `clone` makes of it. -/

mutual
/-- What `trimNestedObject` makes of the value of a field that is not exempt:
a string is trimmed, a value of type `object` is traversed (`null` cannot be),
any other value is kept. -/
def trimValue (notTrimFields : List String) : JSValue → Except Fault JSValue
  | .string s => .ok (.string (jsTrim s))
  | .null => .error .typeError
  | .array xs =>
    match trimElems notTrimFields 0 xs with
    | .ok r => .ok (.array r)
    | .error e => .error e
  | .object fs =>
    match trimFields notTrimFields fs with
    | .ok r => .ok (.object r)
    | .error e => .error e
  | .undefined => .ok .undefined
  | .bool b => .ok (.bool b)
  | .number n => .ok (.number n)
  | .date t => .ok (.date t)
/-- The elements of an array from index `i` on, each under its index name. -/
def trimElems (notTrimFields : List String) : Nat → List JSValue → Except Fault (List JSValue)
  | _, [] => .ok []
  | i, x :: xs =>
    match (if indexKey i ∈ notTrimFields then Except.ok x else trimValue notTrimFields x) with
    | .ok x' =>
      (match trimElems notTrimFields (i + 1) xs with
       | .ok xs' => .ok (x' :: xs')
       | .error e => .error e)
    | .error e => .error e
/-- The properties of an object, each under its name. -/
def trimFields (notTrimFields : List String) :
    List (String × JSValue) → Except Fault (List (String × JSValue))
  | [] => .ok []
  | (k, v) :: fs =>
    match (if k ∈ notTrimFields then Except.ok v else trimValue notTrimFields v) with
    | .ok v' =>
      (match trimFields notTrimFields fs with
       | .ok fs' => .ok ((k, v') :: fs')
       | .error e => .error e)
    | .error e => .error e
end

/-- What `trimNestedObject` makes of its argument: as `trimValue`, except that
a string argument is returned as it is and `undefined` cannot be traversed. -/
def trimNestedResult (notTrimFields : List String) : JSValue → Except Fault JSValue
  | .string s => .ok (.string s)
  | .undefined => .error .typeError
  | v => trimValue notTrimFields v

mutual
/-- No `null` sits in a position that `trimNestedObject` traverses: the value of
a field that is not exempt is not `null`, and so on inside it. -/
def noNullReached (notTrimFields : List String) : JSValue → Bool
  | .null => false
  | .array xs => noNullReachedElems notTrimFields 0 xs
  | .object fs => noNullReachedFields notTrimFields fs
  | _ => true
/-- The same for the elements of an array from index `i` on. -/
def noNullReachedElems (notTrimFields : List String) : Nat → List JSValue → Bool
  | _, [] => true
  | i, x :: xs =>
    (decide (indexKey i ∈ notTrimFields) || noNullReached notTrimFields x) &&
      noNullReachedElems notTrimFields (i + 1) xs
/-- The same for the properties of an object. -/
def noNullReachedFields (notTrimFields : List String) : List (String × JSValue) → Bool
  | [] => true
  | (k, v) :: fs =>
    (decide (k ∈ notTrimFields) || noNullReached notTrimFields v) &&
      noNullReachedFields notTrimFields fs
end

/-- The value found by following the names `path` from `v` through nested
mappings. -/
def getPath : JSValue → List String → Option JSValue
  | v, [] => some v
  | .object fs, k :: ks =>
    match lookupProp k fs with
    | some v => getPath v ks
    | none => none
  | _, _ :: _ => none

/-! ## `validate` -/

/-- The external schema validator `pod-ajv`: `validate schema data` is the
verdict of the call `podAjv.validate(schema, data)`, and `errors schema data`
the value of the property `podAjv.errors` after that call.  The validator's
contract is that a call which rejects exposes the list of violations, so that
`errors` is not `null` then. -/
structure PodAjv where
  validate : JSValue → JSValue → Bool
  errors : JSValue → JSValue → JSValue
  errors_of_reject : ∀ schema data, validate schema data = false → errors schema data ≠ .null

/-- Source: `validate (schema, data)`. -/
def validate (podAjv : PodAjv) (schema data : JSValue) : JSValue :=
  let validateResult := JSValue.object [("status", .bool true), ("errors", .null)]
  if !podAjv.validate schema data then
    setProp (setProp validateResult "status" (.bool false)) "errors" (podAjv.errors schema data)
  else validateResult

/-! ## `PodError` -/

/-- The fields that the constructor of `PodError` sets. -/
structure PodError where
  code : JSValue
  message : JSValue
  originalResult : JSValue

/-- The operator `a || b`. -/
def jsOr (a b : JSValue) : JSValue :=
  if toBoolean a then a else b

/-- Source: `constructor (code, message, originalResult)` of `PodError`; an
argument that is not supplied is `undefined`. -/
def PodError.construct (code message originalResult : JSValue) : PodError :=
  { code := code, message := message, originalResult := jsOr originalResult .null }

/-! ## Shape of a value and flat mappings -/

mutual
/-- The two values have the same shape: the same kind at every place, the same
field names in the same order, the same array lengths, and equal leaves except
that two strings may differ in their contents. -/
def sameShape : JSValue → JSValue → Bool
  | .undefined, .undefined => true
  | .null, .null => true
  | .bool a, .bool b => a == b
  | .number a, .number b => a == b
  | .string _, .string _ => true
  | .date a, .date b => a == b
  | .array xs, .array ys => sameShapeList xs ys
  | .object fs, .object gs => sameShapeFields fs gs
  | _, _ => false
/-- Element lists of the same length and pairwise of the same shape. -/
def sameShapeList : List JSValue → List JSValue → Bool
  | [], [] => true
  | x :: xs, y :: ys => sameShape x y && sameShapeList xs ys
  | _, _ => false
/-- Property lists with the same names in the same order and values pairwise of
the same shape. -/
def sameShapeFields : List (String × JSValue) → List (String × JSValue) → Bool
  | [], [] => true
  | (k, x) :: xs, (l, y) :: ys => k == l && sameShape x y && sameShapeFields xs ys
  | _, _ => false
end

/-- A string, a number or a boolean. -/
def isFlatValue : JSValue → Bool
  | .string _ => true
  | .number _ => true
  | .bool _ => true
  | _ => false

/-- A mapping all of whose field values are strings, numbers or booleans. -/
def isFlat (fs : List (String × JSValue)) : Bool :=
  fs.all (fun p => isFlatValue p.2)

/-! ## Calendar strings -/

/-- The value `moment(date)` as the format strings of `lib/main.js` read it: the
Jalaali date and the local time of day of the timestamp.  Computing these
fields from a `Date` is the work of the external packages `moment` and
`moment-jalaali`. -/
structure Moment where
  jYear : Nat
  jMonth : Nat
  jDate : Nat
  hour : Nat
  minute : Nat
  second : Nat
  millisecond : Nat

/-- The helper `zeroFill` of `moment`: the decimal digits of `n`, with zeros on
the left up to `width` characters. -/
def zeroFill (n width : Nat) : List Char :=
  List.replicate (width - (indexKey n).length) '0' ++ (indexKey n).data

/-- The method `format` of `moment` with `moment-jalaali`, for the tokens of the
format strings of `lib/main.js` and the seconds token: `jYYYY`, `jMM`, `jDD`
(Jalaali year, month, day), `HH`, `mm`, `ss` (hour, minute, second) and `SS`
(hundredths of a second); any other character is copied. -/
def momentFormat (m : Moment) : List Char → List Char
  | 'j' :: 'Y' :: 'Y' :: 'Y' :: 'Y' :: rest => zeroFill m.jYear 4 ++ momentFormat m rest
  | 'j' :: 'M' :: 'M' :: rest => zeroFill m.jMonth 2 ++ momentFormat m rest
  | 'j' :: 'D' :: 'D' :: rest => zeroFill m.jDate 2 ++ momentFormat m rest
  | 'H' :: 'H' :: rest => zeroFill m.hour 2 ++ momentFormat m rest
  | 'm' :: 'm' :: rest => zeroFill m.minute 2 ++ momentFormat m rest
  | 's' :: 's' :: rest => zeroFill m.second 2 ++ momentFormat m rest
  | 'S' :: 'S' :: rest => zeroFill (m.millisecond / 10) 2 ++ momentFormat m rest
  | c :: rest => c :: momentFormat m rest
  | [] => []

/-- Source: `toShamsiDateString (date)`; the argument is the value
`moment(date)`. -/
def toShamsiDateString (date : Moment) : String :=
  ⟨momentFormat date "jYYYY/jMM/jDD".data⟩

/-- Source: `toShamsiDateTimeString (date)`; the argument is the value
`moment(date)`. -/
def toShamsiDateTimeString (date : Moment) : String :=
  ⟨momentFormat date "jYYYY/jMM/jDD HH:mm:SS".data⟩

/-! ## Objects by reference

The functions above work on values as trees.  Whether a call changes the
object that the caller passed is a question about references, so `trimObject`
and `trimNestedObject` are given a second rendering over a store: a variable
or a property holds a primitive or the address of an object, and a property
write changes the object at that address. -/

/-- What a variable, a property or an array element holds: a primitive, or the
address of an object of the store. -/
inductive Slot where
  | undefined
  | null
  | bool (b : Bool)
  | number (n : Int)
  | string (s : String)
  | ref (a : Nat)
  deriving DecidableEq

/-- An object of the store. -/
inductive Cell where
  | date (t : Int)
  | array (xs : List Slot)
  | object (fields : List (String × Slot))
  deriving DecidableEq

/-- The store: the objects allocated so far, each at its position. -/
abbrev Store := List Cell

namespace Store

/-- First slot stored under `k` in a property list. -/
def lookupSlot (k : String) : List (String × Slot) → Option Slot
  | [] => none
  | (k', v) :: fs => if k' = k then some v else lookupSlot k fs

/-- Overwrite the slot of the existing property `k`, keeping its place. -/
def replaceSlot (k : String) (v : Slot) : List (String × Slot) → List (String × Slot)
  | [] => []
  | (k', v') :: fs => if k' = k then (k, v) :: fs else (k', v') :: replaceSlot k v fs

/-- Create the property `k`, at the place ECMAScript enumerates it. -/
def insertSlot (k : String) (v : Slot) : List (String × Slot) → List (String × Slot)
  | [] => [(k, v)]
  | (k', v') :: fs =>
    if enumeratedBefore k k' then (k, v) :: (k', v') :: fs
    else (k', v') :: insertSlot k v fs

/-- The property list of an object after the write `obj[k] = v`. -/
def setSlots (k : String) (v : Slot) (fs : List (String × Slot)) : List (String × Slot) :=
  if (fs.map Prod.fst).contains k then replaceSlot k v fs else insertSlot k v fs

/-- The operator `typeof`: every object of the store has type `'object'`. -/
def typeOf : Slot → String
  | .undefined => "undefined"
  | .null => "object"
  | .bool _ => "boolean"
  | .number _ => "number"
  | .string _ => "string"
  | .ref _ => "object"

/-- The builtin `Array.isArray`. -/
def isArray (h : Store) : Slot → Bool
  | .ref a =>
    match h[a]? with
    | some (.array _) => true
    | _ => false
  | _ => false

/-- The method call `v.trim()` on a string. -/
def callTrim : Slot → Slot
  | .string s => .string (jsTrim s)
  | v => v

/-- The builtin `Object.keys`. -/
def objectKeys (h : Store) : Slot → Except Fault (List String)
  | .undefined => .error .typeError
  | .null => .error .typeError
  | .string s => .ok ((List.range s.length).map indexKey)
  | .ref a =>
    match h[a]? with
    | some (.array xs) => .ok ((List.range xs.length).map indexKey)
    | some (.object fs) => .ok (fs.map Prod.fst)
    | _ => .ok []
  | _ => .ok []

/-- The builtin method `Object.prototype.hasOwnProperty`: the own-property
test. -/
def ownProperty (h : Store) (obj : Slot) (k : String) : Bool :=
  match obj with
  | .ref a =>
    match h[a]? with
    | some (.object fs) => (fs.map Prod.fst).contains k
    | some (.array xs) =>
      k = "length" ||
        (match canonicalIndex? k with
         | some i => decide (i < xs.length)
         | none => false)
    | _ => false
  | .string s =>
    k = "length" ||
      (match canonicalIndex? k with
       | some i => decide (i < s.length)
       | none => false)
  | _ => false

/-- The method call `obj.hasOwnProperty(k)`: it throws on `undefined` and
`null`, and on an object whose own property `hasOwnProperty` shadows the
builtin method. -/
def hasOwnProperty (h : Store) (obj : Slot) (k : String) : Except Fault Bool :=
  match obj with
  | .undefined => .error .typeError
  | .null => .error .typeError
  | .ref a =>
    match h[a]? with
    | some (.object fs) =>
      if (fs.map Prod.fst).contains "hasOwnProperty" then .error .typeError
      else .ok (ownProperty h obj k)
    | _ => .ok (ownProperty h obj k)
  | other => .ok (ownProperty h other k)

/-- Property read `obj[k]` for own properties. -/
def getProp (h : Store) (obj : Slot) (k : String) : Slot :=
  match obj with
  | .ref a =>
    match h[a]? with
    | some (.object fs) => (lookupSlot k fs).getD .undefined
    | some (.array xs) =>
      if k = "length" then .number xs.length
      else
        match canonicalIndex? k with
        | some i => xs.getD i .undefined
        | none => .undefined
    | _ => .undefined
  | .string s =>
    if k = "length" then .number s.length
    else
      match canonicalIndex? k with
      | some i =>
        (match s.data.get? i with
         | some c => .string (String.singleton c)
         | none => .undefined)
      | none => .undefined
  | _ => .undefined

/-- Property write `obj[k] = v`: the object at the address of `obj` changes; a
write on a primitive is ignored, and so is, for the own properties, a write to
the accessor `__proto__`. -/
def setProp (h : Store) (obj : Slot) (k : String) (v : Slot) : Store :=
  match obj with
  | .ref a =>
    match h[a]? with
    | some (.object fs) =>
      if k = "__proto__" ∧ (fs.map Prod.fst).contains k = false then h
      else h.set a (.object (setSlots k v fs))
    | some (.array xs) =>
      (match canonicalIndex? k with
       | some i => h.set a (.array (xs.set i v))
       | none => h)
    | _ => h
  | _ => h

/-- Copy the elements of an array one after the other with `recur`. -/
def cloneSlots (recur : Store → Slot → Store × Except Fault Slot) :
    Store → List Slot → Store × Except Fault (List Slot)
  | h, [] => (h, .ok [])
  | h, x :: xs =>
    match recur h x with
    | (h₁, .ok y) =>
      (match cloneSlots recur h₁ xs with
       | (h₂, .ok ys) => (h₂, .ok (y :: ys))
       | (h₂, .error e) => (h₂, .error e))
    | (h₁, .error e) => (h₁, .error e)

/-- Copy the property values of an object one after the other with `recur`,
leaving out the names that the copy loop of `clone` does not create. -/
def cloneFields (recur : Store → Slot → Store × Except Fault Slot) :
    Store → List (String × Slot) → Store × Except Fault (List (String × Slot))
  | h, [] => (h, .ok [])
  | h, (k, x) :: fs =>
    if objectPrototypeMethods.contains k then cloneFields recur h fs
    else
      match recur h x with
      | (h₁, .ok y) =>
        if k = "__proto__" then cloneFields recur h₁ fs
        else
          (match cloneFields recur h₁ fs with
           | (h₂, .ok gs) => (h₂, .ok ((k, y) :: gs))
           | (h₂, .error e) => (h₂, .error e))
      | (h₁, .error e) => (h₁, .error e)

/-- The external `clone` package: a deep copy.  A primitive is returned as it
is; for an object the parts are copied first and the copy is allocated at a new
address.  `fuel` bounds the nesting. -/
def clone : Nat → Store → Slot → Store × Except Fault Slot
  | 0, h, .ref _ => (h, .error .outOfFuel)
  | fuel + 1, h, .ref a =>
    (match h[a]? with
     | some (.date t) => (h ++ [.date t], .ok (.ref h.length))
     | some (.array xs) =>
       (match cloneSlots (clone fuel) h xs with
        | (h₁, .ok ys) => (h₁ ++ [.array ys], .ok (.ref h₁.length))
        | (h₁, .error e) => (h₁, .error e))
     | some (.object fs) =>
       (match cloneFields (clone fuel) h fs with
        | (h₁, .ok gs) => (h₁ ++ [.object gs], .ok (.ref h₁.length))
        | (h₁, .error e) => (h₁, .error e))
     | none => (h, .error .typeError))
  | _, h, other => (h, .ok other)

/-- The loop bound `v.length` of an array or a string. -/
def lengthOf (h : Store) : Slot → Nat
  | .ref a =>
    match h[a]? with
    | some (.array xs) => xs.length
    | _ => 0
  | .string s => s.length
  | _ => 0

/-- The inner `for` loop over `j`: trim the string elements of `arr` in place. -/
def trimElementsLoop : List Nat → Store → Slot → Store
  | [], h, _ => h
  | j :: js, h, arr =>
    if typeOf (getProp h arr (indexKey j)) = "string" then
      trimElementsLoop js (setProp h arr (indexKey j) (callTrim (getProp h arr (indexKey j)))) arr
    else trimElementsLoop js h arr

/-- The inner loop run on the whole of `arr`. -/
def trimElements (h : Store) (arr : Slot) : Store :=
  trimElementsLoop (List.range (lengthOf h arr)) h arr

/-- The `for` loop of `trimObject` over the remaining names, on the store. -/
def trimObjectLoop (notTrimFields : List String) :
    List String → Store → Slot → Store × Except Fault Unit
  | [], h, _ => (h, .ok ())
  | f :: rest, h, obj =>
    match hasOwnProperty h obj f with
    | .error e => (h, .error e)
    | .ok own =>
      if own = true ∧ typeOf (getProp h obj f) = "string" ∧ f ∉ notTrimFields then
        trimObjectLoop notTrimFields rest (setProp h obj f (callTrim (getProp h obj f))) obj
      else if own = true ∧ isArray h (.string f) = true ∧ f ∉ notTrimFields then
        trimObjectLoop notTrimFields rest (trimElements h (getProp h obj f)) obj
      else trimObjectLoop notTrimFields rest h obj

/-- Source: `trimObject (inpObj)`, on the store: the store after the call and
the returned reference. -/
def trimObject (notTrimFields : List String) (fuel : Nat) (h : Store) (inpObj : Slot) :
    Store × Except Fault Slot :=
  match clone fuel h inpObj with
  | (h₁, .ok obj) =>
    (match objectKeys h₁ obj with
     | .ok fields =>
       (match trimObjectLoop notTrimFields fields h₁ obj with
        | (h₂, .ok _) => (h₂, .ok obj)
        | (h₂, .error e) => (h₂, .error e))
     | .error e => (h₁, .error e))
  | (h₁, .error e) => (h₁, .error e)

/-- The `for` loop of `trimNestedObject` over the remaining names, on the
store; `recur` is the recursive call. -/
def trimNestedLoop (notTrimFields : List String)
    (recur : Store → Slot → Store × Except Fault Slot) :
    List String → Store → Slot → Store × Except Fault Unit
  | [], h, _ => (h, .ok ())
  | f :: rest, h, obj =>
    match hasOwnProperty h obj f with
    | .error e => (h, .error e)
    | .ok own =>
      if own = true ∧ typeOf (getProp h obj f) = "string" ∧ f ∉ notTrimFields then
        trimNestedLoop notTrimFields recur rest
          (setProp h obj f (callTrim (getProp h obj f))) obj
      else if own = true ∧ typeOf (getProp h obj f) = "object" ∧ f ∉ notTrimFields then
        match recur h (getProp h obj f) with
        | (h₁, .ok r) => trimNestedLoop notTrimFields recur rest (setProp h₁ obj f r) obj
        | (h₁, .error e) => (h₁, .error e)
      else if own = true ∧ isArray h (.string f) = true ∧ f ∉ notTrimFields then
        trimNestedLoop notTrimFields recur rest (trimElements h (getProp h obj f)) obj
      else trimNestedLoop notTrimFields recur rest h obj

/-- Source: `trimNestedObject (inpObj)`, on the store. -/
def trimNestedObject (notTrimFields : List String) :
    Nat → Store → Slot → Store × Except Fault Slot
  | 0, h, _ => (h, .error .outOfFuel)
  | fuel + 1, h, inpObj =>
    match clone fuel h inpObj with
    | (h₁, .ok obj) =>
      (match objectKeys h₁ obj with
       | .ok fields =>
         (match trimNestedLoop notTrimFields (trimNestedObject notTrimFields fuel) fields h₁ obj with
          | (h₂, .ok _) => (h₂, .ok obj)
          | (h₂, .error e) => (h₂, .error e))
       | .error e => (h₁, .error e))
    | (h₁, .error e) => (h₁, .error e)

/-- Read the elements of an array with `recur`. -/
def readSlots (recur : Slot → Option JSValue) : List Slot → Option (List JSValue)
  | [] => some []
  | x :: xs =>
    match recur x, readSlots recur xs with
    | some y, some ys => some (y :: ys)
    | _, _ => none

/-- Read the property values of an object with `recur`. -/
def readFields (recur : Slot → Option JSValue) :
    List (String × Slot) → Option (List (String × JSValue))
  | [] => some []
  | (k, x) :: fs =>
    match recur x, readFields recur fs with
    | some y, some gs => some ((k, y) :: gs)
    | _, _ => none

/-- The value that a slot denotes in the store, as a tree: what deep equality
compares.  `fuel` bounds the nesting. -/
def read : Nat → Store → Slot → Option JSValue
  | 0, _, _ => none
  | fuel + 1, h, v =>
    match v with
    | .undefined => some .undefined
    | .null => some .null
    | .bool b => some (.bool b)
    | .number n => some (.number n)
    | .string s => some (.string s)
    | .ref a =>
      match h[a]? with
      | some (.date t) => some (.date t)
      | some (.array xs) => (readSlots (read fuel h) xs).map JSValue.array
      | some (.object fs) => (readFields (read fuel h) fs).map JSValue.object
      | none => none

/-- The slot is a primitive or the address of an object of the store. -/
def holds (h : Store) : Slot → Bool
  | .ref a => decide (a < h.length)
  | _ => true

/-- The slots that an object holds. -/
def slotsOf : Cell → List Slot
  | .date _ => []
  | .array xs => xs
  | .object fs => fs.map Prod.snd

/-- Every reference held by an object of the store is to an object of the store. -/
def closed (h : Store) : Bool :=
  h.all (fun c => (slotsOf c).all (holds h))

end Store

/-! # Theorems -/

/-! ## Property lists -/

theorem propNames_replaceProp (k : String) (v : JSValue) (fs : List (String × JSValue)) :
    propNames (replaceProp k v fs) = propNames fs := by
  induction fs with
  | nil => rfl
  | cons p fs ih =>
    obtain ⟨k', v'⟩ := p
    by_cases h : k' = k
    · simp [replaceProp, propNames, h]
    · simpa [replaceProp, propNames, h] using ih

theorem mem_propNames_insertProp (k k' : String) (v : JSValue) (fs : List (String × JSValue)) :
    k' ∈ propNames (insertProp k v fs) ↔ k' = k ∨ k' ∈ propNames fs := by
  induction fs with
  | nil => simp [insertProp, propNames]
  | cons p fs ih =>
    obtain ⟨k₁, v₁⟩ := p
    by_cases h : enumeratedBefore k k₁ = true
    · simp [insertProp, propNames, h]
    · have ih' : k' ∈ List.map Prod.fst (insertProp k v fs) ↔ k' = k ∨ k' ∈ List.map Prod.fst fs := ih
      simp [insertProp, propNames, h, ih']
      tauto

theorem lookupProp_eq_none (k : String) (fs : List (String × JSValue)) (h : k ∉ propNames fs) :
    lookupProp k fs = none := by
  induction fs with
  | nil => rfl
  | cons p fs ih =>
    obtain ⟨k₁, v₁⟩ := p
    simp [propNames] at h
    have ih' := ih (by simpa [propNames] using h.2)
    have : ¬ k₁ = k := fun e => h.1 e.symm
    simp [lookupProp, this, ih']

theorem lookupProp_isSome_of_mem (k : String) (fs : List (String × JSValue))
    (h : k ∈ propNames fs) : ∃ v, lookupProp k fs = some v := by
  induction fs with
  | nil => simp [propNames] at h
  | cons p fs ih =>
    obtain ⟨k₁, v₁⟩ := p
    by_cases e : k₁ = k
    · exact ⟨v₁, by simp [lookupProp, e]⟩
    · have hk : k ∈ propNames fs := by
        simp [propNames] at h
        rcases h with h | h
        · exact absurd h.symm e
        · simpa [propNames] using h
      obtain ⟨v, hv⟩ := ih hk
      exact ⟨v, by simp [lookupProp, e, hv]⟩

theorem lookupProp_replaceProp_self (k : String) (v : JSValue) (fs : List (String × JSValue))
    (h : k ∈ propNames fs) : lookupProp k (replaceProp k v fs) = some v := by
  induction fs with
  | nil => simp [propNames] at h
  | cons p fs ih =>
    obtain ⟨k₁, v₁⟩ := p
    by_cases e : k₁ = k
    · simp [replaceProp, lookupProp, e]
    · have hk : k ∈ propNames fs := by
        simp [propNames] at h
        rcases h with h | h
        · exact absurd h.symm e
        · simpa [propNames] using h
      simp [replaceProp, lookupProp, e, ih hk]

theorem lookupProp_replaceProp_ne (k k' : String) (v : JSValue) (fs : List (String × JSValue))
    (h : k' ≠ k) : lookupProp k' (replaceProp k v fs) = lookupProp k' fs := by
  induction fs with
  | nil => rfl
  | cons p fs ih =>
    obtain ⟨k₁, v₁⟩ := p
    by_cases e : k₁ = k
    · have : ¬ k = k' := fun e' => h e'.symm
      have : ¬ k₁ = k' := by rw [e]; exact this
      simp [replaceProp, lookupProp, e, *]
    · by_cases e' : k₁ = k'
      · subst e'
        simp [replaceProp, lookupProp, e]
      · simp [replaceProp, lookupProp, e, e', ih]

theorem lookupProp_insertProp_self (k : String) (v : JSValue) (fs : List (String × JSValue))
    (h : k ∉ propNames fs) : lookupProp k (insertProp k v fs) = some v := by
  induction fs with
  | nil => simp [insertProp, lookupProp]
  | cons p fs ih =>
    obtain ⟨k₁, v₁⟩ := p
    simp [propNames] at h
    have hne : ¬ k₁ = k := fun e => h.1 e.symm
    by_cases hb : enumeratedBefore k k₁ = true
    · simp [insertProp, lookupProp, hb]
    · simp [insertProp, lookupProp, hb, hne, ih (by simpa [propNames] using h.2)]

theorem lookupProp_insertProp_ne (k k' : String) (v : JSValue) (fs : List (String × JSValue))
    (h : k' ≠ k) : lookupProp k' (insertProp k v fs) = lookupProp k' fs := by
  have hne : ¬ k = k' := fun e => h e.symm
  induction fs with
  | nil => simp [insertProp, lookupProp, hne]
  | cons p fs ih =>
    obtain ⟨k₁, v₁⟩ := p
    by_cases hb : enumeratedBefore k k₁ = true
    · simp [insertProp, lookupProp, hb, hne]
    · by_cases e' : k₁ = k'
      · subst e'
        simp [insertProp, lookupProp, hb]
      · simp [insertProp, lookupProp, hb, e', ih]

theorem setProp_object (k : String) (v : JSValue) (fs : List (String × JSValue))
    (h : k ∈ propNames fs) : setProp (.object fs) k v = .object (setNames k v fs) := by
  have hc : ¬ (k = "__proto__" ∧ (propNames fs).contains k = false) := by
    intro hh
    simp [h] at hh
  simp only [setProp, if_neg hc]

theorem mem_propNames_setNames (k k' : String) (v : JSValue) (fs : List (String × JSValue)) :
    k' ∈ propNames (setNames k v fs) ↔ k' = k ∨ k' ∈ propNames fs := by
  unfold setNames
  by_cases h : (propNames fs).contains k = true
  · rw [if_pos h, propNames_replaceProp]
    constructor
    · exact Or.inr
    · rintro (rfl | h')
      · simpa using h
      · exact h'
  · rw [if_neg h]
    exact mem_propNames_insertProp k k' v fs

theorem lookupProp_setNames_self (k : String) (v : JSValue) (fs : List (String × JSValue)) :
    lookupProp k (setNames k v fs) = some v := by
  unfold setNames
  by_cases h : (propNames fs).contains k = true
  · rw [if_pos h]
    exact lookupProp_replaceProp_self k v fs (by simpa using h)
  · rw [if_neg h]
    exact lookupProp_insertProp_self k v fs (by simpa using h)

theorem lookupProp_setNames_ne (k k' : String) (v : JSValue) (fs : List (String × JSValue))
    (h : k' ≠ k) : lookupProp k' (setNames k v fs) = lookupProp k' fs := by
  unfold setNames
  split
  · exact lookupProp_replaceProp_ne k k' v fs h
  · exact lookupProp_insertProp_ne k k' v fs h

theorem ownProperty_object (fs : List (String × JSValue)) (k : String) :
    ownProperty (.object fs) k = true ↔ k ∈ propNames fs := by
  simp [ownProperty]

theorem hasOwnProperty_object (fs : List (String × JSValue)) (k : String)
    (hm : "hasOwnProperty" ∉ propNames fs) :
    hasOwnProperty (.object fs) k = .ok (ownProperty (.object fs) k) := by
  have hc : ¬ ((propNames fs).contains "hasOwnProperty" = true) := by simpa using hm
  simp only [hasOwnProperty, if_neg hc]

theorem getProp_object (fs : List (String × JSValue)) (k : String) :
    getProp (.object fs) k = (lookupProp k fs).getD .undefined := rfl

/-! ## `extractKeysFromObject`: contents -/

theorem extractFields_spec (fs : List (String × JSValue)) (fieldArray : List String) :
    ∀ acc : List (String × JSValue),
      ∃ r, extractFields fs fieldArray acc = r ∧
        (∀ k, k ∈ propNames r ↔ k ∈ propNames acc ∨ (k ∈ fieldArray ∧ k ∈ propNames fs)) ∧
        (∀ k, lookupProp k r =
          if k ∈ fieldArray ∧ k ∈ propNames fs then lookupProp k fs else lookupProp k acc) := by
  induction fieldArray with
  | nil =>
    intro acc
    exact ⟨acc, rfl, by simp, by simp⟩
  | cons f rest ih =>
    intro acc
    by_cases hf : (propNames fs).contains f = true
    · have hf' : f ∈ propNames fs := by simpa using hf
      obtain ⟨r, hr, hmem, hlook⟩ := ih (setNames f ((lookupProp f fs).getD .undefined) acc)
      refine ⟨r, ?_, ?_, ?_⟩
      · simp only [extractFields, hf, if_true]
        exact hr
      · intro k
        rw [hmem, mem_propNames_setNames]
        simp only [List.mem_cons]
        constructor
        · rintro ((rfl | h) | h)
          · exact Or.inr ⟨Or.inl rfl, hf'⟩
          · exact Or.inl h
          · exact Or.inr ⟨Or.inr h.1, h.2⟩
        · rintro (h | ⟨rfl | h, h'⟩)
          · exact Or.inl (Or.inr h)
          · exact Or.inl (Or.inl rfl)
          · exact Or.inr ⟨h, h'⟩
      · intro k
        rw [hlook]
        by_cases h1 : k ∈ rest ∧ k ∈ propNames fs
        · have h2 : k ∈ f :: rest ∧ k ∈ propNames fs := ⟨List.mem_cons_of_mem _ h1.1, h1.2⟩
          rw [if_pos h1, if_pos h2]
        · rw [if_neg h1]
          by_cases e : k = f
          · subst e
            have h2 : k ∈ k :: rest ∧ k ∈ propNames fs := ⟨List.mem_cons_self _ _, hf'⟩
            rw [if_pos h2, lookupProp_setNames_self]
            obtain ⟨v, hv⟩ := lookupProp_isSome_of_mem k fs hf'
            rw [hv]
            rfl
          · rw [lookupProp_setNames_ne f k _ acc e]
            have h2 : ¬ (k ∈ f :: rest ∧ k ∈ propNames fs) := by
              rintro ⟨h, h'⟩
              rcases List.mem_cons.1 h with h | h
              · exact e h
              · exact h1 ⟨h, h'⟩
            rw [if_neg h2]
    · have hf' : f ∉ propNames fs := fun h => hf (by simpa using h)
      obtain ⟨r, hr, hmem, hlook⟩ := ih acc
      refine ⟨r, ?_, ?_, ?_⟩
      · simp only [extractFields, hf]
        exact hr
      · intro k
        rw [hmem]
        simp only [List.mem_cons]
        constructor
        · rintro (h | h)
          · exact Or.inl h
          · exact Or.inr ⟨Or.inr h.1, h.2⟩
        · rintro (h | ⟨rfl | h, h'⟩)
          · exact Or.inl h
          · exact absurd h' hf'
          · exact Or.inr ⟨h, h'⟩
      · intro k
        rw [hlook]
        by_cases h1 : k ∈ rest ∧ k ∈ propNames fs
        · have h2 : k ∈ f :: rest ∧ k ∈ propNames fs := ⟨List.mem_cons_of_mem _ h1.1, h1.2⟩
          rw [if_pos h1, if_pos h2]
        · have h2 : ¬ (k ∈ f :: rest ∧ k ∈ propNames fs) := by
            rintro ⟨h, h'⟩
            rcases List.mem_cons.1 h with h | h
            · exact hf' (h ▸ h')
            · exact h1 ⟨h, h'⟩
          rw [if_neg h1, if_neg h2]

/-- The prototype and the own properties after a write that creates or updates
an own property: a name that is an own property already, or any name but
`__proto__`. -/
theorem JSObject_setProp_plain (p : Proto) (acc : List (String × JSValue)) (k : String)
    (v : JSValue) (h : k ≠ "__proto__" ∨ k ∈ propNames acc) :
    JSObject.setProp ⟨p, acc⟩ k v = ⟨p, setNames k v acc⟩ := by
  by_cases hc : (propNames acc).contains k = true
  · simp only [JSObject.setProp, setNames, if_pos hc]
  · have hk : k ≠ "__proto__" := by
      rcases h with h | h
      · exact h
      · exact absurd (by simpa using h) hc
    have hn : ¬ (k = "__proto__" ∧
        JSObject.reachesObjectPrototype ⟨p, acc⟩ "__proto__" = true) := fun hh => hk hh.1
    simp only [JSObject.setProp, setNames, if_neg hc, if_neg hn]

/-- On a plain mapping that has no own property named `hasOwnProperty`, and
when `__proto__` is not both in `fieldArray` and an own property, the loop of
`extractKeysFromObject` returns, and builds what `extractFields` describes. -/
theorem extractKeysLoop_eq_extractFields (fs : List (String × JSValue))
    (hm : "hasOwnProperty" ∉ propNames fs) :
    ∀ (fieldArray : List String) (acc : List (String × JSValue)),
      "__proto__" ∉ matchedNames (.object fs) fieldArray →
      extractKeysLoop ⟨.objectPrototype, fs⟩ fieldArray ⟨.objectPrototype, acc⟩
        = .ok ⟨.objectPrototype, extractFields fs fieldArray acc⟩ := by
  have hcall : ∀ f, JSObject.hasOwnProperty ⟨.objectPrototype, fs⟩ f
      = .ok ((propNames fs).contains f) := by
    intro f
    simp [JSObject.hasOwnProperty, JSObject.reachesObjectPrototype, hm]
  intro fieldArray
  induction fieldArray with
  | nil => intro acc _; rfl
  | cons f rest ih =>
    intro acc hp
    by_cases hf : (propNames fs).contains f = true
    · have hown : ownProperty (.object fs) f = true := by simpa [ownProperty] using hf
      have hm' : matchedNames (.object fs) (f :: rest) = f :: matchedNames (.object fs) rest := by
        simp [matchedNames, hown]
      rw [hm'] at hp
      have hne : f ≠ "__proto__" := fun e => hp (by rw [e]; exact List.mem_cons_self _ _)
      have hrest : "__proto__" ∉ matchedNames (.object fs) rest :=
        fun h => hp (List.mem_cons_of_mem _ h)
      simp only [extractKeysLoop, hcall, hf, extractFields, if_true]
      rw [JSObject_setProp_plain _ _ _ _ (Or.inl hne)]
      exact ih _ hrest
    · have hown : ownProperty (.object fs) f = false := by simpa [ownProperty] using hf
      have hm' : matchedNames (.object fs) (f :: rest) = matchedNames (.object fs) rest := by
        simp [matchedNames, hown]
      rw [hm'] at hp
      have hf' : (propNames fs).contains f = false := by simpa using hf
      simp only [extractKeysLoop, hcall, hf', extractFields]
      exact ih _ hp

/-- On a plain mapping that has no own property named `hasOwnProperty`, and
when `__proto__` is not both in `fieldArray` and an own property,
`extractKeysFromObject` returns a plain mapping; a name is a key of the result
exactly when it occurs in `fieldArray` and is an own property of `obj`, and
then the result holds the value `obj` holds. -/
theorem extractKeysFromObject_contents (fs : List (String × JSValue)) (fieldArray : List String)
    (hm : "hasOwnProperty" ∉ propNames fs)
    (hp : "__proto__" ∉ matchedNames (.object fs) fieldArray) :
    ∃ r, extractKeysFromObject ⟨.objectPrototype, fs⟩ fieldArray = .ok ⟨.objectPrototype, r⟩ ∧
      (∀ k, k ∈ propNames r ↔ (k ∈ fieldArray ∧ k ∈ propNames fs)) ∧
      (∀ k, k ∈ propNames r → lookupProp k r = lookupProp k fs) := by
  obtain ⟨r, hr, hmem, hlook⟩ := extractFields_spec fs fieldArray []
  refine ⟨r, ?_, ?_, ?_⟩
  · rw [extractKeysFromObject, extractKeysLoop_eq_extractFields fs hm fieldArray [] hp, hr]
  · intro k
    rw [hmem]
    simp [propNames]
  · intro k hk
    rw [hmem] at hk
    have hk' : k ∈ fieldArray ∧ k ∈ propNames fs := by
      rcases hk with hk | hk
      · simp [propNames] at hk
      · exact hk
    rw [hlook, if_pos hk']

/-- C2, failing input. On `{hasOwnProperty: 1, a: 2}` with `['a']` the call
`extractKeysFromObject` throws a `TypeError`: `obj.hasOwnProperty` is the own
property, the number 1, and not the builtin method; no mapping `{a: 2}` is
returned.  On a mapping with an own property `__proto__` holding 5 and `a`
holding 1, with `['__proto__', 'a']`, the result is `{a: 1}`: the write
`newObj['__proto__'] = 5` creates no property.  The example of the claim,
`extractKeys({a:10,b:100,c:1000}, ['a','b'])`, returns `{a:10,b:100}`. -/
theorem extractKeysFromObject_shadowed_method_throws :
    extractKeysFromObject ⟨.objectPrototype, [("hasOwnProperty", .number 1), ("a", .number 2)]⟩
        ["a"] = .error .typeError ∧
    extractKeysFromObject ⟨.objectPrototype, [("__proto__", .number 5), ("a", .number 1)]⟩
        ["__proto__", "a"] = .ok ⟨.objectPrototype, [("a", .number 1)]⟩ ∧
    extractKeysFromObject
        ⟨.objectPrototype, [("a", .number 10), ("b", .number 100), ("c", .number 1000)]⟩
        ["a", "b"]
      = .ok ⟨.objectPrototype, [("a", .number 10), ("b", .number 100)]⟩ :=
  ⟨rfl, rfl, rfl⟩


theorem arrayIndex?_inj {a b : String} {n : Nat} (ha : arrayIndex? a = some n)
    (hb : arrayIndex? b = some n) : a = b := by
  have key : ∀ k : String, arrayIndex? k = some n → indexKey n = k := by
    intro k hk
    unfold arrayIndex? at hk
    cases hc : canonicalIndex? k with
    | none => simp [hc] at hk
    | some m =>
      simp only [hc] at hk
      split at hk
      · cases hk
        unfold canonicalIndex? at hc
        cases hp : parseDigits k.data 0 with
        | none => simp [hp] at hc
        | some j =>
          simp only [hp] at hc
          split at hc
          · cases hc
            assumption
          · cases hc
      · cases hk
  rw [← key a ha, ← key b hb]

theorem enumeratedBefore_of_none {k : String} (h : arrayIndex? k = none) (k' : String) :
    enumeratedBefore k k' = false := by
  simp [enumeratedBefore, h]

theorem insertProp_of_none {k : String} (h : arrayIndex? k = none) (v : JSValue)
    (fs : List (String × JSValue)) : insertProp k v fs = fs ++ [(k, v)] := by
  induction fs with
  | nil => rfl
  | cons p fs ih =>
    obtain ⟨k₁, v₁⟩ := p
    simp [insertProp, enumeratedBefore_of_none h, ih]

theorem propNames_insertProp (k : String) (v : JSValue) (fs : List (String × JSValue)) :
    propNames (insertProp k v fs) = insertName k (propNames fs) := by
  induction fs with
  | nil => rfl
  | cons p fs ih =>
    obtain ⟨k₁, v₁⟩ := p
    by_cases hb : enumeratedBefore k k₁ = true
    · simp [insertProp, insertName, propNames, hb]
    · have ih' : List.map Prod.fst (insertProp k v fs) = insertName k (List.map Prod.fst fs) := ih
      simp [insertProp, insertName, propNames, hb, ih']

theorem indexLt_iff {a b : String} {n m : Nat} (ha : arrayIndex? a = some n)
    (hb : arrayIndex? b = some m) : indexLt a b = true ↔ n < m := by
  simp [indexLt, ha, hb]

theorem insertName_index {k : String} {n : Nat} (hk : arrayIndex? k = some n) (N : List String)
    (hN : ∀ x ∈ N, arrayIndex? x = none) :
    ∀ I : List String, I.Pairwise (fun a b => indexLt a b = true) →
      (∀ x ∈ I, (arrayIndex? x).isSome = true) → k ∉ I →
      ∃ I', insertName k (I ++ N) = I' ++ N ∧ I'.Pairwise (fun a b => indexLt a b = true) ∧
        (∀ x, x ∈ I' ↔ x = k ∨ x ∈ I) := by
  intro I
  induction I with
  | nil =>
    intro _ _ _
    refine ⟨[k], ?_, List.pairwise_singleton _ _, by simp⟩
    cases N with
    | nil => rfl
    | cons m N' =>
      have hm : arrayIndex? m = none := hN m (List.mem_cons_self _ _)
      simp [insertName, enumeratedBefore, hk, hm]
  | cons a I ih =>
    intro hs hidx hni
    have ha := hidx a (List.mem_cons_self _ _)
    obtain ⟨m, hm⟩ := Option.isSome_iff_exists.1 ha
    have hs' := List.pairwise_cons.1 hs
    by_cases hlt : n < m
    · refine ⟨k :: a :: I, ?_, ?_, by simp⟩
      · simp [insertName, enumeratedBefore, hk, hm, hlt]
      · refine List.pairwise_cons.2 ⟨?_, hs⟩
        intro x hx
        rcases List.mem_cons.1 hx with rfl | hx
        · exact (indexLt_iff hk hm).2 hlt
        · obtain ⟨j, hj⟩ := Option.isSome_iff_exists.1 (hidx x (List.mem_cons_of_mem _ hx))
          have := (indexLt_iff hm hj).1 (hs'.1 x hx)
          exact (indexLt_iff hk hj).2 (by omega)
    · have hne : n ≠ m := by
        intro e
        subst e
        exact hni (by rw [arrayIndex?_inj hk hm]; exact List.mem_cons_self _ _)
      obtain ⟨I', hI', hsI', hmI'⟩ := ih hs'.2
        (fun x hx => hidx x (List.mem_cons_of_mem _ hx))
        (fun h => hni (List.mem_cons_of_mem _ h))
      refine ⟨a :: I', ?_, ?_, ?_⟩
      · simp [insertName, enumeratedBefore, hk, hm, hlt, hI']
      · refine List.pairwise_cons.2 ⟨?_, hsI'⟩
        intro x hx
        rcases (hmI' x).1 hx with rfl | hx
        · exact (indexLt_iff hm hk).2 (by omega)
        · exact hs'.1 x hx
      · intro x
        simp only [List.mem_cons, hmI']
        tauto


theorem filter_notMem_append_singleton (N l : List String) (f : String) :
    l.filter (fun x => decide (x ∉ N ++ [f]))
      = (l.filter (fun x => decide (x ≠ f))).filter (fun x => decide (x ∉ N)) := by
  rw [List.filter_filter]
  congr 1
  funext x
  simp

theorem filter_ne_filter_notMem (N l : List String) (f : String) (hf : f ∈ N) :
    (l.filter (fun x => decide (x ≠ f))).filter (fun x => decide (x ∉ N))
      = l.filter (fun x => decide (x ∉ N)) := by
  rw [List.filter_filter]
  congr 1
  funext x
  simp
  intro hx e
  exact hx (e ▸ hf)

theorem extractFields_order (fs : List (String × JSValue)) (fieldArray : List String) :
    ∀ (acc : List (String × JSValue)) (I N : List String), propNames acc = I ++ N →
      I.Pairwise (fun a b => indexLt a b = true) →
      (∀ x ∈ I, (arrayIndex? x).isSome = true) →
      (∀ x ∈ N, arrayIndex? x = none) →
      ∃ r I', extractFields fs fieldArray acc = r ∧
        propNames r = I' ++ (N ++
          (firstOccurrences (plainMatched (.object fs) fieldArray)).filter
            (fun x => decide (x ∉ N))) ∧
        I'.Pairwise (fun a b => indexLt a b = true) ∧
        (∀ x, x ∈ I' ↔
          x ∈ I ∨ (x ∈ matchedNames (.object fs) fieldArray ∧ (arrayIndex? x).isSome = true)) := by
  induction fieldArray with
  | nil =>
    intro acc I N hacc hs _ _
    exact ⟨acc, I, rfl, by simp [plainMatched, matchedNames, firstOccurrences, hacc], hs,
      by simp [matchedNames]⟩
  | cons f rest ih =>
    intro acc I N hacc hs hI hN
    by_cases hf : ownProperty (.object fs) f = true
    · have hcf : (propNames fs).contains f = true := by simpa [ownProperty] using hf
      have hm : matchedNames (.object fs) (f :: rest) = f :: matchedNames (.object fs) rest := by
        simp [matchedNames, hf]
      cases hidx : arrayIndex? f with
      | some n =>
        have hp : plainMatched (.object fs) (f :: rest) = plainMatched (.object fs) rest := by
          simp [plainMatched, hm, hidx]
        have hfN : f ∉ N := fun h => by simpa [hidx] using hN f h
        by_cases hin : f ∈ I
        · -- existing index name: the write keeps the name list
          have hc : (propNames acc).contains f = true := by simp [hacc, hin]
          obtain ⟨r, I', hr, hn, hs', hmem⟩ :=
            ih (replaceProp f ((lookupProp f fs).getD .undefined) acc) I N
              (by rw [propNames_replaceProp, hacc]) hs hI hN
          refine ⟨r, I', ?_, ?_, hs', ?_⟩
          · simp only [extractFields, hcf, if_true, setNames, hc]
            exact hr
          · rw [hp]; exact hn
          · intro x
            rw [hmem, hm]
            simp only [List.mem_cons]
            constructor
            · rintro (h | h)
              · exact Or.inl h
              · exact Or.inr ⟨Or.inr h.1, h.2⟩
            · rintro (h | ⟨rfl | h, h'⟩)
              · exact Or.inl h
              · exact Or.inl hin
              · exact Or.inr ⟨h, h'⟩
        · -- new index name: created at its numeric place
          have hc : ¬ (propNames acc).contains f = true := by simp [hacc, hin, hfN]
          obtain ⟨I₁, hI₁, hsI₁, hmI₁⟩ := insertName_index hidx N hN I hs hI hin
          have hI₁idx : ∀ x ∈ I₁, (arrayIndex? x).isSome = true := by
            intro x hx
            rcases (hmI₁ x).1 hx with rfl | hx
            · simp [hidx]
            · exact hI x hx
          obtain ⟨r, I', hr, hn, hs', hmem⟩ :=
            ih (insertProp f ((lookupProp f fs).getD .undefined) acc) I₁ N
              (by rw [propNames_insertProp, hacc, hI₁]) hsI₁ hI₁idx hN
          refine ⟨r, I', ?_, ?_, hs', ?_⟩
          · simp only [extractFields, hcf, if_true, setNames, hc]
            exact hr
          · rw [hp]; exact hn
          · intro x
            rw [hmem, hm, hmI₁]
            simp only [List.mem_cons]
            constructor
            · rintro ((rfl | h) | h)
              · exact Or.inr ⟨Or.inl rfl, by simp [hidx]⟩
              · exact Or.inl h
              · exact Or.inr ⟨Or.inr h.1, h.2⟩
            · rintro (h | ⟨rfl | h, h'⟩)
              · exact Or.inl (Or.inr h)
              · exact Or.inl (Or.inl rfl)
              · exact Or.inr ⟨h, h'⟩
      | none =>
        have hp : plainMatched (.object fs) (f :: rest) = f :: plainMatched (.object fs) rest := by
          simp [plainMatched, hm, hidx]
        have hfI : f ∉ I := fun h => by simpa [hidx] using hI f h
        have hmemEq : ∀ (I' : List String) (x : String),
            (x ∈ I ∨ (x ∈ matchedNames (.object fs) rest ∧ (arrayIndex? x).isSome = true)) ↔
            (x ∈ I ∨ (x ∈ matchedNames (.object fs) (f :: rest) ∧
              (arrayIndex? x).isSome = true)) := by
          intro _ x
          rw [hm]
          simp only [List.mem_cons]
          constructor
          · rintro (h | h)
            · exact Or.inl h
            · exact Or.inr ⟨Or.inr h.1, h.2⟩
          · rintro (h | ⟨rfl | h, h'⟩)
            · exact Or.inl h
            · simp [hidx] at h'
            · exact Or.inr ⟨h, h'⟩
        by_cases hin : f ∈ N
        · -- existing plain name
          have hc : (propNames acc).contains f = true := by simp [hacc, hin]
          obtain ⟨r, I', hr, hn, hs', hmem⟩ :=
            ih (replaceProp f ((lookupProp f fs).getD .undefined) acc) I N
              (by rw [propNames_replaceProp, hacc]) hs hI hN
          refine ⟨r, I', ?_, ?_, hs', ?_⟩
          · simp only [extractFields, hcf, if_true, setNames, hc]
            exact hr
          · rw [hn, hp]
            simp only [firstOccurrences]
            rw [List.filter_cons_of_neg (by simpa using hin), filter_ne_filter_notMem N _ f hin]
          · intro x
            rw [hmem]
            exact hmemEq I' x
        · -- new plain name: appended
          have hc : ¬ (propNames acc).contains f = true := by simp [hacc, hin, hfI]
          have hN' : ∀ x ∈ N ++ [f], arrayIndex? x = none := by
            intro x hx
            rcases List.mem_append.1 hx with hx | hx
            · exact hN x hx
            · rw [List.mem_singleton.1 hx]; exact hidx
          obtain ⟨r, I', hr, hn, hs', hmem⟩ :=
            ih (acc ++ [(f, (lookupProp f fs).getD .undefined)]) I (N ++ [f])
              (by simp [propNames, List.map_append] at hacc ⊢; rw [hacc, List.append_assoc]) hs hI hN'
          refine ⟨r, I', ?_, ?_, hs', ?_⟩
          · simp only [extractFields, hcf, if_true, setNames, hc]
            rw [insertProp_of_none hidx]
            exact hr
          · rw [hn, hp]
            simp only [firstOccurrences]
            rw [List.filter_cons_of_pos (by simpa using hin), filter_notMem_append_singleton]
            simp
          · intro x
            rw [hmem]
            exact hmemEq I' x
    · have hcf : ¬ ((propNames fs).contains f = true) := by simpa [ownProperty] using hf
      have hm : matchedNames (.object fs) (f :: rest) = matchedNames (.object fs) rest := by
        simp [matchedNames, hf]
      have hp : plainMatched (.object fs) (f :: rest) = plainMatched (.object fs) rest := by
        simp [plainMatched, hm]
      obtain ⟨r, I', hr, hn, hs', hmem⟩ := ih acc I N hacc hs hI hN
      refine ⟨r, I', ?_, ?_, hs', ?_⟩
      · simp only [extractFields, hcf]
        exact hr
      · rw [hp]; exact hn
      · intro x
        rw [hmem, hm]

/-- C9, counterexample. As stated the claim fails: `extractKeys({1:10, 2:20}, ['2','1'])` enumerates its
keys as `1, 2`, not in the order of `fieldArray`. -/
theorem extractKeysFromObject_order_counterexample :
    ∃ res, extractKeysFromObject ⟨.objectPrototype, [("1", .number 10), ("2", .number 20)]⟩
        ["2", "1"] = .ok res ∧
      res.objectKeys = ["1", "2"] ∧
      firstOccurrences
        (matchedNames (.object [("1", .number 10), ("2", .number 20)]) ["2", "1"]) = ["2", "1"] :=
  ⟨⟨.objectPrototype, [("1", .number 10), ("2", .number 20)]⟩, rfl, rfl, by decide⟩

/-- C9, amended. On a plain mapping `obj` that has no own property named
`hasOwnProperty`, and when `__proto__` is not both in `fieldArray` and an own
property of `obj`, the call `extractKeysFromObject(obj, fieldArray)` returns,
and the keys of the result, as `Object.keys` enumerates them, are: first the
names of `fieldArray` that are own properties of `obj` and array indices, each
once, in ascending numeric order; then the other names of `fieldArray` that
are own properties of `obj`, in the order of their first occurrence.  Names
that `obj` lacks are skipped. -/
theorem extractKeysFromObject_order (fs : List (String × JSValue)) (fieldArray : List String)
    (hm : "hasOwnProperty" ∉ propNames fs)
    (hp : "__proto__" ∉ matchedNames (.object fs) fieldArray) :
    ∃ res idx, extractKeysFromObject ⟨.objectPrototype, fs⟩ fieldArray = .ok res ∧
      res.objectKeys = idx ++ firstOccurrences (plainMatched (.object fs) fieldArray) ∧
      idx.Pairwise (fun a b => indexLt a b = true) ∧
      (∀ k, k ∈ idx ↔
        (k ∈ matchedNames (.object fs) fieldArray ∧ (arrayIndex? k).isSome = true)) := by
  obtain ⟨r, I', hr, hn, hs, hmem⟩ :=
    extractFields_order fs fieldArray [] [] [] rfl List.Pairwise.nil (by simp) (by simp)
  refine ⟨⟨.objectPrototype, r⟩, I', ?_, ?_, hs, ?_⟩
  · rw [extractKeysFromObject, extractKeysLoop_eq_extractFields fs hm fieldArray [] hp, hr]
  · simp only [JSObject.objectKeys, hn]
    simp
  · intro k
    rw [hmem]
    simp

/-- C9, witness for `extractKeysFromObject_order`: the mapping
`{b: 1, 2: 20, a: 3, 1: 10}` with the names `['a', '2', 'x', 'b', '1', 'a']`. -/
theorem extractKeysFromObject_order_witness :
    "hasOwnProperty" ∉ propNames [("1", .number 10), ("2", .number 20), ("b", .number 1),
      ("a", .number 3)] ∧
    "__proto__" ∉ matchedNames (.object [("1", .number 10), ("2", .number 20), ("b", .number 1),
      ("a", .number 3)]) ["a", "2", "x", "b", "1", "a"] ∧
    extractKeysFromObject ⟨.objectPrototype, [("1", .number 10), ("2", .number 20),
      ("b", .number 1), ("a", .number 3)]⟩ ["a", "2", "x", "b", "1", "a"]
      = .ok ⟨.objectPrototype, [("1", .number 10), ("2", .number 20), ("a", .number 3),
        ("b", .number 1)]⟩ ∧
    ∃ res idx, extractKeysFromObject ⟨.objectPrototype, [("1", .number 10), ("2", .number 20),
        ("b", .number 1), ("a", .number 3)]⟩ ["a", "2", "x", "b", "1", "a"] = .ok res ∧
      res.objectKeys = idx ++ firstOccurrences (plainMatched (.object [("1", .number 10),
        ("2", .number 20), ("b", .number 1), ("a", .number 3)])
        ["a", "2", "x", "b", "1", "a"]) ∧
      idx.Pairwise (fun a b => indexLt a b = true) ∧
      (∀ k, k ∈ idx ↔
        (k ∈ matchedNames (.object [("1", .number 10), ("2", .number 20), ("b", .number 1),
          ("a", .number 3)]) ["a", "2", "x", "b", "1", "a"] ∧ (arrayIndex? k).isSome = true)) :=
  ⟨by decide, by decide, rfl,
    extractKeysFromObject_order
      [("1", .number 10), ("2", .number 20), ("b", .number 1), ("a", .number 3)]
      ["a", "2", "x", "b", "1", "a"] (by decide) (by decide)⟩

/-! ## `validate` -/

/-- C7. `validate` returns `{status: true, errors: null}` when the validator
accepts, and `{status: false, errors: E}` otherwise, `E` being the value of
`podAjv.errors` after the call; `status` is the verdict of the validator. -/
theorem validate_result (podAjv : PodAjv) (schema data : JSValue) :
    validate podAjv schema data =
      (if podAjv.validate schema data = true
        then .object [("status", .bool true), ("errors", .null)]
        else .object [("status", .bool false), ("errors", podAjv.errors schema data)]) ∧
    getProp (validate podAjv schema data) "status" = .bool (podAjv.validate schema data) := by
  cases h : podAjv.validate schema data <;> simp [validate, h] <;> constructor <;> rfl

/-- C8. In every validation result `errors` is `null` when `status` is true,
and `errors` is non-null exactly when `status` is false: on acceptance the
result holds the literal `null`, on rejection it holds what the validator
exposes, which is its list of violations. -/
theorem validate_errors_iff (podAjv : PodAjv) (schema data : JSValue) :
    (getProp (validate podAjv schema data) "status" = .bool true →
      getProp (validate podAjv schema data) "errors" = .null) ∧
    (getProp (validate podAjv schema data) "errors" ≠ .null ↔
      getProp (validate podAjv schema data) "status" = .bool false) := by
  have hv := podAjv.errors_of_reject schema data
  cases h : podAjv.validate schema data
  · have e : validate podAjv schema data
        = .object [("status", .bool false), ("errors", podAjv.errors schema data)] := by
      simp [validate, h]; rfl
    have e1 : getProp (validate podAjv schema data) "status" = .bool false := by rw [e]; rfl
    have e2 : getProp (validate podAjv schema data) "errors" = podAjv.errors schema data := by
      rw [e]; rfl
    rw [e1, e2]
    exact ⟨fun hc => (nomatch hc), ⟨fun _ => rfl, fun _ => hv h⟩⟩
  · have e : validate podAjv schema data
        = .object [("status", .bool true), ("errors", .null)] := by
      simp [validate, h]
    rw [e]
    refine ⟨fun _ => rfl, ⟨fun hc => absurd rfl hc, fun hc => ?_⟩⟩
    have : getProp (.object [("status", .bool true), ("errors", .null)]) "status" = .bool true :=
      rfl
    rw [this] at hc
    cases hc

/-- A validator that rejects `{test: 125}` with one violation, and the result
of `validate` with it: `{status: false, errors: ['should be string']}`. -/
theorem validate_rejecting_example :
    validate ⟨fun _ _ => false, fun _ _ => .array [.string "should be string"],
        fun _ _ _ h => (nomatch h)⟩ .null (.object [("test", .number 125)])
      = .object [("status", .bool false), ("errors", .array [.string "should be string"])] :=
  rfl

/-! ## `PodError` -/

/-- C10. A constructed `PodError` exposes the `code` and `message` it was given;
an `originalResult` that is an object is exposed as given, and one that is not
supplied is exposed as `null`: `PodError(404, 'not found')` has code 404,
message `'not found'` and `originalResult` `null`. -/
theorem PodError_fields (code message originalResult : JSValue)
    (h : typeOf originalResult = "object") :
    (PodError.construct code message originalResult).code = code ∧
    (PodError.construct code message originalResult).message = message ∧
    (PodError.construct code message originalResult).originalResult = originalResult ∧
    (PodError.construct code message .undefined).code = code ∧
    (PodError.construct code message .undefined).message = message ∧
    (PodError.construct code message .undefined).originalResult = .null ∧
    (PodError.construct (.number 404) (.string "not found") .undefined).originalResult = .null := by
  refine ⟨rfl, rfl, ?_, rfl, rfl, rfl, rfl⟩
  cases originalResult <;> first | rfl | simp [typeOf] at h

/-- C10, witness for `PodError_fields`: an object payload. -/
theorem PodError_fields_witness :
    typeOf (.object [("error", .string "x")]) = "object" ∧
    (PodError.construct (.number 404) (.string "not found")
      (.object [("error", .string "x")])).originalResult = .object [("error", .string "x")] :=
  ⟨rfl, (PodError_fields (.number 404) (.string "not found") (.object [("error", .string "x")])
    rfl).2.2.1⟩

/-! ## `trim` -/

theorem dropWhile_head_false {α : Type} (p : α → Bool) :
    ∀ (l : List α) (a : α) (r : List α), l.dropWhile p = a :: r → p a = false := by
  intro l
  induction l with
  | nil => intro a r h; simp at h
  | cons x l ih =>
    intro a r h
    by_cases hx : p x = true
    · rw [List.dropWhile_cons_of_pos hx] at h
      exact ih a r h
    · rw [List.dropWhile_cons_of_neg hx] at h
      cases h
      simpa using hx

theorem dropWhile_fixed {α : Type} (p : α → Bool) (l : List α)
    (h : ∀ a r, l = a :: r → p a = false) : l.dropWhile p = l := by
  cases l with
  | nil => rfl
  | cons a r =>
    have := h a r rfl
    simp [List.dropWhile, this]

theorem dropWhile_idem {α : Type} (p : α → Bool) (l : List α) :
    (l.dropWhile p).dropWhile p = l.dropWhile p :=
  dropWhile_fixed p _ (fun a r h => dropWhile_head_false p l a r h)

theorem dropTrailingWs_append (cs : List Char) :
    ∃ post, cs = dropTrailingWs cs ++ post ∧ ∀ c ∈ post, isJSWhiteSpace c = true := by
  refine ⟨(cs.reverse.takeWhile isJSWhiteSpace).reverse, ?_, ?_⟩
  · have h := List.takeWhile_append_dropWhile isJSWhiteSpace cs.reverse
    have h2 := congrArg List.reverse h
    rw [List.reverse_append, List.reverse_reverse] at h2
    exact h2.symm
  · intro c hc
    rw [List.mem_reverse] at hc
    exact List.mem_takeWhile_imp hc

theorem dropTrailingWs_idem (cs : List Char) :
    dropTrailingWs (dropTrailingWs cs) = dropTrailingWs cs := by
  simp only [dropTrailingWs, List.reverse_reverse, dropWhile_idem]

theorem dropTrailingWs_head (cs : List Char) (h : ∀ a r, cs = a :: r → isJSWhiteSpace a = false) :
    ∀ a r, dropTrailingWs cs = a :: r → isJSWhiteSpace a = false := by
  intro a r e
  obtain ⟨post, hpost, _⟩ := dropTrailingWs_append cs
  rw [e] at hpost
  exact h a (r ++ post) hpost

/-- `trim` applied to a trimmed string changes nothing. -/
theorem jsTrim_idem (s : String) : jsTrim (jsTrim s) = jsTrim s := by
  simp only [jsTrim]
  congr 1
  have h1 : (dropTrailingWs (s.data.dropWhile isJSWhiteSpace)).dropWhile isJSWhiteSpace
      = dropTrailingWs (s.data.dropWhile isJSWhiteSpace) :=
    dropWhile_fixed _ _ (dropTrailingWs_head _ (fun a r h => dropWhile_head_false _ s.data a r h))
  rw [h1, dropTrailingWs_idem]

theorem callTrim_idem (v : JSValue) : callTrim (callTrim v) = callTrim v := by
  cases v <;> simp [callTrim, jsTrim_idem]

/-- What `trim` does: it removes a run of white space at each end, keeps the
text between, and leaves no white space at either end. -/
theorem jsTrim_spec (s : String) :
    ∃ pre post, s.data = pre ++ (jsTrim s).data ++ post ∧
      (∀ c ∈ pre, isJSWhiteSpace c = true) ∧ (∀ c ∈ post, isJSWhiteSpace c = true) ∧
      (∀ a r, (jsTrim s).data = a :: r → isJSWhiteSpace a = false) ∧
      (∀ a r, (jsTrim s).data = r ++ [a] → isJSWhiteSpace a = false) := by
  obtain ⟨post, hpost, hws⟩ := dropTrailingWs_append (s.data.dropWhile isJSWhiteSpace)
  refine ⟨s.data.takeWhile isJSWhiteSpace, post, ?_, ?_, hws, ?_, ?_⟩
  · simp only [jsTrim]
    rw [List.append_assoc, ← hpost, List.takeWhile_append_dropWhile]
  · intro c hc
    exact List.mem_takeWhile_imp hc
  · simp only [jsTrim]
    exact dropTrailingWs_head _ (fun a r h => dropWhile_head_false _ s.data a r h)
  · intro a r h
    simp only [jsTrim, dropTrailingWs] at h
    have h2 := congrArg List.reverse h
    rw [List.reverse_reverse, List.reverse_append] at h2
    exact dropWhile_head_false _ _ a r.reverse (by simpa using h2)

/-! ## Array-index names -/

theorem charDigit?_digitChar (d : Nat) (h : d < 10) : charDigit? (digitChar d) = some d := by
  interval_cases d <;> rfl

theorem parseDigits_append (cs : List Char) (c : Char) :
    ∀ acc, parseDigits (cs ++ [c]) acc
      = (parseDigits cs acc).bind (fun m => (charDigit? c).map (fun d => m * 10 + d)) := by
  induction cs with
  | nil =>
    intro acc
    simp only [List.nil_append, parseDigits, Option.bind]
    cases charDigit? c <;> rfl
  | cons x cs ih =>
    intro acc
    simp only [List.cons_append, parseDigits]
    cases charDigit? x with
    | none => rfl
    | some d => exact ih _

theorem parseDigits_digitsRev : ∀ (fuel n : Nat), n < fuel →
    parseDigits (((digitsRev fuel n).reverse).map digitChar) 0 = some n := by
  intro fuel
  induction fuel with
  | zero => intro n h; omega
  | succ fuel ih =>
    intro n h
    by_cases hn : n < 10
    · simp only [digitsRev, hn, if_true, List.reverse_singleton, List.map_singleton, parseDigits,
        charDigit?_digitChar n hn]
      simp
    · have h10 : n / 10 < fuel := by omega
      simp only [digitsRev, hn, if_false, List.reverse_cons, List.map_append, List.map_singleton]
      rw [parseDigits_append, ih (n / 10) h10, charDigit?_digitChar (n % 10) (Nat.mod_lt _ (by omega))]
      simp only [Option.bind, Option.map]
      congr 1
      omega

theorem canonicalIndex?_indexKey (n : Nat) : canonicalIndex? (indexKey n) = some n := by
  have h : parseDigits (indexKey n).data 0 = some n := parseDigits_digitsRev (n + 1) n (by omega)
  simp [canonicalIndex?, h]

theorem indexKey_ne_length (n : Nat) : indexKey n ≠ "length" := by
  intro e
  have h := canonicalIndex?_indexKey n
  rw [e] at h
  have h0 : canonicalIndex? "length" = none := by decide
  rw [h0] at h
  cases h

/-! ## `clone` -/

theorem mem_propNames_cloneFields : ∀ (fs : List (String × JSValue)) (k : String),
    k ∈ propNames (cloneFields fs) →
      k ∈ propNames fs ∧ objectPrototypeMethods.contains k = false ∧ k ≠ "__proto__" := by
  intro fs
  induction fs with
  | nil => intro k hk; simp [cloneFields, propNames] at hk
  | cons p fs ih =>
    obtain ⟨k₁, v₁⟩ := p
    intro k hk
    simp only [cloneFields] at hk
    by_cases h1 : objectPrototypeMethods.contains k₁ = true
    · rw [if_pos h1] at hk
      obtain ⟨h, h'⟩ := ih k hk
      exact ⟨List.mem_cons_of_mem _ h, h'⟩
    · rw [if_neg h1] at hk
      by_cases h2 : k₁ = "__proto__"
      · rw [if_pos h2] at hk
        obtain ⟨h, h'⟩ := ih k hk
        exact ⟨List.mem_cons_of_mem _ h, h'⟩
      · rw [if_neg h2] at hk
        simp only [propNames, List.map_cons, List.mem_cons] at hk
        rcases hk with rfl | hk
        · exact ⟨List.mem_cons_self _ _, by simpa using h1, h2⟩
        · obtain ⟨h, h'⟩ := ih k hk
          exact ⟨List.mem_cons_of_mem _ h, h'⟩

/-- The copy that `clone` makes of a mapping has no own property named
`hasOwnProperty`. -/
theorem cloneFields_no_method (fs : List (String × JSValue)) :
    "hasOwnProperty" ∉ propNames (cloneFields fs) := by
  intro h
  have := (mem_propNames_cloneFields fs _ h).2.1
  revert this
  decide

mutual
theorem clone_of_ordinaryNames : ∀ v : JSValue, ordinaryNames v = true → clone v = v
  | .array xs, h => by
    simp only [ordinaryNames] at h
    simp only [clone, cloneList_of_ordinaryNames xs h]
  | .object fs, h => by
    simp only [ordinaryNames] at h
    simp only [clone, cloneFields_of_ordinaryNames fs h]
  | .undefined, _ => rfl
  | .null, _ => rfl
  | .bool _, _ => rfl
  | .number _, _ => rfl
  | .string _, _ => rfl
  | .date _, _ => rfl
theorem cloneList_of_ordinaryNames : ∀ xs : List JSValue,
    ordinaryNamesList xs = true → cloneList xs = xs
  | [], _ => rfl
  | x :: xs, h => by
    simp only [ordinaryNamesList, Bool.and_eq_true] at h
    simp only [cloneList, clone_of_ordinaryNames x h.1, cloneList_of_ordinaryNames xs h.2]
theorem cloneFields_of_ordinaryNames : ∀ fs : List (String × JSValue),
    ordinaryNamesFields fs = true → cloneFields fs = fs
  | [], _ => rfl
  | (k, v) :: fs, h => by
    simp only [ordinaryNamesFields, Bool.and_eq_true, Bool.not_eq_true', beq_eq_false_iff_ne,
      ne_eq] at h
    obtain ⟨⟨⟨h1, h2⟩, h3⟩, h4⟩ := h
    have h1' : ¬ (objectPrototypeMethods.contains k = true) := by
      rw [h1]; exact Bool.false_ne_true
    simp only [cloneFields, if_neg h1', if_neg h2, clone_of_ordinaryNames v h3,
      cloneFields_of_ordinaryNames fs h4]
end

mutual
theorem ordinaryNames_clone : ∀ v : JSValue, ordinaryNames (clone v) = true
  | .array xs => by simp only [clone, ordinaryNames]; exact ordinaryNamesList_clone xs
  | .object fs => by simp only [clone, ordinaryNames]; exact ordinaryNamesFields_clone fs
  | .undefined => rfl
  | .null => rfl
  | .bool _ => rfl
  | .number _ => rfl
  | .string _ => rfl
  | .date _ => rfl
theorem ordinaryNamesList_clone : ∀ xs : List JSValue, ordinaryNamesList (cloneList xs) = true
  | [] => rfl
  | x :: xs => by
    simp only [cloneList, ordinaryNamesList, ordinaryNames_clone x, ordinaryNamesList_clone xs,
      Bool.and_self]
theorem ordinaryNamesFields_clone : ∀ fs : List (String × JSValue),
    ordinaryNamesFields (cloneFields fs) = true
  | [] => rfl
  | (k, v) :: fs => by
    simp only [cloneFields]
    by_cases h1 : objectPrototypeMethods.contains k = true
    · rw [if_pos h1]; exact ordinaryNamesFields_clone fs
    · rw [if_neg h1]
      by_cases h2 : k = "__proto__"
      · rw [if_pos h2]; exact ordinaryNamesFields_clone fs
      · rw [if_neg h2]
        have h1' : objectPrototypeMethods.contains k = false := by simpa using h1
        have h2' : (k == "__proto__") = false := by simpa using h2
        simp only [ordinaryNamesFields, h1', h2', ordinaryNames_clone v,
          ordinaryNamesFields_clone fs, Bool.not_false, Bool.and_self]
end

/-- A copy is copied whole. -/
theorem clone_clone (v : JSValue) : clone (clone v) = clone v :=
  clone_of_ordinaryNames _ (ordinaryNames_clone v)

mutual
theorem distinctKeys_clone : ∀ v : JSValue, distinctKeys v = true → distinctKeys (clone v) = true
  | .array xs, h => by
    simp only [distinctKeys] at h
    simp only [clone, distinctKeys]
    exact distinctKeysList_clone xs h
  | .object fs, h => by
    simp only [distinctKeys] at h
    simp only [clone, distinctKeys]
    exact distinctKeysFields_clone fs h
  | .undefined, _ => rfl
  | .null, _ => rfl
  | .bool _, _ => rfl
  | .number _, _ => rfl
  | .string _, _ => rfl
  | .date _, _ => rfl
theorem distinctKeysList_clone : ∀ xs : List JSValue,
    distinctKeysList xs = true → distinctKeysList (cloneList xs) = true
  | [], _ => rfl
  | x :: xs, h => by
    simp only [distinctKeysList, Bool.and_eq_true] at h
    simp only [cloneList, distinctKeysList, distinctKeys_clone x h.1,
      distinctKeysList_clone xs h.2, Bool.and_self]
theorem distinctKeysFields_clone : ∀ fs : List (String × JSValue),
    distinctKeysFields fs = true → distinctKeysFields (cloneFields fs) = true
  | [], _ => rfl
  | (k, v) :: fs, h => by
    simp only [distinctKeysFields, Bool.and_eq_true, Bool.not_eq_true'] at h
    obtain ⟨⟨h1, h2⟩, h3⟩ := h
    have ih := distinctKeysFields_clone fs h3
    simp only [cloneFields]
    split
    · exact ih
    · split
      · exact ih
      · have hk : (List.map Prod.fst (cloneFields fs)).contains k = false := by
          cases hc : (List.map Prod.fst (cloneFields fs)).contains k with
          | false => rfl
          | true =>
            have hmem : k ∈ propNames (cloneFields fs) := by simpa [propNames] using hc
            have := (mem_propNames_cloneFields fs k hmem).1
            have h1' : k ∉ List.map Prod.fst fs := by simpa using h1
            exact absurd this h1'
        simp only [distinctKeysFields, hk, distinctKeys_clone v h2, ih, Bool.not_false,
          Bool.and_self]
end

mutual
theorem depth_clone_le : ∀ v : JSValue, depth (clone v) ≤ depth v
  | .array xs => by
    have := depthList_clone_le xs
    simp only [clone, depth]
    omega
  | .object fs => by
    have := depthFields_clone_le fs
    simp only [clone, depth]
    omega
  | .undefined => Nat.le_refl _
  | .null => Nat.le_refl _
  | .bool _ => Nat.le_refl _
  | .number _ => Nat.le_refl _
  | .string _ => Nat.le_refl _
  | .date _ => Nat.le_refl _
theorem depthList_clone_le : ∀ xs : List JSValue, depthList (cloneList xs) ≤ depthList xs
  | [] => Nat.le_refl _
  | x :: xs => by
    have h1 := depth_clone_le x
    have h2 := depthList_clone_le xs
    simp only [cloneList, depthList]
    omega
theorem depthFields_clone_le : ∀ fs : List (String × JSValue),
    depthFields (cloneFields fs) ≤ depthFields fs
  | [] => Nat.le_refl _
  | (k, v) :: fs => by
    have h1 := depth_clone_le v
    have h2 := depthFields_clone_le fs
    simp only [cloneFields]
    split
    · simp only [depthFields]; omega
    · split
      · simp only [depthFields]; omega
      · simp only [depthFields]; omega
end

/-! ## `trimObject` -/

theorem callTrim_of_not_string (v : JSValue) (h : typeOf v ≠ "string") : callTrim v = v := by
  cases v <;> first | rfl | exact absurd rfl h

theorem trimObjectLoop_cons (notTrimFields : List String) (f : String) (rest : List String)
    (obj : JSValue) (own : Bool) (h : hasOwnProperty obj f = .ok own) :
    trimObjectLoop notTrimFields (f :: rest) obj
      = (if own = true ∧ typeOf (getProp obj f) = "string" ∧ f ∉ notTrimFields then
          trimObjectLoop notTrimFields rest (setProp obj f (callTrim (getProp obj f)))
        else if own = true ∧ isArray (.string f) = true ∧ f ∉ notTrimFields then
          trimObjectLoop notTrimFields rest (setProp obj f (trimElements (getProp obj f)))
        else trimObjectLoop notTrimFields rest obj) := by
  rw [trimObjectLoop, h]

theorem trimObjectLoop_cons_error (notTrimFields : List String) (f : String)
    (rest : List String) (obj : JSValue) (e : Fault) (h : hasOwnProperty obj f = .error e) :
    trimObjectLoop notTrimFields (f :: rest) obj = .error e := by
  rw [trimObjectLoop, h]

theorem trimObjectLoop_lookup (notTrimFields : List String) (ks : List String) :
    ∀ state : List (String × JSValue), "hasOwnProperty" ∉ propNames state →
      (∀ k ∈ ks, k ∈ propNames state) →
      ∃ r, trimObjectLoop notTrimFields ks (.object state) = .ok (.object r) ∧
        propNames r = propNames state ∧
        ∀ k, lookupProp k r =
          if k ∈ ks ∧ k ∉ notTrimFields then (lookupProp k state).map callTrim
          else lookupProp k state := by
  induction ks with
  | nil =>
    intro state _ _
    exact ⟨state, rfl, rfl, by simp⟩
  | cons f rest ih =>
    intro state hm hks
    have hf : f ∈ propNames state := hks f (List.mem_cons_self _ _)
    have hown : hasOwnProperty (.object state) f = .ok true := by
      rw [hasOwnProperty_object state f hm, (ownProperty_object state f).2 hf]
    obtain ⟨v, hv⟩ := lookupProp_isSome_of_mem f state hf
    have hget : getProp (.object state) f = v := by simp [getProp_object, hv]
    have hdead : ¬ (true = true ∧ isArray (.string f) = true ∧
        f ∉ notTrimFields) := by
      simp [isArray]
    by_cases hc : typeOf v = "string" ∧ f ∉ notTrimFields
    · have hcond : true = true ∧
          typeOf (getProp (.object state) f) = "string" ∧ f ∉ notTrimFields := by
        rw [hget]; exact ⟨rfl, hc⟩
      have hset : setProp (.object state) f (callTrim v) = .object (replaceProp f (callTrim v) state) := by
        have : (propNames state).contains f = true := by simpa using hf
        rw [setProp_object _ _ _ hf, setNames, if_pos this]
      obtain ⟨r, hr, hn, hl⟩ := ih (replaceProp f (callTrim v) state)
        (by rw [propNames_replaceProp]; exact hm)
        (fun k hk => by rw [propNames_replaceProp]; exact hks k (List.mem_cons_of_mem _ hk))
      refine ⟨r, ?_, by rw [hn, propNames_replaceProp], ?_⟩
      · rw [trimObjectLoop_cons _ _ _ _ _ hown, if_pos hcond, hget, hset]
        exact hr
      · intro k
        rw [hl]
        by_cases e : k = f
        · subst e
          rw [lookupProp_replaceProp_self k _ state hf, hv]
          have h2 : k ∈ k :: rest ∧ k ∉ notTrimFields := ⟨List.mem_cons_self _ _, hc.2⟩
          rw [if_pos h2]
          by_cases h1 : k ∈ rest ∧ k ∉ notTrimFields
          · rw [if_pos h1]; simp [callTrim_idem]
          · rw [if_neg h1]; rfl
        · rw [lookupProp_replaceProp_ne f k _ state e]
          have : (k ∈ f :: rest ∧ k ∉ notTrimFields) ↔ (k ∈ rest ∧ k ∉ notTrimFields) := by
            simp [e]
          simp only [this]
    · have hcond : ¬ (true = true ∧
          typeOf (getProp (.object state) f) = "string" ∧ f ∉ notTrimFields) := by
        rw [hget]; exact fun h => hc h.2
      obtain ⟨r, hr, hn, hl⟩ := ih state hm (fun k hk => hks k (List.mem_cons_of_mem _ hk))
      refine ⟨r, ?_, hn, ?_⟩
      · rw [trimObjectLoop_cons _ _ _ _ _ hown, if_neg hcond, if_neg hdead]
        exact hr
      · intro k
        rw [hl]
        by_cases e : k = f
        · subst e
          by_cases h1 : k ∈ rest ∧ k ∉ notTrimFields
          · have h2 : k ∈ k :: rest ∧ k ∉ notTrimFields := ⟨List.mem_cons_self _ _, h1.2⟩
            rw [if_pos h1, if_pos h2]
          · rw [if_neg h1]
            by_cases h3 : k ∉ notTrimFields
            · have h2 : k ∈ k :: rest ∧ k ∉ notTrimFields := ⟨List.mem_cons_self _ _, h3⟩
              have hns : typeOf v ≠ "string" := fun h => hc ⟨h, h3⟩
              rw [if_pos h2, hv]
              simp [callTrim_of_not_string v hns]
            · have h2 : ¬ (k ∈ k :: rest ∧ k ∉ notTrimFields) := fun h => h3 h.2
              rw [if_neg h2]
        · have : (k ∈ f :: rest ∧ k ∉ notTrimFields) ↔ (k ∈ rest ∧ k ∉ notTrimFields) := by
            simp [e]
          simp only [this]

/-- What `trimObject` returns on a mapping with ordinary names: the same names
in the same order; the value of a name outside `notTrimFields` is trimmed when
it is a string, and every other value is the input value. -/
theorem trimObject_lookup (notTrimFields : List String) (fs : List (String × JSValue))
    (hon : ordinaryNames (.object fs) = true) :
    ∃ r, trimObject notTrimFields (.object fs) = .ok (.object r) ∧
      propNames r = propNames fs ∧
      ∀ k, lookupProp k r =
        if k ∉ notTrimFields then (lookupProp k fs).map callTrim else lookupProp k fs := by
  have hcl : clone (.object fs) = .object fs := clone_of_ordinaryNames _ hon
  have hm : "hasOwnProperty" ∉ propNames fs := by
    have := cloneFields_no_method fs
    rw [cloneFields_of_ordinaryNames fs hon] at this
    exact this
  obtain ⟨r, hr, hn, hl⟩ := trimObjectLoop_lookup notTrimFields (propNames fs) fs hm
    (fun _ h => h)
  refine ⟨r, ?_, hn, ?_⟩
  · rw [trimObject, hcl]
    simp only [objectKeys, hr]
  · intro k
    rw [hl]
    by_cases hk : k ∈ propNames fs
    · simp [hk]
    · simp [hk, lookupProp_eq_none k fs hk]

/-- On a mapping with ordinary names `trimObject` returns a mapping with the
same names; every own top-level field that is not exempt and holds a string
holds, in the result, that string with the white space at both ends removed
and the rest untouched. -/
theorem trimObject_trims_strings (notTrimFields : List String) (fs : List (String × JSValue))
    (hon : ordinaryNames (.object fs) = true) :
    ∃ r, trimObject notTrimFields (.object fs) = .ok (.object r) ∧
      objectKeys (.object r) = objectKeys (.object fs) ∧
      ∀ k s, k ∉ notTrimFields → k ∈ propNames fs →
        getProp (.object fs) k = .string s →
        getProp (.object r) k = .string (jsTrim s) ∧
        ∃ pre post, s.data = pre ++ (jsTrim s).data ++ post ∧
          (∀ c ∈ pre, isJSWhiteSpace c = true) ∧ (∀ c ∈ post, isJSWhiteSpace c = true) ∧
          (∀ a rest, (jsTrim s).data = a :: rest → isJSWhiteSpace a = false) ∧
          (∀ a rest, (jsTrim s).data = rest ++ [a] → isJSWhiteSpace a = false) := by
  obtain ⟨r, hr, hn, hl⟩ := trimObject_lookup notTrimFields fs hon
  refine ⟨r, hr, by simp [objectKeys, hn], ?_⟩
  intro k s hk hown hget
  refine ⟨?_, jsTrim_spec s⟩
  obtain ⟨v, hv⟩ := lookupProp_isSome_of_mem k fs hown
  have hvs : v = .string s := by simpa [getProp_object, hv] using hget
  rw [getProp_object, hl, if_pos hk, hv, hvs]
  rfl

/-- C3, failing input. On `{constructor: ' x ', a: ' a '}` the call `trimObject`
returns `{a: 'a'}`: the copy that `clone` makes has no property `constructor`,
so the string field `constructor` is lost and not trimmed to `'x'`.  The
example of the claim, `trimShallow({a:'  a  '})`, returns `{a:'a'}`. -/
theorem trimObject_drops_constructor :
    trimObject [] (.object [("constructor", .string " x "), ("a", .string " a ")])
      = .ok (.object [("a", .string "a")]) ∧
    getProp (.object [("a", .string "a")]) "constructor" = .undefined ∧
    trimObject [] (.object [("a", .string "  a  ")]) = .ok (.object [("a", .string "a")]) :=
  ⟨rfl, rfl, rfl⟩

/-! ## `trimNestedObject`: the loop against the structural description -/

theorem lookupProp_append_of_not_mem (k : String) (v : JSValue)
    (done rest : List (String × JSValue)) (h : k ∉ propNames done) :
    lookupProp k (done ++ (k, v) :: rest) = some v := by
  induction done with
  | nil => simp [lookupProp]
  | cons p done ih =>
    obtain ⟨k₁, v₁⟩ := p
    simp [propNames] at h
    have hne : ¬ k₁ = k := fun e => h.1 e.symm
    simp [lookupProp, hne]
    exact ih (by simpa [propNames] using h.2)

theorem replaceProp_append_of_not_mem (k : String) (v v' : JSValue)
    (done rest : List (String × JSValue)) (h : k ∉ propNames done) :
    replaceProp k v' (done ++ (k, v) :: rest) = done ++ (k, v') :: rest := by
  induction done with
  | nil => simp [replaceProp]
  | cons p done ih =>
    obtain ⟨k₁, v₁⟩ := p
    simp [propNames] at h
    have hne : ¬ k₁ = k := fun e => h.1 e.symm
    simp [replaceProp, hne]
    exact ih (by simpa [propNames] using h.2)

theorem setProp_append_of_not_mem (k : String) (v v' : JSValue)
    (done rest : List (String × JSValue)) (h : k ∉ propNames done) :
    setProp (.object (done ++ (k, v) :: rest)) k v' = .object (done ++ (k, v') :: rest) := by
  have hc : (propNames (done ++ (k, v) :: rest)).contains k = true := by
    simp [propNames]
  rw [setProp_object _ _ _ (by simpa using hc), setNames, if_pos hc,
    replaceProp_append_of_not_mem k v v' done rest h]

theorem trimNestedLoop_cons (notTrimFields : List String)
    (recur : JSValue → Except Fault JSValue) (f : String) (rest : List String) (obj : JSValue)
    (own : Bool) (h : hasOwnProperty obj f = .ok own) :
    trimNestedLoop notTrimFields recur (f :: rest) obj
      = (if own = true ∧ typeOf (getProp obj f) = "string" ∧ f ∉ notTrimFields then
          trimNestedLoop notTrimFields recur rest (setProp obj f (callTrim (getProp obj f)))
        else if own = true ∧ typeOf (getProp obj f) = "object" ∧ f ∉ notTrimFields then
          match recur (getProp obj f) with
          | .ok r => trimNestedLoop notTrimFields recur rest (setProp obj f r)
          | .error e => .error e
        else if own = true ∧ isArray (.string f) = true ∧ f ∉ notTrimFields then
          trimNestedLoop notTrimFields recur rest (setProp obj f (trimElements (getProp obj f)))
        else trimNestedLoop notTrimFields recur rest obj) := by
  rw [trimNestedLoop, h]

theorem trimNestedLoop_cons_error (notTrimFields : List String)
    (recur : JSValue → Except Fault JSValue) (f : String) (rest : List String) (obj : JSValue)
    (e : Fault) (h : hasOwnProperty obj f = .error e) :
    trimNestedLoop notTrimFields recur (f :: rest) obj = .error e := by
  rw [trimNestedLoop, h]

theorem trimNestedLoop_cons_exempt (notTrimFields : List String)
    (recur : JSValue → Except Fault JSValue) (f : String) (rest : List String) (obj : JSValue)
    (own : Bool) (hown : hasOwnProperty obj f = .ok own) (hex : f ∈ notTrimFields) :
    trimNestedLoop notTrimFields recur (f :: rest) obj
      = trimNestedLoop notTrimFields recur rest obj := by
  rw [trimNestedLoop_cons _ _ _ _ _ _ hown, if_neg (fun h => h.2.2 hex),
    if_neg (fun h => h.2.2 hex), if_neg (fun h => h.2.2 hex)]

theorem trimNestedLoop_cons_string (notTrimFields : List String)
    (recur : JSValue → Except Fault JSValue) (f : String) (rest : List String) (obj : JSValue)
    (s : String) (hown : hasOwnProperty obj f = .ok true) (hget : getProp obj f = .string s)
    (hex : f ∉ notTrimFields) :
    trimNestedLoop notTrimFields recur (f :: rest) obj
      = trimNestedLoop notTrimFields recur rest (setProp obj f (.string (jsTrim s))) := by
  rw [trimNestedLoop_cons _ _ _ _ _ _ hown, if_pos ⟨rfl, by rw [hget]; rfl, hex⟩, hget]
  rfl

theorem trimNestedLoop_cons_object (notTrimFields : List String)
    (recur : JSValue → Except Fault JSValue) (f : String) (rest : List String) (obj : JSValue)
    (hown : hasOwnProperty obj f = .ok true) (ho : typeOf (getProp obj f) = "object")
    (hex : f ∉ notTrimFields) :
    trimNestedLoop notTrimFields recur (f :: rest) obj
      = (match recur (getProp obj f) with
         | .ok r => trimNestedLoop notTrimFields recur rest (setProp obj f r)
         | .error e => .error e) := by
  have hs : ¬ (true = true ∧ typeOf (getProp obj f) = "string" ∧
      f ∉ notTrimFields) := by
    intro h
    rw [ho] at h
    exact absurd h.2.1 (by decide)
  rw [trimNestedLoop_cons _ _ _ _ _ _ hown, if_neg hs, if_pos ⟨rfl, ho, hex⟩]

theorem trimNestedLoop_cons_other (notTrimFields : List String)
    (recur : JSValue → Except Fault JSValue) (f : String) (rest : List String) (obj : JSValue)
    (own : Bool) (hown : hasOwnProperty obj f = .ok own)
    (hs : typeOf (getProp obj f) ≠ "string") (ho : typeOf (getProp obj f) ≠ "object") :
    trimNestedLoop notTrimFields recur (f :: rest) obj
      = trimNestedLoop notTrimFields recur rest obj := by
  have hdead : ¬ (own = true ∧ isArray (.string f) = true ∧
      f ∉ notTrimFields) := by simp [isArray]
  rw [trimNestedLoop_cons _ _ _ _ _ _ hown, if_neg (fun h => hs h.2.1),
    if_neg (fun h => ho h.2.1), if_neg hdead]

theorem trimNestedLoop_string (notTrimFields : List String)
    (recur : JSValue → Except Fault JSValue) (s : String) :
    ∀ ks, trimNestedLoop notTrimFields recur ks (.string s) = .ok (.string s) := by
  intro ks
  induction ks with
  | nil => rfl
  | cons f rest ih =>
    have hown : hasOwnProperty (.string s) f = .ok (ownProperty (.string s) f) := rfl
    have hobj : typeOf (getProp (.string s) f) ≠ "object" := by
      simp only [getProp]
      split
      · simp [typeOf]
      · split
        · split <;> simp [typeOf]
        · simp [typeOf]
    by_cases hex : f ∈ notTrimFields
    · rw [trimNestedLoop_cons_exempt _ _ _ _ _ _ hown hex]; exact ih
    · by_cases hs : typeOf (getProp (.string s) f) = "string"
      · have hdead : ¬ (ownProperty (.string s) f = true ∧ isArray (.string f) = true ∧
            f ∉ notTrimFields) := by simp [isArray]
        rw [trimNestedLoop_cons _ _ _ _ _ _ hown]
        by_cases hc : ownProperty (.string s) f = true ∧
            typeOf (getProp (.string s) f) = "string" ∧ f ∉ notTrimFields
        · rw [if_pos hc]; exact ih
        · rw [if_neg hc, if_neg (fun h => hobj h.2.1), if_neg hdead]; exact ih
      · rw [trimNestedLoop_cons_other _ _ _ _ _ _ hown hs hobj]; exact ih

theorem trimNestedLoop_object (notTrimFields : List String)
    (recur : JSValue → Except Fault JSValue) :
    ∀ (rest done : List (String × JSValue)), (propNames (done ++ rest)).Nodup →
      "hasOwnProperty" ∉ propNames (done ++ rest) →
      (∀ p ∈ rest, typeOf p.2 = "object" → recur p.2 = trimValue notTrimFields p.2) →
      trimNestedLoop notTrimFields recur (propNames rest) (.object (done ++ rest))
        = (match trimFields notTrimFields rest with
           | .ok r => .ok (.object (done ++ r))
           | .error e => .error e) := by
  intro rest
  induction rest with
  | nil =>
    intro done _ _ _
    simp [propNames, trimNestedLoop, trimFields]
  | cons p rest ih =>
    obtain ⟨k, v⟩ := p
    intro done hnd hm hrec
    have hk : k ∉ propNames done := by
      intro hmem
      simp only [propNames, List.map_append, List.map_cons] at hnd hmem
      exact (List.nodup_append.1 hnd).2.2 hmem (List.mem_cons_self _ _)
    have hown : hasOwnProperty (.object (done ++ (k, v) :: rest)) k = .ok true := by
      rw [hasOwnProperty_object _ _ hm]
      simp [ownProperty, propNames]
    have hm' : ∀ v', "hasOwnProperty" ∉ propNames ((done ++ [(k, v')]) ++ rest) := by
      intro v'
      simpa [propNames] using hm
    have hget : getProp (.object (done ++ (k, v) :: rest)) k = v := by
      rw [getProp_object, lookupProp_append_of_not_mem k v done rest hk]; rfl
    have hnd' : ∀ v', (propNames ((done ++ [(k, v')]) ++ rest)).Nodup := by
      intro v'
      simpa [propNames] using hnd
    have hrec' : ∀ p ∈ rest, typeOf p.2 = "object" → recur p.2 = trimValue notTrimFields p.2 :=
      fun p hp => hrec p (List.mem_cons_of_mem _ hp)
    have hstep : ∀ v', trimNestedLoop notTrimFields recur (propNames rest)
        (.object (done ++ (k, v') :: rest))
        = (match trimFields notTrimFields rest with
           | .ok r => .ok (.object (done ++ (k, v') :: r))
           | .error e => .error e) := by
      intro v'
      have := ih (done ++ [(k, v')]) (hnd' v') (hm' v') hrec'
      simpa [List.append_assoc] using this
    have hnames : propNames ((k, v) :: rest) = k :: propNames rest := rfl
    rw [hnames]
    by_cases hex : k ∈ notTrimFields
    · rw [trimNestedLoop_cons_exempt _ _ _ _ _ _ hown hex, hstep v]
      simp only [trimFields, if_pos hex]
      cases trimFields notTrimFields rest <;> rfl
    · have hobjcase : typeOf v = "object" →
          trimNestedLoop notTrimFields recur (k :: propNames rest)
            (.object (done ++ (k, v) :: rest))
          = (match trimFields notTrimFields ((k, v) :: rest) with
             | .ok r => .ok (.object (done ++ r))
             | .error e => .error e) := by
        intro ho
        rw [trimNestedLoop_cons_object _ _ _ _ _ hown (by rw [hget]; exact ho) hex, hget,
          hrec (k, v) (List.mem_cons_self _ _) ho]
        simp only [trimFields, if_neg hex]
        cases hv : trimValue notTrimFields v with
        | error e => rfl
        | ok r =>
          simp only []
          rw [setProp_append_of_not_mem k v _ done rest hk, hstep]
          cases trimFields notTrimFields rest <;> rfl
      have hothercase : typeOf v ≠ "string" → typeOf v ≠ "object" →
          trimValue notTrimFields v = .ok v →
          trimNestedLoop notTrimFields recur (k :: propNames rest)
            (.object (done ++ (k, v) :: rest))
          = (match trimFields notTrimFields ((k, v) :: rest) with
             | .ok r => .ok (.object (done ++ r))
             | .error e => .error e) := by
        intro hs ho hv
        rw [trimNestedLoop_cons_other _ _ _ _ _ _ hown (by rw [hget]; exact hs)
          (by rw [hget]; exact ho), hstep v]
        simp only [trimFields, if_neg hex, hv]
        cases trimFields notTrimFields rest <;> rfl
      cases v with
      | string s =>
        rw [trimNestedLoop_cons_string _ _ _ _ _ s hown hget hex,
          setProp_append_of_not_mem k _ _ done rest hk, hstep]
        simp only [trimFields, if_neg hex, trimValue]
        cases trimFields notTrimFields rest <;> rfl
      | null => exact hobjcase rfl
      | date t => exact hobjcase rfl
      | array xs => exact hobjcase rfl
      | object gs => exact hobjcase rfl
      | undefined => exact hothercase (by simp [typeOf]) (by simp [typeOf]) rfl
      | bool b => exact hothercase (by simp [typeOf]) (by simp [typeOf]) rfl
      | number n => exact hothercase (by simp [typeOf]) (by simp [typeOf]) rfl

theorem getProp_array_index (done rest : List JSValue) (x : JSValue) :
    getProp (.array (done ++ x :: rest)) (indexKey done.length) = x := by
  have h : (done ++ x :: rest).getD done.length .undefined = x := by
    rw [List.getD_eq_getElem?_getD, List.getElem?_append_right (Nat.le_refl _)]
    simp
  simp only [getProp, if_neg (indexKey_ne_length _), canonicalIndex?_indexKey]
  exact h

theorem hasOwnProperty_array_index (done rest : List JSValue) (x : JSValue) :
    hasOwnProperty (.array (done ++ x :: rest)) (indexKey done.length) = .ok true := by
  simp [hasOwnProperty, ownProperty, canonicalIndex?_indexKey]

theorem setProp_array_index (done rest : List JSValue) (x v : JSValue) :
    setProp (.array (done ++ x :: rest)) (indexKey done.length) v
      = .array (done ++ v :: rest) := by
  simp [setProp, canonicalIndex?_indexKey]

theorem trimNestedLoop_array (notTrimFields : List String)
    (recur : JSValue → Except Fault JSValue) :
    ∀ (rest done : List JSValue),
      (∀ x ∈ rest, typeOf x = "object" → recur x = trimValue notTrimFields x) →
      trimNestedLoop notTrimFields recur ((List.range' done.length rest.length).map indexKey)
          (.array (done ++ rest))
        = (match trimElems notTrimFields done.length rest with
           | .ok r => .ok (.array (done ++ r))
           | .error e => .error e) := by
  intro rest
  induction rest with
  | nil =>
    intro done _
    simp [trimNestedLoop, trimElems]
  | cons x rest ih =>
    intro done hrec
    have hown := hasOwnProperty_array_index done rest x
    have hget := getProp_array_index done rest x
    have hrec' : ∀ y ∈ rest, typeOf y = "object" → recur y = trimValue notTrimFields y :=
      fun y hy => hrec y (List.mem_cons_of_mem _ hy)
    have hstep : ∀ v', trimNestedLoop notTrimFields recur
        ((List.range' (done.length + 1) rest.length).map indexKey) (.array (done ++ v' :: rest))
        = (match trimElems notTrimFields (done.length + 1) rest with
           | .ok r => .ok (.array (done ++ v' :: r))
           | .error e => .error e) := by
      intro v'
      have := ih (done ++ [v']) hrec'
      simpa [List.append_assoc] using this
    have hkeys : (List.range' done.length (x :: rest).length).map indexKey
        = indexKey done.length :: (List.range' (done.length + 1) rest.length).map indexKey := by
      simp [List.range'_succ]
    rw [hkeys]
    by_cases hex : indexKey done.length ∈ notTrimFields
    · rw [trimNestedLoop_cons_exempt _ _ _ _ _ _ hown hex, hstep x]
      simp only [trimElems, if_pos hex]
      cases trimElems notTrimFields (done.length + 1) rest <;> rfl
    · have hobjcase : typeOf x = "object" →
          trimNestedLoop notTrimFields recur
            (indexKey done.length :: (List.range' (done.length + 1) rest.length).map indexKey)
            (.array (done ++ x :: rest))
          = (match trimElems notTrimFields done.length (x :: rest) with
             | .ok r => .ok (.array (done ++ r))
             | .error e => .error e) := by
        intro ho
        rw [trimNestedLoop_cons_object _ _ _ _ _ hown (by rw [hget]; exact ho) hex, hget,
          hrec x (List.mem_cons_self _ _) ho]
        simp only [trimElems, if_neg hex]
        cases hv : trimValue notTrimFields x with
        | error e => rfl
        | ok r =>
          simp only []
          rw [setProp_array_index, hstep]
          cases trimElems notTrimFields (done.length + 1) rest <;> rfl
      have hothercase : typeOf x ≠ "string" → typeOf x ≠ "object" →
          trimValue notTrimFields x = .ok x →
          trimNestedLoop notTrimFields recur
            (indexKey done.length :: (List.range' (done.length + 1) rest.length).map indexKey)
            (.array (done ++ x :: rest))
          = (match trimElems notTrimFields done.length (x :: rest) with
             | .ok r => .ok (.array (done ++ r))
             | .error e => .error e) := by
        intro hs ho hv
        rw [trimNestedLoop_cons_other _ _ _ _ _ _ hown (by rw [hget]; exact hs)
          (by rw [hget]; exact ho), hstep x]
        simp only [trimElems, if_neg hex, hv]
        cases trimElems notTrimFields (done.length + 1) rest <;> rfl
      cases x with
      | string s =>
        rw [trimNestedLoop_cons_string _ _ _ _ _ s hown hget hex, setProp_array_index, hstep]
        simp only [trimElems, if_neg hex, trimValue]
        cases trimElems notTrimFields (done.length + 1) rest <;> rfl
      | null => exact hobjcase rfl
      | date t => exact hobjcase rfl
      | array xs => exact hobjcase rfl
      | object gs => exact hobjcase rfl
      | undefined => exact hothercase (by simp [typeOf]) (by simp [typeOf]) rfl
      | bool b => exact hothercase (by simp [typeOf]) (by simp [typeOf]) rfl
      | number n => exact hothercase (by simp [typeOf]) (by simp [typeOf]) rfl

/-! ## The representation invariant and the depth -/

theorem distinctKeysFields_nodup : ∀ fs : List (String × JSValue),
    distinctKeysFields fs = true → (propNames fs).Nodup := by
  intro fs
  induction fs with
  | nil => intro _; exact List.nodup_nil
  | cons p fs ih =>
    obtain ⟨k, v⟩ := p
    intro h
    simp only [distinctKeysFields, Bool.and_eq_true, Bool.not_eq_true'] at h
    refine List.nodup_cons.2 ⟨?_, ih h.2⟩
    simpa [propNames] using h.1.1

theorem distinctKeysFields_mem : ∀ fs : List (String × JSValue),
    distinctKeysFields fs = true → ∀ p ∈ fs, distinctKeys p.2 = true := by
  intro fs
  induction fs with
  | nil => intro _ p hp; cases hp
  | cons q fs ih =>
    obtain ⟨k, v⟩ := q
    intro h p hp
    simp only [distinctKeysFields, Bool.and_eq_true] at h
    rcases List.mem_cons.1 hp with rfl | hp
    · exact h.1.2
    · exact ih h.2 p hp

theorem distinctKeysList_mem : ∀ xs : List JSValue,
    distinctKeysList xs = true → ∀ x ∈ xs, distinctKeys x = true := by
  intro xs
  induction xs with
  | nil => intro _ x hx; cases hx
  | cons y xs ih =>
    intro h x hx
    simp only [distinctKeysList, Bool.and_eq_true] at h
    rcases List.mem_cons.1 hx with rfl | hx
    · exact h.1
    · exact ih h.2 x hx

theorem depth_le_depthFields : ∀ fs : List (String × JSValue),
    ∀ p ∈ fs, depth p.2 ≤ depthFields fs := by
  intro fs
  induction fs with
  | nil => intro p hp; cases hp
  | cons q fs ih =>
    obtain ⟨k, v⟩ := q
    intro p hp
    simp only [depthFields]
    rcases List.mem_cons.1 hp with rfl | hp
    · exact Nat.le_max_left _ _
    · exact Nat.le_trans (ih p hp) (Nat.le_max_right _ _)

theorem depth_le_depthList : ∀ xs : List JSValue, ∀ x ∈ xs, depth x ≤ depthList xs := by
  intro xs
  induction xs with
  | nil => intro x hx; cases hx
  | cons y xs ih =>
    intro x hx
    simp only [depthList]
    rcases List.mem_cons.1 hx with rfl | hx
    · exact Nat.le_max_left _ _
    · exact Nat.le_trans (ih x hx) (Nat.le_max_right _ _)

theorem depth_pos (v : JSValue) : 1 ≤ depth v := by
  cases v <;> simp [depth]

theorem trimNestedResult_of_object (notTrimFields : List String) (v : JSValue)
    (h : typeOf v = "object") : trimNestedResult notTrimFields v = trimValue notTrimFields v := by
  cases v <;> first | rfl | simp [typeOf] at h

theorem ordinaryNamesFields_mem : ∀ fs : List (String × JSValue),
    ordinaryNamesFields fs = true → ∀ p ∈ fs, ordinaryNames p.2 = true := by
  intro fs
  induction fs with
  | nil => intro _ p hp; cases hp
  | cons q fs ih =>
    obtain ⟨k, v⟩ := q
    intro h p hp
    simp only [ordinaryNamesFields, Bool.and_eq_true] at h
    rcases List.mem_cons.1 hp with rfl | hp
    · exact h.1.2
    · exact ih h.2 p hp

theorem ordinaryNamesList_mem : ∀ xs : List JSValue,
    ordinaryNamesList xs = true → ∀ x ∈ xs, ordinaryNames x = true := by
  intro xs
  induction xs with
  | nil => intro _ x hx; cases hx
  | cons y xs ih =>
    intro h x hx
    simp only [ordinaryNamesList, Bool.and_eq_true] at h
    rcases List.mem_cons.1 hx with rfl | hx
    · exact h.1
    · exact ih h.2 x hx

theorem ordinaryNamesFields_no_method (fs : List (String × JSValue))
    (h : ordinaryNamesFields fs = true) : "hasOwnProperty" ∉ propNames fs := by
  have hc := cloneFields_of_ordinaryNames fs h
  have := cloneFields_no_method fs
  rw [hc] at this
  exact this

/-- On a value with ordinary names, with fuel at least its depth,
`trimNestedObject` computes the structural description. -/
theorem trimNestedObject_eq_result_of_ordinary (notTrimFields : List String) :
    ∀ (fuel : Nat) (v : JSValue), ordinaryNames v = true → distinctKeys v = true →
      depth v ≤ fuel →
      trimNestedObject notTrimFields fuel v = trimNestedResult notTrimFields v := by
  intro fuel
  induction fuel with
  | zero =>
    intro v _ _ hd
    have := depth_pos v
    omega
  | succ fuel ih =>
    intro v hon hwf hd
    have hcl : clone v = v := clone_of_ordinaryNames v hon
    cases v with
    | undefined => rfl
    | null => rfl
    | bool b => rfl
    | number n => rfl
    | date t => rfl
    | string s =>
      simp only [trimNestedObject, clone, objectKeys, trimNestedResult]
      exact trimNestedLoop_string _ _ s _
    | array xs =>
      simp only [depth] at hd
      simp only [distinctKeys] at hwf
      simp only [ordinaryNames] at hon
      have hrec : ∀ x ∈ xs, typeOf x = "object" →
          trimNestedObject notTrimFields fuel x = trimValue notTrimFields x := by
        intro x hx ho
        rw [ih x (ordinaryNamesList_mem xs hon x hx) (distinctKeysList_mem xs hwf x hx)
          (by have := depth_le_depthList xs x hx; omega)]
        exact trimNestedResult_of_object _ x ho
      have := trimNestedLoop_array notTrimFields (trimNestedObject notTrimFields fuel) xs [] hrec
      rw [trimNestedObject, hcl]
      simp only [objectKeys, trimNestedResult, trimValue]
      simpa [List.range_eq_range'] using this
    | object fs =>
      simp only [depth] at hd
      simp only [distinctKeys] at hwf
      simp only [ordinaryNames] at hon
      have hrec : ∀ p ∈ fs, typeOf p.2 = "object" →
          trimNestedObject notTrimFields fuel p.2 = trimValue notTrimFields p.2 := by
        intro p hp ho
        rw [ih p.2 (ordinaryNamesFields_mem fs hon p hp) (distinctKeysFields_mem fs hwf p hp)
          (by have := depth_le_depthFields fs p hp; omega)]
        exact trimNestedResult_of_object _ p.2 ho
      have := trimNestedLoop_object notTrimFields (trimNestedObject notTrimFields fuel) fs []
        (by simpa using distinctKeysFields_nodup fs hwf)
        (by simpa using ordinaryNamesFields_no_method fs hon) hrec
      rw [trimNestedObject, hcl]
      simp only [objectKeys, trimNestedResult, trimValue]
      simpa using this

/-- The call on a value is the call on the copy that `clone` makes of it. -/
theorem trimNestedObject_clone (notTrimFields : List String) (fuel : Nat) (v : JSValue) :
    trimNestedObject notTrimFields fuel (clone v) = trimNestedObject notTrimFields fuel v := by
  cases fuel with
  | zero => rfl
  | succ fuel => rw [trimNestedObject, trimNestedObject, clone_clone]

/-- With fuel at least the depth of the argument, `trimNestedObject` computes
the structural description of the copy that `clone` makes of the argument. -/
theorem trimNestedObject_eq_result (notTrimFields : List String) (fuel : Nat) (v : JSValue)
    (hwf : distinctKeys v = true) (hd : depth v ≤ fuel) :
    trimNestedObject notTrimFields fuel v = trimNestedResult notTrimFields (clone v) := by
  rw [← trimNestedObject_clone]
  exact trimNestedObject_eq_result_of_ordinary notTrimFields fuel (clone v)
    (ordinaryNames_clone v) (distinctKeys_clone v hwf)
    (Nat.le_trans (depth_clone_le v) hd)

/-! ## Properties of the structural description -/

theorem trimElems_cons_ok (notTrimFields : List String) (i : Nat) (x : JSValue)
    (xs r : List JSValue) (h : trimElems notTrimFields i (x :: xs) = .ok r) :
    ∃ x' xs', r = x' :: xs' ∧
      (if indexKey i ∈ notTrimFields then Except.ok x else trimValue notTrimFields x) = .ok x' ∧
      trimElems notTrimFields (i + 1) xs = .ok xs' := by
  simp only [trimElems] at h
  cases h1 : (if indexKey i ∈ notTrimFields then Except.ok x else trimValue notTrimFields x) with
  | error e => rw [h1] at h; cases h
  | ok x' =>
    rw [h1] at h
    simp only [] at h
    cases h2 : trimElems notTrimFields (i + 1) xs with
    | error e => rw [h2] at h; cases h
    | ok xs' =>
      rw [h2] at h
      cases h
      exact ⟨x', xs', rfl, rfl, rfl⟩

theorem trimFields_cons_ok (notTrimFields : List String) (k : String) (v : JSValue)
    (fs r : List (String × JSValue)) (h : trimFields notTrimFields ((k, v) :: fs) = .ok r) :
    ∃ v' fs', r = (k, v') :: fs' ∧
      (if k ∈ notTrimFields then Except.ok v else trimValue notTrimFields v) = .ok v' ∧
      trimFields notTrimFields fs = .ok fs' := by
  simp only [trimFields] at h
  cases h1 : (if k ∈ notTrimFields then Except.ok v else trimValue notTrimFields v) with
  | error e => rw [h1] at h; cases h
  | ok v' =>
    rw [h1] at h
    simp only [] at h
    cases h2 : trimFields notTrimFields fs with
    | error e => rw [h2] at h; cases h
    | ok fs' =>
      rw [h2] at h
      cases h
      exact ⟨v', fs', rfl, rfl, rfl⟩

theorem trimValue_array_ok (notTrimFields : List String) (xs : List JSValue) (r : JSValue)
    (h : trimValue notTrimFields (.array xs) = .ok r) :
    ∃ ys, r = .array ys ∧ trimElems notTrimFields 0 xs = .ok ys := by
  simp only [trimValue] at h
  cases h1 : trimElems notTrimFields 0 xs with
  | error e => rw [h1] at h; cases h
  | ok ys => rw [h1] at h; cases h; exact ⟨ys, rfl, rfl⟩

theorem trimValue_object_ok (notTrimFields : List String) (fs : List (String × JSValue))
    (r : JSValue) (h : trimValue notTrimFields (.object fs) = .ok r) :
    ∃ gs, r = .object gs ∧ trimFields notTrimFields fs = .ok gs := by
  simp only [trimValue] at h
  cases h1 : trimFields notTrimFields fs with
  | error e => rw [h1] at h; cases h
  | ok gs => rw [h1] at h; cases h; exact ⟨gs, rfl, rfl⟩

mutual
theorem trimValue_idem (notTrimFields : List String) :
    ∀ (v r : JSValue), trimValue notTrimFields v = .ok r → trimValue notTrimFields r = .ok r
  | .string s, r, h => by
    simp only [trimValue] at h
    cases h
    simp only [trimValue, jsTrim_idem]
  | .null, r, h => by simp [trimValue] at h
  | .undefined, r, h => by cases h; rfl
  | .bool b, r, h => by cases h; rfl
  | .number n, r, h => by cases h; rfl
  | .date t, r, h => by cases h; rfl
  | .array xs, r, h => by
    obtain ⟨ys, rfl, hys⟩ := trimValue_array_ok _ _ _ h
    simp only [trimValue, trimElems_idem notTrimFields 0 xs ys hys]
  | .object fs, r, h => by
    obtain ⟨gs, rfl, hgs⟩ := trimValue_object_ok _ _ _ h
    simp only [trimValue, trimFields_idem notTrimFields fs gs hgs]
theorem trimElems_idem (notTrimFields : List String) :
    ∀ (i : Nat) (xs r : List JSValue), trimElems notTrimFields i xs = .ok r →
      trimElems notTrimFields i r = .ok r
  | _, [], r, h => by cases h; rfl
  | i, x :: xs, r, h => by
    obtain ⟨x', xs', rfl, hx, hxs⟩ := trimElems_cons_ok _ _ _ _ _ h
    have ih2 := trimElems_idem notTrimFields (i + 1) xs xs' hxs
    by_cases hex : indexKey i ∈ notTrimFields
    · simp only [trimElems, if_pos hex, ih2]
    · rw [if_neg hex] at hx
      have ih1 := trimValue_idem notTrimFields x x' hx
      simp only [trimElems, if_neg hex, ih1, ih2]
theorem trimFields_idem (notTrimFields : List String) :
    ∀ (fs r : List (String × JSValue)), trimFields notTrimFields fs = .ok r →
      trimFields notTrimFields r = .ok r
  | [], r, h => by cases h; rfl
  | (k, v) :: fs, r, h => by
    obtain ⟨v', fs', rfl, hv, hfs⟩ := trimFields_cons_ok _ _ _ _ _ h
    have ih2 := trimFields_idem notTrimFields fs fs' hfs
    by_cases hex : k ∈ notTrimFields
    · simp only [trimFields, if_pos hex, ih2]
    · rw [if_neg hex] at hv
      have ih1 := trimValue_idem notTrimFields v v' hv
      simp only [trimFields, if_neg hex, ih1, ih2]
end

theorem trimFields_propNames (notTrimFields : List String) :
    ∀ (fs r : List (String × JSValue)), trimFields notTrimFields fs = .ok r →
      propNames r = propNames fs := by
  intro fs
  induction fs with
  | nil => intro r h; cases h; rfl
  | cons p fs ih =>
    obtain ⟨k, v⟩ := p
    intro r h
    obtain ⟨v', fs', rfl, _, hfs⟩ := trimFields_cons_ok _ _ _ _ _ h
    simp only [propNames, List.map_cons] at ih ⊢
    rw [ih fs' hfs]

mutual
theorem trimValue_shape (notTrimFields : List String) :
    ∀ (v r : JSValue), trimValue notTrimFields v = .ok r →
      depth r = depth v ∧ (distinctKeys v = true → distinctKeys r = true)
  | .string s, r, h => by
    simp only [trimValue] at h
    cases h
    exact ⟨rfl, fun _ => rfl⟩
  | .null, r, h => by simp [trimValue] at h
  | .undefined, r, h => by cases h; exact ⟨rfl, id⟩
  | .bool b, r, h => by cases h; exact ⟨rfl, id⟩
  | .number n, r, h => by cases h; exact ⟨rfl, id⟩
  | .date t, r, h => by cases h; exact ⟨rfl, id⟩
  | .array xs, r, h => by
    obtain ⟨ys, rfl, hys⟩ := trimValue_array_ok _ _ _ h
    have ih := trimElems_shape notTrimFields 0 xs ys hys
    simp only [depth, distinctKeys, ih.1]
    exact ⟨trivial, ih.2⟩
  | .object fs, r, h => by
    obtain ⟨gs, rfl, hgs⟩ := trimValue_object_ok _ _ _ h
    have ih := trimFields_shape notTrimFields fs gs hgs
    simp only [depth, distinctKeys, ih.1]
    exact ⟨trivial, ih.2⟩
theorem trimElems_shape (notTrimFields : List String) :
    ∀ (i : Nat) (xs r : List JSValue), trimElems notTrimFields i xs = .ok r →
      depthList r = depthList xs ∧ (distinctKeysList xs = true → distinctKeysList r = true)
  | _, [], r, h => by cases h; exact ⟨rfl, id⟩
  | i, x :: xs, r, h => by
    obtain ⟨x', xs', rfl, hx, hxs⟩ := trimElems_cons_ok _ _ _ _ _ h
    have ih2 := trimElems_shape notTrimFields (i + 1) xs xs' hxs
    have ih1 : depth x' = depth x ∧ (distinctKeys x = true → distinctKeys x' = true) := by
      by_cases hex : indexKey i ∈ notTrimFields
      · rw [if_pos hex] at hx
        cases hx
        exact ⟨rfl, id⟩
      · rw [if_neg hex] at hx
        exact trimValue_shape notTrimFields x x' hx
    simp only [depthList, distinctKeysList, ih1.1, ih2.1, Bool.and_eq_true]
    exact ⟨trivial, fun hd => ⟨ih1.2 hd.1, ih2.2 hd.2⟩⟩
theorem trimFields_shape (notTrimFields : List String) :
    ∀ (fs r : List (String × JSValue)), trimFields notTrimFields fs = .ok r →
      depthFields r = depthFields fs ∧
        (distinctKeysFields fs = true → distinctKeysFields r = true)
  | [], r, h => by cases h; exact ⟨rfl, id⟩
  | (k, v) :: fs, r, h => by
    obtain ⟨v', fs', rfl, hv, hfs⟩ := trimFields_cons_ok _ _ _ _ _ h
    have ih2 := trimFields_shape notTrimFields fs fs' hfs
    have hn : List.map Prod.fst fs' = List.map Prod.fst fs := trimFields_propNames _ fs fs' hfs
    have ih1 : depth v' = depth v ∧ (distinctKeys v = true → distinctKeys v' = true) := by
      by_cases hex : k ∈ notTrimFields
      · rw [if_pos hex] at hv
        cases hv
        exact ⟨rfl, id⟩
      · rw [if_neg hex] at hv
        exact trimValue_shape notTrimFields v v' hv
    simp only [depthFields, distinctKeysFields, ih1.1, ih2.1, Bool.and_eq_true, hn]
    exact ⟨trivial, fun hd => ⟨⟨hd.1.1, ih1.2 hd.1.2⟩, ih2.2 hd.2⟩⟩
end

mutual
theorem trimValue_ok_iff (notTrimFields : List String) :
    ∀ v : JSValue, (∃ r, trimValue notTrimFields v = .ok r) ↔ noNullReached notTrimFields v = true
  | .string s => by simp [trimValue, noNullReached]
  | .null => by simp [trimValue, noNullReached]
  | .undefined => by simp [trimValue, noNullReached]
  | .bool b => by simp [trimValue, noNullReached]
  | .number n => by simp [trimValue, noNullReached]
  | .date t => by simp [trimValue, noNullReached]
  | .array xs => by
    have ih := trimElems_ok_iff notTrimFields 0 xs
    simp only [noNullReached, ← ih, trimValue]
    cases trimElems notTrimFields 0 xs <;> simp
  | .object fs => by
    have ih := trimFields_ok_iff notTrimFields fs
    simp only [noNullReached, ← ih, trimValue]
    cases trimFields notTrimFields fs <;> simp
theorem trimElems_ok_iff (notTrimFields : List String) :
    ∀ (i : Nat) (xs : List JSValue),
      (∃ r, trimElems notTrimFields i xs = .ok r) ↔ noNullReachedElems notTrimFields i xs = true
  | _, [] => by simp [trimElems, noNullReachedElems]
  | i, x :: xs => by
    have ih1 := trimValue_ok_iff notTrimFields x
    have ih2 := trimElems_ok_iff notTrimFields (i + 1) xs
    simp only [noNullReachedElems, Bool.and_eq_true, Bool.or_eq_true, decide_eq_true_eq,
      ← ih1, ← ih2, trimElems]
    by_cases hex : indexKey i ∈ notTrimFields
    · simp only [if_pos hex, hex, true_or, true_and]
      cases trimElems notTrimFields (i + 1) xs <;> simp
    · simp only [if_neg hex, hex, false_or]
      cases trimValue notTrimFields x <;> cases trimElems notTrimFields (i + 1) xs <;> simp
theorem trimFields_ok_iff (notTrimFields : List String) :
    ∀ fs : List (String × JSValue),
      (∃ r, trimFields notTrimFields fs = .ok r) ↔ noNullReachedFields notTrimFields fs = true
  | [] => by simp [trimFields, noNullReachedFields]
  | (k, v) :: fs => by
    have ih1 := trimValue_ok_iff notTrimFields v
    have ih2 := trimFields_ok_iff notTrimFields fs
    simp only [noNullReachedFields, Bool.and_eq_true, Bool.or_eq_true, decide_eq_true_eq,
      ← ih1, ← ih2, trimFields]
    by_cases hex : k ∈ notTrimFields
    · simp only [if_pos hex, hex, true_or, true_and]
      cases trimFields notTrimFields fs <;> simp
    · simp only [if_neg hex, hex, false_or]
      cases trimValue notTrimFields v <;> cases trimFields notTrimFields fs <;> simp
end

theorem trimFields_lookup (notTrimFields : List String) :
    ∀ (fs gs : List (String × JSValue)), trimFields notTrimFields fs = .ok gs →
      ∀ k x, lookupProp k fs = some x →
        ∃ x', lookupProp k gs = some x' ∧
          (if k ∈ notTrimFields then Except.ok x else trimValue notTrimFields x) = .ok x' := by
  intro fs
  induction fs with
  | nil => intro gs _ k x hx; simp [lookupProp] at hx
  | cons p fs ih =>
    obtain ⟨k₁, v₁⟩ := p
    intro gs h k x hx
    obtain ⟨v', fs', rfl, hv, hfs⟩ := trimFields_cons_ok _ _ _ _ _ h
    by_cases e : k₁ = k
    · subst e
      simp only [lookupProp, if_true] at hx ⊢
      cases hx
      exact ⟨v', rfl, hv⟩
    · simp only [lookupProp, if_neg e] at hx ⊢
      exact ih fs' hfs k x hx

theorem trimElems_getElem (notTrimFields : List String) :
    ∀ (xs ys : List JSValue) (i : Nat), trimElems notTrimFields i xs = .ok ys →
      ys.length = xs.length ∧
      ∀ j x, xs[j]? = some x →
        ∃ y, ys[j]? = some y ∧
          (if indexKey (i + j) ∈ notTrimFields then Except.ok x
            else trimValue notTrimFields x) = .ok y := by
  intro xs
  induction xs with
  | nil =>
    intro ys i h
    cases h
    exact ⟨rfl, fun j x hx => by simp at hx⟩
  | cons a xs ih =>
    intro ys i h
    obtain ⟨a', xs', rfl, ha, hxs⟩ := trimElems_cons_ok _ _ _ _ _ h
    obtain ⟨hlen, hel⟩ := ih xs' (i + 1) hxs
    refine ⟨by simp [hlen], ?_⟩
    intro j x hx
    cases j with
    | zero =>
      simp only [List.getElem?_cons_zero, Option.some.injEq] at hx
      subst hx
      exact ⟨a', by simp, by simpa using ha⟩
    | succ j =>
      simp only [List.getElem?_cons_succ] at hx ⊢
      obtain ⟨y, hy, hy'⟩ := hel j x hx
      refine ⟨y, hy, ?_⟩
      have : i + 1 + j = i + (j + 1) := by omega
      rw [this] at hy'
      exact hy'

theorem getPath_nil (v : JSValue) : getPath v [] = some v := by
  cases v <;> rfl

theorem getPath_trimValue (notTrimFields : List String) :
    ∀ (ks : List String) (v r : JSValue), trimValue notTrimFields v = .ok r →
      (∀ k ∈ ks, k ∉ notTrimFields) → ∀ x, getPath v ks = some x →
        ∃ x', getPath r ks = some x' ∧ trimValue notTrimFields x = .ok x' := by
  intro ks
  induction ks with
  | nil =>
    intro v r h _ x hx
    rw [getPath_nil] at hx
    cases hx
    exact ⟨r, getPath_nil r, h⟩
  | cons k ks ih =>
    intro v r h hks x hx
    cases v with
    | object fs =>
      obtain ⟨gs, rfl, hgs⟩ := trimValue_object_ok _ _ _ h
      simp only [getPath] at hx ⊢
      cases hl : lookupProp k fs with
      | none => rw [hl] at hx; cases hx
      | some y =>
        rw [hl] at hx
        obtain ⟨y', hy', hty⟩ := trimFields_lookup _ fs gs hgs k y hl
        rw [if_neg (hks k (List.mem_cons_self _ _))] at hty
        rw [hy']
        exact ih y y' hty (fun k' hk' => hks k' (List.mem_cons_of_mem _ hk')) x hx
    | undefined => simp [getPath] at hx
    | null => simp [getPath] at hx
    | bool b => simp [getPath] at hx
    | number n => simp [getPath] at hx
    | string s => simp [getPath] at hx
    | date t => simp [getPath] at hx
    | array xs => simp [getPath] at hx

theorem getPath_append_singleton :
    ∀ (ks : List String) (v : JSValue) (e : String),
      getPath v (ks ++ [e]) = (getPath v ks).bind (fun y => getPath y [e]) := by
  intro ks
  induction ks with
  | nil => intro v e; rw [getPath_nil]; rfl
  | cons k ks ih =>
    intro v e
    cases v with
    | object fs =>
      simp only [List.cons_append, getPath]
      cases lookupProp k fs with
      | none => rfl
      | some y => exact ih y e
    | undefined => rfl
    | null => rfl
    | bool b => rfl
    | number n => rfl
    | string s => rfl
    | date t => rfl
    | array xs => rfl

theorem getPath_exempt (notTrimFields : List String) (ks : List String) (e : String)
    (v r : JSValue) (h : trimValue notTrimFields v = .ok r)
    (hks : ∀ k ∈ ks, k ∉ notTrimFields) (he : e ∈ notTrimFields) (x : JSValue)
    (hx : getPath v (ks ++ [e]) = some x) : getPath r (ks ++ [e]) = some x := by
  rw [getPath_append_singleton] at hx ⊢
  cases hy : getPath v ks with
  | none => rw [hy] at hx; cases hx
  | some y =>
    rw [hy] at hx
    obtain ⟨y', hy', hty⟩ := getPath_trimValue _ ks v r h hks y hy
    rw [hy']
    simp only [Option.bind] at hx ⊢
    cases y with
    | object fs =>
      obtain ⟨gs, rfl, hgs⟩ := trimValue_object_ok _ _ _ hty
      simp only [getPath] at hx ⊢
      cases hl : lookupProp e fs with
      | none => rw [hl] at hx; cases hx
      | some z =>
        rw [hl] at hx
        obtain ⟨z', hz', htz⟩ := trimFields_lookup _ fs gs hgs e z hl
        rw [if_pos he] at htz
        cases htz
        rw [hz']
        exact hx
    | undefined => simp [getPath] at hx
    | null => simp [getPath] at hx
    | bool b => simp [getPath] at hx
    | number n => simp [getPath] at hx
    | string s => simp [getPath] at hx
    | date t => simp [getPath] at hx
    | array xs => simp [getPath] at hx

theorem trimNestedResult_idem (notTrimFields : List String) (x y : JSValue)
    (h : trimNestedResult notTrimFields x = .ok y) :
    trimNestedResult notTrimFields y = .ok y ∧ depth y = depth x ∧
      (distinctKeys x = true → distinctKeys y = true) := by
  cases x with
  | string s =>
    simp only [trimNestedResult] at h
    cases h
    exact ⟨rfl, rfl, id⟩
  | undefined => simp [trimNestedResult] at h
  | null => simp [trimNestedResult, trimValue] at h
  | bool b => cases h; exact ⟨rfl, rfl, id⟩
  | number n => cases h; exact ⟨rfl, rfl, id⟩
  | date t => cases h; exact ⟨rfl, rfl, id⟩
  | array xs =>
    have h' : trimValue notTrimFields (.array xs) = .ok y := h
    obtain ⟨ys, rfl, _⟩ := trimValue_array_ok _ _ _ h'
    exact ⟨trimValue_idem _ _ _ h', trimValue_shape _ _ _ h'⟩
  | object fs =>
    have h' : trimValue notTrimFields (.object fs) = .ok y := h
    obtain ⟨gs, rfl, _⟩ := trimValue_object_ok _ _ _ h'
    exact ⟨trimValue_idem _ _ _ h', trimValue_shape _ _ _ h'⟩

mutual
theorem trimValue_error (notTrimFields : List String) :
    ∀ (v : JSValue) (e : Fault), trimValue notTrimFields v = .error e → e = .typeError
  | .string s, e, h => by simp [trimValue] at h
  | .null, e, h => by simp only [trimValue] at h; cases h; rfl
  | .undefined, e, h => by cases h
  | .bool b, e, h => by cases h
  | .number n, e, h => by cases h
  | .date t, e, h => by cases h
  | .array xs, e, h => by
    simp only [trimValue] at h
    cases h1 : trimElems notTrimFields 0 xs with
    | ok r => rw [h1] at h; cases h
    | error e' =>
      rw [h1] at h
      cases h
      exact trimElems_error notTrimFields 0 xs _ h1
  | .object fs, e, h => by
    simp only [trimValue] at h
    cases h1 : trimFields notTrimFields fs with
    | ok r => rw [h1] at h; cases h
    | error e' =>
      rw [h1] at h
      cases h
      exact trimFields_error notTrimFields fs _ h1
theorem trimElems_error (notTrimFields : List String) :
    ∀ (i : Nat) (xs : List JSValue) (e : Fault),
      trimElems notTrimFields i xs = .error e → e = .typeError
  | _, [], e, h => by cases h
  | i, x :: xs, e, h => by
    simp only [trimElems] at h
    by_cases hex : indexKey i ∈ notTrimFields
    · simp only [if_pos hex] at h
      cases h2 : trimElems notTrimFields (i + 1) xs with
      | ok r => rw [h2] at h; cases h
      | error e' =>
        rw [h2] at h
        cases h
        exact trimElems_error notTrimFields (i + 1) xs _ h2
    · simp only [if_neg hex] at h
      cases h1 : trimValue notTrimFields x with
      | error e' =>
        rw [h1] at h
        cases h
        exact trimValue_error notTrimFields x _ h1
      | ok x' =>
        rw [h1] at h
        simp only [] at h
        cases h2 : trimElems notTrimFields (i + 1) xs with
        | ok r => rw [h2] at h; cases h
        | error e' =>
          rw [h2] at h
          cases h
          exact trimElems_error notTrimFields (i + 1) xs _ h2
theorem trimFields_error (notTrimFields : List String) :
    ∀ (fs : List (String × JSValue)) (e : Fault),
      trimFields notTrimFields fs = .error e → e = .typeError
  | [], e, h => by cases h
  | (k, v) :: fs, e, h => by
    simp only [trimFields] at h
    by_cases hex : k ∈ notTrimFields
    · simp only [if_pos hex] at h
      cases h2 : trimFields notTrimFields fs with
      | ok r => rw [h2] at h; cases h
      | error e' =>
        rw [h2] at h
        cases h
        exact trimFields_error notTrimFields fs _ h2
    · simp only [if_neg hex] at h
      cases h1 : trimValue notTrimFields v with
      | error e' =>
        rw [h1] at h
        cases h
        exact trimValue_error notTrimFields v _ h1
      | ok v' =>
        rw [h1] at h
        simp only [] at h
        cases h2 : trimFields notTrimFields fs with
        | ok r => rw [h2] at h; cases h
        | error e' =>
          rw [h2] at h
          cases h
          exact trimFields_error notTrimFields fs _ h2
end

/-! ## `trimNestedObject`: results -/

/-- On a mapping with ordinary names, with fuel at least its depth,
`trimNestedObject` returns exactly when no `null` sits in a traversed
position; otherwise it throws a `TypeError`. -/
theorem trimNestedObject_returns_iff (notTrimFields : List String)
    (fs : List (String × JSValue)) (fuel : Nat) (hon : ordinaryNames (.object fs) = true)
    (hwf : distinctKeys (.object fs) = true) (hd : depth (.object fs) ≤ fuel) :
    ((∃ r, trimNestedObject notTrimFields fuel (.object fs) = .ok r) ↔
      noNullReached notTrimFields (.object fs) = true) ∧
    (noNullReached notTrimFields (.object fs) = false →
      trimNestedObject notTrimFields fuel (.object fs) = .error .typeError) := by
  rw [trimNestedObject_eq_result_of_ordinary notTrimFields fuel _ hon hwf hd]
  refine ⟨trimValue_ok_iff notTrimFields (.object fs), ?_⟩
  intro hn
  have h := (trimValue_ok_iff notTrimFields (.object fs)).not.2 (by simp [hn])
  have hspec : trimNestedResult notTrimFields (.object fs) = trimValue notTrimFields (.object fs) :=
    rfl
  rw [hspec]
  cases hv : trimValue notTrimFields (.object fs) with
  | ok r => exact absurd ⟨r, hv⟩ h
  | error e => rw [trimValue_error _ _ _ hv]

/-- On a mapping with ordinary names and without `null` in a traversed
position, `trimNestedObject` returns a mapping in which every string reached
from the root through nested mappings along names that are not exempt is
trimmed. -/
theorem trimNestedObject_trims_reachable (notTrimFields : List String)
    (fs : List (String × JSValue)) (fuel : Nat) (hon : ordinaryNames (.object fs) = true)
    (hwf : distinctKeys (.object fs) = true) (hd : depth (.object fs) ≤ fuel)
    (hnn : noNullReached notTrimFields (.object fs) = true) :
    ∃ r, trimNestedObject notTrimFields fuel (.object fs) = .ok (.object r) ∧
      objectKeys (.object r) = objectKeys (.object fs) ∧
      ∀ ks s, ks ≠ [] → (∀ k ∈ ks, k ∉ notTrimFields) →
        getPath (.object fs) ks = some (.string s) →
        getPath (.object r) ks = some (.string (jsTrim s)) := by
  obtain ⟨r, hr⟩ := (trimValue_ok_iff notTrimFields (.object fs)).2 hnn
  obtain ⟨gs, rfl, hgs⟩ := trimValue_object_ok _ _ _ hr
  refine ⟨gs, ?_, ?_, ?_⟩
  · rw [trimNestedObject_eq_result_of_ordinary notTrimFields fuel _ hon hwf hd]
    exact hr
  · simp only [objectKeys, trimFields_propNames _ fs gs hgs]
  · intro ks s _ hks hp
    obtain ⟨x', hx', ht⟩ := getPath_trimValue _ ks _ _ hr hks _ hp
    simp only [trimValue] at ht
    cases ht
    exact hx'

/-- C1, failing input. On `{a: '   a  ', b: null}` the call `trimNestedObject`
throws a `TypeError` whatever the fuel: `typeof null` is `'object'`, so the
function recurses into `null` and `Object.keys(null)` throws.  No mapping is
returned and `a` is not trimmed. -/
theorem trimNestedObject_null_field_throws (fuel : Nat) :
    trimNestedObject [] (fuel + 2) (.object [("a", .string "   a  "), ("b", .null)])
      = .error .typeError := rfl

/-- C5, failing input. With `query` exempt, on `{query: '    uuu    ', b: null}`
the call `trimNestedObject` throws a `TypeError` whatever the fuel, so no result
holds the value of `query`; `trimObject` returns the input unchanged. -/
theorem trimNestedObject_exempt_null_throws (fuel : Nat) :
    trimNestedObject ["query"] (fuel + 2)
        (.object [("query", .string "    uuu    "), ("b", .null)]) = .error .typeError ∧
    trimObject ["query"] (.object [("query", .string "    uuu    "), ("b", .null)])
      = .ok (.object [("query", .string "    uuu    "), ("b", .null)]) :=
  ⟨rfl, rfl⟩

/-- Exempt fields are kept, on a mapping with ordinary names.  `trimObject`
returns every top-level field whose name is exempt with its input value;
whenever `trimNestedObject` returns, a field with an exempt name that is
reached through nested mappings along names that are not exempt has its input
value. -/
theorem exempt_fields_kept (notTrimFields : List String) (fs : List (String × JSValue))
    (fuel : Nat) (hon : ordinaryNames (.object fs) = true) (hwf : distinctKeys (.object fs) = true) (hd : depth (.object fs) ≤ fuel) :
    (∃ r, trimObject notTrimFields (.object fs) = .ok (.object r) ∧
      ∀ e ∈ notTrimFields, getProp (.object r) e = getProp (.object fs) e) ∧
    (∀ r, trimNestedObject notTrimFields fuel (.object fs) = .ok r →
      ∀ ks e x, (∀ k ∈ ks, k ∉ notTrimFields) → e ∈ notTrimFields →
        getPath (.object fs) (ks ++ [e]) = some x → getPath r (ks ++ [e]) = some x) := by
  constructor
  · obtain ⟨r, hr, _, hl⟩ := trimObject_lookup notTrimFields fs hon
    refine ⟨r, hr, fun e he => ?_⟩
    rw [getProp_object, getProp_object, hl, if_neg (fun h => h he)]
  · intro r hr ks e x hks he hx
    rw [trimNestedObject_eq_result_of_ordinary notTrimFields fuel _ hon hwf hd] at hr
    exact getPath_exempt notTrimFields ks e _ r hr hks he x hx

mutual
theorem trimValue_ordinaryNames (notTrimFields : List String) :
    ∀ (v r : JSValue), trimValue notTrimFields v = .ok r → ordinaryNames v = true →
      ordinaryNames r = true
  | .string s, r, h, _ => by
    simp only [trimValue] at h
    cases h
    rfl
  | .null, r, h, _ => by simp [trimValue] at h
  | .undefined, r, h, ho => by cases h; exact ho
  | .bool b, r, h, ho => by cases h; exact ho
  | .number n, r, h, ho => by cases h; exact ho
  | .date t, r, h, ho => by cases h; exact ho
  | .array xs, r, h, ho => by
    obtain ⟨ys, rfl, hys⟩ := trimValue_array_ok _ _ _ h
    simp only [ordinaryNames] at ho ⊢
    exact trimElems_ordinaryNames notTrimFields 0 xs ys hys ho
  | .object fs, r, h, ho => by
    obtain ⟨gs, rfl, hgs⟩ := trimValue_object_ok _ _ _ h
    simp only [ordinaryNames] at ho ⊢
    exact trimFields_ordinaryNames notTrimFields fs gs hgs ho
theorem trimElems_ordinaryNames (notTrimFields : List String) :
    ∀ (i : Nat) (xs r : List JSValue), trimElems notTrimFields i xs = .ok r →
      ordinaryNamesList xs = true → ordinaryNamesList r = true
  | _, [], r, h, _ => by cases h; rfl
  | i, x :: xs, r, h, ho => by
    obtain ⟨x', xs', rfl, hx, hxs⟩ := trimElems_cons_ok _ _ _ _ _ h
    simp only [ordinaryNamesList, Bool.and_eq_true] at ho ⊢
    have ih2 := trimElems_ordinaryNames notTrimFields (i + 1) xs xs' hxs ho.2
    have ih1 : ordinaryNames x' = true := by
      by_cases hex : indexKey i ∈ notTrimFields
      · rw [if_pos hex] at hx
        cases hx
        exact ho.1
      · rw [if_neg hex] at hx
        exact trimValue_ordinaryNames notTrimFields x x' hx ho.1
    exact ⟨ih1, ih2⟩
theorem trimFields_ordinaryNames (notTrimFields : List String) :
    ∀ (fs r : List (String × JSValue)), trimFields notTrimFields fs = .ok r →
      ordinaryNamesFields fs = true → ordinaryNamesFields r = true
  | [], r, h, _ => by cases h; rfl
  | (k, v) :: fs, r, h, ho => by
    obtain ⟨v', fs', rfl, hv, hfs⟩ := trimFields_cons_ok _ _ _ _ _ h
    simp only [ordinaryNamesFields, Bool.and_eq_true] at ho ⊢
    have ih2 := trimFields_ordinaryNames notTrimFields fs fs' hfs ho.2
    have ih1 : ordinaryNames v' = true := by
      by_cases hex : k ∈ notTrimFields
      · rw [if_pos hex] at hv
        cases hv
        exact ho.1.2
      · rw [if_neg hex] at hv
        exact trimValue_ordinaryNames notTrimFields v v' hv ho.1.2
    exact ⟨⟨ho.1.1, ih1⟩, ih2⟩
end

theorem trimNestedResult_ordinaryNames (notTrimFields : List String) (x y : JSValue)
    (h : trimNestedResult notTrimFields x = .ok y) (ho : ordinaryNames x = true) :
    ordinaryNames y = true := by
  cases x with
  | string s =>
    simp only [trimNestedResult] at h
    cases h
    rfl
  | undefined => simp [trimNestedResult] at h
  | null => exact trimValue_ordinaryNames _ _ _ h ho
  | bool b => exact trimValue_ordinaryNames _ _ _ h ho
  | number n => exact trimValue_ordinaryNames _ _ _ h ho
  | date t => exact trimValue_ordinaryNames _ _ _ h ho
  | array xs => exact trimValue_ordinaryNames _ _ _ h ho
  | object fs => exact trimValue_ordinaryNames _ _ _ h ho

/-- C6. `trimNestedObject` is idempotent: run on its own result it returns that
result again, so `trimNested(trimNested(x))` equals `trimNested(x)`. -/
theorem trimNestedObject_idempotent (notTrimFields : List String) (x : JSValue)
    (fuel₁ fuel₂ : Nat) (hwf : distinctKeys x = true)
    (h₁ : depth x ≤ fuel₁) (h₂ : depth x ≤ fuel₂) :
    (trimNestedObject notTrimFields fuel₁ x).bind (trimNestedObject notTrimFields fuel₂)
        = trimNestedObject notTrimFields fuel₁ x ∧
    ∀ y, trimNestedObject notTrimFields fuel₁ x = .ok y →
      trimNestedObject notTrimFields fuel₂ y = .ok y := by
  have key : ∀ y, trimNestedObject notTrimFields fuel₁ x = .ok y →
      trimNestedObject notTrimFields fuel₂ y = .ok y := by
    intro y hy
    rw [trimNestedObject_eq_result notTrimFields fuel₁ x hwf h₁] at hy
    obtain ⟨hfix, hdepth, hkeys⟩ := trimNestedResult_idem notTrimFields (clone x) y hy
    have hony := trimNestedResult_ordinaryNames notTrimFields (clone x) y hy
      (ordinaryNames_clone x)
    rw [trimNestedObject_eq_result_of_ordinary notTrimFields fuel₂ y hony
      (hkeys (distinctKeys_clone x hwf)) (by have := depth_clone_le x; omega)]
    exact hfix
  refine ⟨?_, key⟩
  cases hx : trimNestedObject notTrimFields fuel₁ x with
  | error e => rfl
  | ok y => exact key y hx

/-- C6, witness for `trimNestedObject_idempotent`: the mapping
`{a: '   a  ', c: {a: ' 10 '}}`. -/
theorem trimNestedObject_idempotent_witness :
    distinctKeys (.object [("a", .string "   a  "), ("c", .object [("a", .string " 10 ")])])
      = true ∧
    depth (.object [("a", .string "   a  "), ("c", .object [("a", .string " 10 ")])]) ≤ 3 ∧
    trimNestedObject [] 3
        (.object [("a", .string "   a  "), ("c", .object [("a", .string " 10 ")])])
      = .ok (.object [("a", .string "a"), ("c", .object [("a", .string "10")])]) ∧
    trimNestedObject [] 3 (.object [("a", .string "a"), ("c", .object [("a", .string "10")])])
      = .ok (.object [("a", .string "a"), ("c", .object [("a", .string "10")])]) :=
  ⟨by decide, by decide, rfl,
    (trimNestedObject_idempotent []
      (.object [("a", .string "   a  "), ("c", .object [("a", .string " 10 ")])]) 3 3
      (by decide) (by decide) (by decide)).2 _ rfl⟩

theorem lookupProp_of_getProp_array (fs : List (String × JSValue)) (k : String)
    (xs : List JSValue) (h : getProp (.object fs) k = .array xs) :
    lookupProp k fs = some (.array xs) := by
  rw [getProp_object] at h
  cases hl : lookupProp k fs with
  | none => rw [hl] at h; cases h
  | some v => rw [hl] at h; exact congrArg some h

/-- C4, counterexample. As stated the claim fails for `trimNestedObject`: on `{r: ['   j', '    ', '10', 10]}`
it returns `{r: ['j', '', '10', 10]}`; the string elements are trimmed. -/
theorem trimNestedObject_array_counterexample :
    trimNestedObject [] 2
        (.object [("r", .array [.string "   j", .string "    ", .string "10", .number 10])])
      = .ok (.object [("r", .array [.string "j", .string "", .string "10", .number 10])]) ∧
    getProp (.object [("r", .array [.string "j", .string "", .string "10", .number 10])]) "r"
      ≠ getProp
        (.object [("r", .array [.string "   j", .string "    ", .string "10", .number 10])]) "r" := by
  refine ⟨rfl, ?_⟩
  intro h
  have h2 : (JSValue.array [.string "j", .string "", .string "10", .number 10])
      = .array [.string "   j", .string "    ", .string "10", .number 10] := h
  injection h2 with h3
  injection h3 with h4 _
  injection h4 with h5
  revert h5
  decide

/-- C4, amended. On a mapping with ordinary names, `trimObject` returns every
field whose value is an array with that array unchanged.  `trimNestedObject`
traverses an array as it does a mapping, under the index names: when in
addition no `null` sits in a traversed position, a field that is not exempt and
holds an array comes back as an array of the same length, in which a string
element is trimmed unless its index name is exempt, and a number or boolean
element is unchanged. -/
theorem trim_array_fields (notTrimFields : List String) (fs : List (String × JSValue))
    (fuel : Nat) (hon : ordinaryNames (.object fs) = true) :
    (∃ r, trimObject notTrimFields (.object fs) = .ok (.object r) ∧
      ∀ k xs, getProp (.object fs) k = .array xs → getProp (.object r) k = .array xs) ∧
    (distinctKeys (.object fs) = true → depth (.object fs) ≤ fuel →
      noNullReached notTrimFields (.object fs) = true →
      ∃ r, trimNestedObject notTrimFields fuel (.object fs) = .ok (.object r) ∧
        ∀ k xs, k ∉ notTrimFields → getProp (.object fs) k = .array xs →
          ∃ ys, getProp (.object r) k = .array ys ∧ ys.length = xs.length ∧
            ∀ j : Nat,
              (∀ s, xs[j]? = some (JSValue.string s) →
                ys[j]? = some (JSValue.string (if indexKey j ∈ notTrimFields then s else jsTrim s))) ∧
              (∀ n, xs[j]? = some (JSValue.number n) → ys[j]? = some (JSValue.number n)) ∧
              (∀ b, xs[j]? = some (JSValue.bool b) → ys[j]? = some (JSValue.bool b))) := by
  constructor
  · obtain ⟨r, hr, _, hl⟩ := trimObject_lookup notTrimFields fs hon
    refine ⟨r, hr, fun k xs hk => ?_⟩
    have hlk := lookupProp_of_getProp_array fs k xs hk
    rw [getProp_object, hl, hlk]
    split <;> rfl
  · intro hwf hd hnn
    obtain ⟨r, hr⟩ := (trimValue_ok_iff notTrimFields (.object fs)).2 hnn
    obtain ⟨gs, rfl, hgs⟩ := trimValue_object_ok _ _ _ hr
    refine ⟨gs, ?_, ?_⟩
    · rw [trimNestedObject_eq_result_of_ordinary notTrimFields fuel _ hon hwf hd]
      exact hr
    · intro k xs hk hget
      have hlk := lookupProp_of_getProp_array fs k xs hget
      obtain ⟨x', hx', ht⟩ := trimFields_lookup _ fs gs hgs k _ hlk
      rw [if_neg hk] at ht
      obtain ⟨ys, rfl, hys⟩ := trimValue_array_ok _ _ _ ht
      obtain ⟨hlen, hel⟩ := trimElems_getElem _ xs ys 0 hys
      refine ⟨ys, by rw [getProp_object, hx']; rfl, hlen, fun j => ⟨?_, ?_, ?_⟩⟩
      · intro s hs
        obtain ⟨y, hy, hty⟩ := hel j _ hs
        rw [Nat.zero_add] at hty
        rw [hy]
        by_cases hex : indexKey j ∈ notTrimFields
        · rw [if_pos hex] at hty ⊢
          cases hty
          rfl
        · rw [if_neg hex] at hty ⊢
          simp only [trimValue] at hty
          cases hty
          rfl
      · intro n hn
        obtain ⟨y, hy, hty⟩ := hel j _ hn
        rw [hy]
        split at hty <;> (cases hty; rfl)
      · intro b hb
        obtain ⟨y, hy, hty⟩ := hel j _ hb
        rw [hy]
        split at hty <;> (cases hty; rfl)

/-- C4, witness for `trim_array_fields`: the mapping
`{r: ['   j', '    ', '10', 10], b: null}` for `trimObject`, which returns it
unchanged, and the mapping `{r: ['   j', '    ', '10', 10]}` for
`trimNestedObject`, which returns `{r: ['j', '', '10', 10]}`. -/
theorem trim_array_fields_witness :
    ordinaryNames
      (.object [("r", .array [.string "   j", .string "    ", .string "10", .number 10]),
        ("b", .null)]) = true ∧
    (∃ r, trimObject []
        (.object [("r", .array [.string "   j", .string "    ", .string "10", .number 10]),
          ("b", .null)]) = .ok (.object r) ∧
      ∀ k xs, getProp (.object [("r", .array [.string "   j", .string "    ", .string "10",
          .number 10]), ("b", .null)]) k = .array xs → getProp (.object r) k = .array xs) ∧
    trimObject []
        (.object [("r", .array [.string "   j", .string "    ", .string "10", .number 10]),
          ("b", .null)])
      = .ok (.object [("r", .array [.string "   j", .string "    ", .string "10", .number 10]),
          ("b", .null)]) ∧
    (∃ r, trimNestedObject [] 3
        (.object [("r", .array [.string "   j", .string "    ", .string "10", .number 10])])
          = .ok (.object r) ∧
      ∀ k xs, k ∉ ([] : List String) →
        getProp (.object [("r", .array [.string "   j", .string "    ", .string "10",
          .number 10])]) k = .array xs →
        ∃ ys, getProp (.object r) k = .array ys ∧ ys.length = xs.length ∧
          ∀ j : Nat,
            (∀ s, xs[j]? = some (JSValue.string s) →
              ys[j]? = some (JSValue.string (if indexKey j ∈ ([] : List String) then s else jsTrim s))) ∧
            (∀ n, xs[j]? = some (JSValue.number n) → ys[j]? = some (JSValue.number n)) ∧
            (∀ b, xs[j]? = some (JSValue.bool b) → ys[j]? = some (JSValue.bool b))) ∧
    trimNestedObject [] 3
        (.object [("r", .array [.string "   j", .string "    ", .string "10", .number 10])])
      = .ok (.object [("r", .array [.string "j", .string "", .string "10", .number 10])]) :=
  ⟨by decide,
    (trim_array_fields []
      [("r", .array [.string "   j", .string "    ", .string "10", .number 10]), ("b", .null)] 3
      (by decide)).1, rfl,
    (trim_array_fields []
      [("r", .array [.string "   j", .string "    ", .string "10", .number 10])] 3
      (by decide)).2 (by decide) (by decide) (by decide), rfl⟩

/-! ## `trimObject`: values that are not strings -/

/-- On a mapping with ordinary names `trimObject` returns every top-level
field whose value is not a string with its input value: numbers, booleans and
nested mappings are kept as they are (as are arrays), and nothing inside a
nested mapping is trimmed. -/
theorem trimObject_keeps_non_strings (notTrimFields : List String)
    (fs : List (String × JSValue)) (hon : ordinaryNames (.object fs) = true) :
    ∃ r, trimObject notTrimFields (.object fs) = .ok (.object r) ∧
      ∀ k, typeOf (getProp (.object fs) k) ≠ "string" →
        getProp (.object r) k = getProp (.object fs) k := by
  obtain ⟨r, hr, _, hl⟩ := trimObject_lookup notTrimFields fs hon
  refine ⟨r, hr, fun k hk => ?_⟩
  rw [getProp_object] at hk ⊢
  rw [getProp_object, hl]
  split
  · cases hv : lookupProp k fs with
    | none => rfl
    | some v =>
      rw [hv] at hk
      simp only [Option.map, Option.getD]
      exact callTrim_of_not_string v hk
  · rfl

/-- C11, failing input. On `{constructor: 5, e: 20}` the call `trimObject`
returns `{e: 20}`: the number field `constructor` is not in the result.  On
`{c: {valueOf: true, a: ' 10 '}}` it returns `{c: {a: ' 10 '}}`: the nested
mapping has lost its field `valueOf` (and nothing in it is trimmed).  On
`{c: {a: ' 10 ', g: {a: 'ddd   '}}, e: 20, t: true}` every field is kept. -/
theorem trimObject_drops_non_strings :
    trimObject [] (.object [("constructor", .number 5), ("e", .number 20)])
      = .ok (.object [("e", .number 20)]) ∧
    trimObject [] (.object [("c", .object [("valueOf", .bool true), ("a", .string " 10 ")])])
      = .ok (.object [("c", .object [("a", .string " 10 ")])]) ∧
    trimObject []
        (.object [("c", .object [("a", .string " 10 "), ("g", .object [("a", .string "ddd   ")])]),
          ("e", .number 20), ("t", .bool true)])
      = .ok
        (.object [("c", .object [("a", .string " 10 "), ("g", .object [("a", .string "ddd   ")])]),
          ("e", .number 20), ("t", .bool true)]) :=
  ⟨rfl, rfl, rfl⟩

/-! ## `trimNestedObject`: numbers, booleans and `null` -/

/-- Whenever `trimNestedObject` returns on a mapping with ordinary names, a
number or a boolean reached through nested mappings along names that are not
exempt has its input value. -/
theorem trimNestedObject_keeps_scalars (notTrimFields : List String)
    (fs : List (String × JSValue)) (fuel : Nat) (hon : ordinaryNames (.object fs) = true)
    (hwf : distinctKeys (.object fs) = true) (hd : depth (.object fs) ≤ fuel)
    (r : JSValue) (hr : trimNestedObject notTrimFields fuel (.object fs) = .ok r) :
    ∀ ks x, (∀ k ∈ ks, k ∉ notTrimFields) → getPath (.object fs) ks = some x →
      (typeOf x = "number" ∨ typeOf x = "boolean") → getPath r ks = some x := by
  intro ks x hks hp hx
  rw [trimNestedObject_eq_result_of_ordinary notTrimFields fuel _ hon hwf hd] at hr
  obtain ⟨x', hx', ht⟩ := getPath_trimValue _ ks _ _ hr hks _ hp
  cases x <;> first | (simp [typeOf] at hx; done) | skip
  all_goals
    simp only [trimValue] at ht
    cases ht
    exact hx'

/-- C12, failing input. On `{e: 20, t: true, b: null}` the call
`trimNestedObject` throws a `TypeError` whatever the fuel: `typeof null` is
`'object'`, so the function recurses into `null` and `Object.keys(null)` throws.
`trimObject` returns the same mapping unchanged. -/
theorem trimNestedObject_null_value_throws (fuel : Nat) :
    trimNestedObject [] (fuel + 2)
        (.object [("e", .number 20), ("t", .bool true), ("b", .null)]) = .error .typeError ∧
    trimObject [] (.object [("e", .number 20), ("t", .bool true), ("b", .null)])
      = .ok (.object [("e", .number 20), ("t", .bool true), ("b", .null)]) :=
  ⟨rfl, rfl⟩

/-! ## `trimNestedObject`: termination -/

theorem trimNestedResult_ne_outOfFuel (notTrimFields : List String) (v : JSValue) :
    trimNestedResult notTrimFields v ≠ .error .outOfFuel := by
  intro h
  cases v with
  | string s => simp [trimNestedResult] at h
  | undefined => simp [trimNestedResult] at h
  | null => have := trimValue_error _ _ _ h; cases this
  | bool b => have := trimValue_error _ _ _ h; cases this
  | number n => have := trimValue_error _ _ _ h; cases this
  | date t => have := trimValue_error _ _ _ h; cases this
  | array xs => have := trimValue_error _ _ _ h; cases this
  | object fs => have := trimValue_error _ _ _ h; cases this

/-- C16. The recursion of `trimNestedObject` terminates on every value (a finite
tree): a recursive call is made on a field value or an array element, whose
depth is strictly smaller, so fuel equal to the depth of the argument is
enough, whatever that depth is; the call then ends with one outcome, a value or
a `TypeError`, which more fuel does not change. -/
theorem trimNestedObject_terminates (notTrimFields : List String) (v : JSValue)
    (hwf : distinctKeys v = true) :
    (∃ outcome, outcome ≠ .error .outOfFuel ∧
      ∀ fuel, depth v ≤ fuel → trimNestedObject notTrimFields fuel v = outcome) ∧
    (∀ xs x, v = .array xs → x ∈ xs → depth x < depth v) ∧
    (∀ fs p, v = .object fs → p ∈ fs → depth p.2 < depth v) := by
  refine ⟨⟨trimNestedResult notTrimFields (clone v), trimNestedResult_ne_outOfFuel _ _,
    fun fuel hd => trimNestedObject_eq_result notTrimFields fuel v hwf hd⟩, ?_, ?_⟩
  · intro xs x hv hx
    subst hv
    have := depth_le_depthList xs x hx
    simp only [depth]
    omega
  · intro fs p hv hp
    subst hv
    have := depth_le_depthFields fs p hp
    simp only [depth]
    omega

/-- C16, witness for `trimNestedObject_terminates`: the mapping
`{a: '   a  ', c: {a: ' 10 ', g: {e: 20}}, r: ['   j', 10]}`. -/
theorem trimNestedObject_terminates_witness :
    distinctKeys (.object [("a", .string "   a  "),
      ("c", .object [("a", .string " 10 "), ("g", .object [("e", .number 20)])]),
      ("r", .array [.string "   j", .number 10])]) = true ∧
    ∃ outcome, outcome ≠ .error .outOfFuel ∧
      ∀ fuel, depth (.object [("a", .string "   a  "),
          ("c", .object [("a", .string " 10 "), ("g", .object [("e", .number 20)])]),
          ("r", .array [.string "   j", .number 10])]) ≤ fuel →
        trimNestedObject [] fuel (.object [("a", .string "   a  "),
          ("c", .object [("a", .string " 10 "), ("g", .object [("e", .number 20)])]),
          ("r", .array [.string "   j", .number 10])]) = outcome :=
  ⟨by decide, (trimNestedObject_terminates [] _ (by decide)).1⟩

/-! ## `trimNestedObject`: shape -/

mutual
theorem sameShape_refl : ∀ v : JSValue, sameShape v v = true
  | .undefined => rfl
  | .null => rfl
  | .bool b => by simp [sameShape]
  | .number n => by simp [sameShape]
  | .string s => rfl
  | .date t => by simp [sameShape]
  | .array xs => by simp only [sameShape]; exact sameShapeList_refl xs
  | .object fs => by simp only [sameShape]; exact sameShapeFields_refl fs
theorem sameShapeList_refl : ∀ xs : List JSValue, sameShapeList xs xs = true
  | [] => rfl
  | x :: xs => by
    simp only [sameShapeList, Bool.and_eq_true]
    exact ⟨sameShape_refl x, sameShapeList_refl xs⟩
theorem sameShapeFields_refl : ∀ fs : List (String × JSValue), sameShapeFields fs fs = true
  | [] => rfl
  | (k, v) :: fs => by
    simp only [sameShapeFields, Bool.and_eq_true, beq_self_eq_true, true_and]
    exact ⟨sameShape_refl v, sameShapeFields_refl fs⟩
end

mutual
theorem trimValue_sameShape (notTrimFields : List String) :
    ∀ (v r : JSValue), trimValue notTrimFields v = .ok r → sameShape v r = true
  | .string s, r, h => by
    simp only [trimValue] at h
    cases h
    rfl
  | .null, r, h => by simp [trimValue] at h
  | .undefined, r, h => by cases h; rfl
  | .bool b, r, h => by cases h; simp [sameShape]
  | .number n, r, h => by cases h; simp [sameShape]
  | .date t, r, h => by cases h; simp [sameShape]
  | .array xs, r, h => by
    obtain ⟨ys, rfl, hys⟩ := trimValue_array_ok _ _ _ h
    simp only [sameShape]
    exact trimElems_sameShape notTrimFields 0 xs ys hys
  | .object fs, r, h => by
    obtain ⟨gs, rfl, hgs⟩ := trimValue_object_ok _ _ _ h
    simp only [sameShape]
    exact trimFields_sameShape notTrimFields fs gs hgs
theorem trimElems_sameShape (notTrimFields : List String) :
    ∀ (i : Nat) (xs r : List JSValue), trimElems notTrimFields i xs = .ok r →
      sameShapeList xs r = true
  | _, [], r, h => by cases h; rfl
  | i, x :: xs, r, h => by
    obtain ⟨x', xs', rfl, hx, hxs⟩ := trimElems_cons_ok _ _ _ _ _ h
    have ih2 := trimElems_sameShape notTrimFields (i + 1) xs xs' hxs
    have ih1 : sameShape x x' = true := by
      by_cases hex : indexKey i ∈ notTrimFields
      · rw [if_pos hex] at hx
        cases hx
        exact sameShape_refl x
      · rw [if_neg hex] at hx
        exact trimValue_sameShape notTrimFields x x' hx
    simp only [sameShapeList, Bool.and_eq_true]
    exact ⟨ih1, ih2⟩
theorem trimFields_sameShape (notTrimFields : List String) :
    ∀ (fs r : List (String × JSValue)), trimFields notTrimFields fs = .ok r →
      sameShapeFields fs r = true
  | [], r, h => by cases h; rfl
  | (k, v) :: fs, r, h => by
    obtain ⟨v', fs', rfl, hv, hfs⟩ := trimFields_cons_ok _ _ _ _ _ h
    have ih2 := trimFields_sameShape notTrimFields fs fs' hfs
    have ih1 : sameShape v v' = true := by
      by_cases hex : k ∈ notTrimFields
      · rw [if_pos hex] at hv
        cases hv
        exact sameShape_refl v
      · rw [if_neg hex] at hv
        exact trimValue_sameShape notTrimFields v v' hv
    simp only [sameShapeFields, Bool.and_eq_true, beq_self_eq_true, true_and]
    exact ⟨ih1, ih2⟩
end

/-- On a value with ordinary names `trimNestedObject` preserves shape: whenever
it returns, the result has at every nesting level the same field names in the
same order and the same array lengths as the input, the same kind of value at
every place, and equal leaves except for the contents of strings. -/
theorem trimNestedObject_preserves_shape (notTrimFields : List String) (v : JSValue)
    (fuel : Nat) (hon : ordinaryNames v = true) (hwf : distinctKeys v = true)
    (hd : depth v ≤ fuel) (r : JSValue)
    (hr : trimNestedObject notTrimFields fuel v = .ok r) :
    sameShape v r = true ∧ typeOf r = typeOf v ∧ isArray r = isArray v := by
  rw [trimNestedObject_eq_result_of_ordinary notTrimFields fuel v hon hwf hd] at hr
  have hs : sameShape v r = true := by
    cases v with
    | string s => simp only [trimNestedResult] at hr; cases hr; rfl
    | undefined => simp [trimNestedResult] at hr
    | null => simp [trimNestedResult, trimValue] at hr
    | bool b => exact trimValue_sameShape notTrimFields _ _ hr
    | number n => exact trimValue_sameShape notTrimFields _ _ hr
    | date t => exact trimValue_sameShape notTrimFields _ _ hr
    | array xs => exact trimValue_sameShape notTrimFields _ _ hr
    | object fs => exact trimValue_sameShape notTrimFields _ _ hr
  refine ⟨hs, ?_, ?_⟩ <;> cases v <;> cases r <;> first | rfl | simp [sameShape] at hs

/-- C17, failing input. On `{constructor: 1, a: ' a '}` the call
`trimNestedObject` returns `{a: 'a'}`: the result has one field name fewer than
the input, so the shape is not preserved.  The same happens below the top
level: `{c: {toString: 's', e: 20}}` comes back as `{c: {e: 20}}`. -/
theorem trimNestedObject_drops_field :
    trimNestedObject [] 2 (.object [("constructor", .number 1), ("a", .string " a ")])
      = .ok (.object [("a", .string "a")]) ∧
    objectKeys (.object [("a", .string "a")]) = .ok ["a"] ∧
    objectKeys (.object [("constructor", .number 1), ("a", .string " a ")])
      = .ok ["constructor", "a"] ∧
    sameShape (.object [("constructor", .number 1), ("a", .string " a ")])
      (.object [("a", .string "a")]) = false ∧
    trimNestedObject [] 3 (.object [("c", .object [("toString", .string "s"), ("e", .number 20)])])
      = .ok (.object [("c", .object [("e", .number 20)])]) :=
  ⟨rfl, rfl, rfl, rfl, rfl⟩

/-! ## `trimObject` and `trimNestedObject` on flat mappings -/

theorem isFlatValue_of_lookup (st : List (String × JSValue)) (hflat : isFlat st = true)
    (k : String) (v : JSValue) (h : lookupProp k st = some v) : isFlatValue v = true := by
  induction st with
  | nil => simp [lookupProp] at h
  | cons p st ih =>
    obtain ⟨k₁, v₁⟩ := p
    simp only [isFlat, List.all_cons, Bool.and_eq_true] at hflat
    by_cases e : k₁ = k
    · simp only [lookupProp, if_pos e, Option.some.injEq] at h
      subst h
      exact hflat.1
    · simp only [lookupProp, if_neg e] at h
      exact ih hflat.2 h

theorem typeOf_getProp_flat (st : List (String × JSValue)) (hflat : isFlat st = true)
    (k : String) : typeOf (getProp (.object st) k) ≠ "object" := by
  rw [getProp_object]
  cases h : lookupProp k st with
  | none => simp [typeOf]
  | some v =>
    have := isFlatValue_of_lookup st hflat k v h
    cases v <;> simp [isFlatValue] at this <;> simp [typeOf]

theorem isFlat_replaceProp (k : String) (v : JSValue) (st : List (String × JSValue))
    (hflat : isFlat st = true) (hv : isFlatValue v = true) :
    isFlat (replaceProp k v st) = true := by
  induction st with
  | nil => rfl
  | cons p st ih =>
    obtain ⟨k₁, v₁⟩ := p
    simp only [isFlat, List.all_cons, Bool.and_eq_true] at hflat
    by_cases e : k₁ = k
    · simp only [replaceProp, if_pos e, isFlat, List.all_cons, Bool.and_eq_true]
      exact ⟨hv, hflat.2⟩
    · simp only [replaceProp, if_neg e, isFlat, List.all_cons, Bool.and_eq_true]
      exact ⟨hflat.1, ih hflat.2⟩

theorem isFlat_insertProp (k : String) (v : JSValue) (st : List (String × JSValue))
    (hflat : isFlat st = true) (hv : isFlatValue v = true) :
    isFlat (insertProp k v st) = true := by
  induction st with
  | nil => simp [insertProp, isFlat, hv]
  | cons p st ih =>
    obtain ⟨k₁, v₁⟩ := p
    have hflat' := hflat
    simp only [isFlat, List.all_cons, Bool.and_eq_true] at hflat
    by_cases e : enumeratedBefore k k₁ = true
    · simp only [insertProp, if_pos e, isFlat, List.all_cons, Bool.and_eq_true]
      exact ⟨hv, hflat.1, hflat.2⟩
    · simp only [insertProp, if_neg e, isFlat, List.all_cons, Bool.and_eq_true]
      exact ⟨hflat.1, ih hflat.2⟩

theorem isFlat_setNames (k : String) (v : JSValue) (st : List (String × JSValue))
    (hflat : isFlat st = true) (hv : isFlatValue v = true) :
    isFlat (setNames k v st) = true := by
  unfold setNames
  split
  · exact isFlat_replaceProp k v st hflat hv
  · exact isFlat_insertProp k v st hflat hv

theorem hasOwnProperty_ok (obj : JSValue) (f : String) (own : Bool)
    (h : hasOwnProperty obj f = .ok own) : own = ownProperty obj f := by
  cases obj with
  | undefined => simp [hasOwnProperty] at h
  | null => simp [hasOwnProperty] at h
  | object fs =>
    simp only [hasOwnProperty] at h
    split at h
    · cases h
    · cases h; rfl
  | bool b => cases h; rfl
  | number n => cases h; rfl
  | string s => cases h; rfl
  | date t => cases h; rfl
  | array xs => cases h; rfl

theorem trimNestedLoop_flat (notTrimFields : List String)
    (recur : JSValue → Except Fault JSValue) :
    ∀ (ks : List String) (st : List (String × JSValue)), isFlat st = true →
      trimNestedLoop notTrimFields recur ks (.object st)
        = trimObjectLoop notTrimFields ks (.object st) := by
  intro ks
  induction ks with
  | nil => intro st _; rfl
  | cons f rest ih =>
    intro st hflat
    have hobj := typeOf_getProp_flat st hflat f
    cases hown : hasOwnProperty (.object st) f with
    | error e =>
      rw [trimNestedLoop_cons_error _ _ _ _ _ _ hown, trimObjectLoop_cons_error _ _ _ _ _ hown]
    | ok own =>
      have hdead : ¬ (own = true ∧ isArray (.string f) = true ∧
          f ∉ notTrimFields) := by simp [isArray]
      rw [trimNestedLoop_cons _ _ _ _ _ _ hown, trimObjectLoop_cons _ _ _ _ _ hown]
      by_cases hc : own = true ∧
          typeOf (getProp (.object st) f) = "string" ∧ f ∉ notTrimFields
      · have hv : isFlatValue (callTrim (getProp (.object st) f)) = true := by
          have := hc.2.1
          cases hg : getProp (.object st) f <;> rw [hg] at this <;> simp [typeOf] at this
          rfl
        have hmem : f ∈ propNames st := by
          have := hasOwnProperty_ok _ _ _ hown
          rw [hc.1] at this
          exact (ownProperty_object st f).1 this.symm
        rw [if_pos hc, if_pos hc, setProp_object _ _ _ hmem]
        exact ih _ (isFlat_setNames f _ st hflat hv)
      · rw [if_neg hc, if_neg (fun h => hobj h.2.1), if_neg hdead, if_neg hc, if_neg hdead]
        exact ih st hflat

theorem isFlat_cloneFields : ∀ fs : List (String × JSValue), isFlat fs = true →
    isFlat (cloneFields fs) = true := by
  intro fs
  induction fs with
  | nil => intro _; rfl
  | cons p fs ih =>
    obtain ⟨k, v⟩ := p
    intro h
    simp only [isFlat, List.all_cons, Bool.and_eq_true] at h
    simp only [cloneFields]
    split
    · exact ih h.2
    · split
      · exact ih h.2
      · have hv : isFlatValue (clone v) = true := by
          have := h.1
          cases v <;> simp [isFlatValue] at this <;> rfl
        simp only [isFlat, List.all_cons, Bool.and_eq_true]
        exact ⟨hv, ih h.2⟩

/-- C18. On a mapping all of whose field values are strings, numbers or
booleans, `trimObject` and `trimNestedObject` return the same mapping. -/
theorem trim_agree_on_flat (notTrimFields : List String) (fs : List (String × JSValue))
    (fuel : Nat) (hflat : isFlat fs = true) :
    trimNestedObject notTrimFields (fuel + 1) (.object fs)
      = trimObject notTrimFields (.object fs) := by
  simp only [trimNestedObject, trimObject, clone, objectKeys]
  exact trimNestedLoop_flat notTrimFields _ (propNames (cloneFields fs)) (cloneFields fs)
    (isFlat_cloneFields fs hflat)

/-- C18, witness for `trim_agree_on_flat`: the mapping
`{a: '   a  ', e: 20, t: true, query: '    uuu    '}` with `query` exempt. -/
theorem trim_agree_on_flat_witness :
    isFlat [("a", .string "   a  "), ("e", .number 20), ("t", .bool true),
      ("query", .string "    uuu    ")] = true ∧
    trimNestedObject ["query"] 1 (.object [("a", .string "   a  "), ("e", .number 20),
      ("t", .bool true), ("query", .string "    uuu    ")])
      = trimObject ["query"] (.object [("a", .string "   a  "), ("e", .number 20),
        ("t", .bool true), ("query", .string "    uuu    ")]) ∧
    trimObject ["query"] (.object [("a", .string "   a  "), ("e", .number 20),
      ("t", .bool true), ("query", .string "    uuu    ")])
      = .ok (.object [("a", .string "a"), ("e", .number 20), ("t", .bool true),
        ("query", .string "    uuu    ")]) :=
  ⟨by decide, trim_agree_on_flat ["query"] _ 0 (by decide), rfl⟩

/-! ## `extractKeysFromObject`: idempotence -/

theorem propList_ext : ∀ (l₁ l₂ : List (String × JSValue)), propNames l₁ = propNames l₂ →
    (propNames l₁).Nodup → (∀ k ∈ propNames l₁, lookupProp k l₁ = lookupProp k l₂) →
    l₁ = l₂ := by
  intro l₁
  induction l₁ with
  | nil =>
    intro l₂ hn _ _
    cases l₂ with
    | nil => rfl
    | cons q l₂ => simp [propNames] at hn
  | cons p l₁ ih =>
    intro l₂ hn hnd hl
    obtain ⟨k, v⟩ := p
    cases l₂ with
    | nil => simp [propNames] at hn
    | cons q l₂ =>
      obtain ⟨k', v'⟩ := q
      simp only [propNames, List.map_cons, List.cons.injEq] at hn
      obtain ⟨hk, hn'⟩ := hn
      subst hk
      have hnd' := List.nodup_cons.1 hnd
      have hv : v = v' := by
        have := hl k (List.mem_cons_self _ _)
        simpa [lookupProp] using this
      subst hv
      have htail : l₁ = l₂ := by
        refine ih l₂ hn' hnd'.2 (fun k₂ hk₂ => ?_)
        have hne : ¬ k = k₂ := fun e => hnd'.1 (e ▸ hk₂)
        have := hl k₂ (List.mem_cons_of_mem _ hk₂)
        simpa [lookupProp, hne] using this
      rw [htail]

theorem indexSorted_unique : ∀ (I₁ I₂ : List String),
    I₁.Pairwise (fun a b => indexLt a b = true) → I₂.Pairwise (fun a b => indexLt a b = true) →
    (∀ x ∈ I₁, (arrayIndex? x).isSome = true) →
    (∀ x, x ∈ I₁ ↔ x ∈ I₂) → I₁ = I₂ := by
  intro I₁ I₂ h₁ h₂ hidx hmem
  have hirr : ∀ a : String, ¬ indexLt a a = true := by
    intro a h
    simp only [indexLt] at h
    cases ha : arrayIndex? a with
    | none => simp [ha] at h
    | some n => simp [ha] at h
  have hasym : ∀ a b : String, indexLt a b = true → indexLt b a = true → a = b := by
    intro a b hab hba
    simp only [indexLt] at hab hba
    cases ha : arrayIndex? a with
    | none => simp [ha] at hab
    | some n =>
      cases hb : arrayIndex? b with
      | none => simp [ha, hb] at hab
      | some m =>
        simp [ha, hb] at hab hba
        omega
  haveI : IsAntisymm String (fun a b => indexLt a b = true) := ⟨hasym⟩
  have hne : ∀ {a b : String}, indexLt a b = true → a ≠ b := by
    intro a b hab e
    subst e
    exact hirr a hab
  have hnd₁ : I₁.Nodup := h₁.imp hne
  have hnd₂ : I₂.Nodup := h₂.imp hne
  exact List.eq_of_perm_of_sorted ((List.perm_ext_iff_of_nodup hnd₁ hnd₂).2 hmem) h₁ h₂

theorem mem_of_mem_firstOccurrences : ∀ (l : List String) (x : String),
    x ∈ firstOccurrences l → x ∈ l := by
  intro l
  induction l with
  | nil => intro x h; simp [firstOccurrences] at h
  | cons k ks ih =>
    intro x h
    simp only [firstOccurrences, List.mem_cons, List.mem_filter] at h
    rcases h with h | h
    · exact h ▸ List.mem_cons_self _ _
    · exact List.mem_cons_of_mem _ (ih x h.1)

theorem firstOccurrences_nodup : ∀ l : List String, (firstOccurrences l).Nodup := by
  intro l
  induction l with
  | nil => exact List.nodup_nil
  | cons k ks ih =>
    simp only [firstOccurrences]
    refine List.nodup_cons.2 ⟨?_, ih.filter _⟩
    simp [List.mem_filter]

theorem matchedNames_extractFields (fs : List (String × JSValue)) (fieldArray : List String) :
    matchedNames (.object (extractFields fs fieldArray [])) fieldArray
      = matchedNames (.object fs) fieldArray := by
  obtain ⟨r', hr', hmem, _⟩ := extractFields_spec fs fieldArray []
  rw [hr']
  simp only [matchedNames]
  apply List.filter_congr
  intro k hk
  have h1 : ownProperty (.object r') k = true ↔ ownProperty (.object fs) k = true := by
    rw [ownProperty_object, ownProperty_object, hmem]
    simp [propNames, hk]
  cases ha : ownProperty (.object r') k <;> cases hb : ownProperty (.object fs) k <;>
    simp_all

/-- What `extractFields` builds is rebuilt as it is from itself. -/
theorem extractFields_idem (fs : List (String × JSValue)) (fieldArray : List String) :
    extractFields (extractFields fs fieldArray []) fieldArray [] = extractFields fs fieldArray [] := by
  have hmatch := matchedNames_extractFields fs fieldArray
  obtain ⟨r, I₁, hr, hn₁, hs₁, hm₁⟩ :=
    extractFields_order fs fieldArray [] [] [] rfl List.Pairwise.nil (by simp) (by simp)
  rw [hr] at hmatch ⊢
  obtain ⟨r₂, I₂, hr₂, hn₂, hs₂, hm₂⟩ :=
    extractFields_order r fieldArray [] [] [] rfl List.Pairwise.nil (by simp) (by simp)
  obtain ⟨r₃, hr₃, hmem₂, hlook₂⟩ := extractFields_spec r fieldArray []
  have hrr : r₃ = r₂ := by
    rw [hr₂] at hr₃
    exact hr₃.symm
  subst hrr
  have hplain : plainMatched (.object r) fieldArray = plainMatched (.object fs) fieldArray := by
    simp only [plainMatched, hmatch]
  have hI : I₂ = I₁ := by
    refine indexSorted_unique I₂ I₁ hs₂ hs₁ (fun x hx => ?_) (fun x => ?_)
    · exact ((hm₂ x).1 hx).elim (fun h => by simp at h) (fun h => h.2)
    · rw [hm₁, hm₂, hmatch]
  have hnames : propNames r₃ = propNames r := by
    rw [hn₂, hn₁, hI, hplain]
  have hnd : (propNames r₃).Nodup := by
    rw [hn₂]
    simp only [List.not_mem_nil, not_false_eq_true, decide_True, List.filter_true,
      List.nil_append]
    refine List.nodup_append.2 ⟨?_, firstOccurrences_nodup _, ?_⟩
    · have hne : ∀ {a b : String}, indexLt a b = true → a ≠ b := by
        intro a b hab e
        subst e
        simp only [indexLt] at hab
        cases ha : arrayIndex? a <;> simp [ha] at hab
      exact hs₂.imp hne
    · intro x hx₁ hx₂
      have h1 : (arrayIndex? x).isSome = true :=
        ((hm₂ x).1 hx₁).elim (fun h => by simp at h) (fun h => h.2)
      have h2 := mem_of_mem_firstOccurrences _ _ hx₂
      simp only [plainMatched, List.mem_filter] at h2
      cases hx : arrayIndex? x <;> simp [hx] at h1 h2
  have heq : r₃ = r := by
    refine propList_ext r₃ r hnames hnd (fun k hk => ?_)
    rw [hlook₂]
    have hk' : k ∈ fieldArray ∧ k ∈ propNames r := by
      have := (hmem₂ k).1 hk
      simpa [propNames] using this
    rw [if_pos hk']
  rw [hr₂]
  exact heq

/-- On a plain mapping that has no own property named `hasOwnProperty`, and
when `__proto__` is not both in `fieldArray` and an own property,
`extractKeysFromObject` is idempotent in its field list: applied with the same
`fieldArray` to its own result, it returns that result again. -/
theorem extractKeysFromObject_idempotent (fs : List (String × JSValue))
    (fieldArray : List String) (hm : "hasOwnProperty" ∉ propNames fs)
    (hp : "__proto__" ∉ matchedNames (.object fs) fieldArray) :
    ∃ res, extractKeysFromObject ⟨.objectPrototype, fs⟩ fieldArray = .ok res ∧
      extractKeysFromObject res fieldArray = .ok res := by
  obtain ⟨r', hr', hmem, _⟩ := extractFields_spec fs fieldArray []
  have hm' : "hasOwnProperty" ∉ propNames (extractFields fs fieldArray []) := by
    rw [hr']
    intro h
    rcases (hmem _).1 h with h | h
    · simp [propNames] at h
    · exact hm h.2
  have hp' : "__proto__" ∉ matchedNames (.object (extractFields fs fieldArray [])) fieldArray := by
    rw [matchedNames_extractFields]
    exact hp
  refine ⟨⟨.objectPrototype, extractFields fs fieldArray []⟩, ?_, ?_⟩
  · rw [extractKeysFromObject, extractKeysLoop_eq_extractFields fs hm fieldArray [] hp]
  · rw [extractKeysFromObject, extractKeysLoop_eq_extractFields _ hm' fieldArray [] hp',
      extractFields_idem]

/-- C19, failing input. On a mapping with an own property `__proto__` holding
`null` and `a` holding 1, with `['__proto__', 'a']`, the first call returns an
object with the one property `a` and no prototype: the write
`newObj['__proto__'] = null` has run the setter.  The call on that result
throws a `TypeError`: without a prototype `res.hasOwnProperty` is `undefined`.
With `{a: 1}` under `__proto__` the second call returns, but an object with
the prototype `Object.prototype`, not the first result. -/
theorem extractKeysFromObject_second_call_throws :
    extractKeysFromObject ⟨.objectPrototype, [("__proto__", .null), ("a", .number 1)]⟩
        ["__proto__", "a"] = .ok ⟨.null, [("a", .number 1)]⟩ ∧
    extractKeysFromObject ⟨.null, [("a", .number 1)]⟩ ["__proto__", "a"] = .error .typeError ∧
    extractKeysFromObject
        ⟨.objectPrototype, [("__proto__", .object [("a", .number 1)]), ("b", .number 2)]⟩
        ["__proto__", "b"] = .ok ⟨.object [("a", .number 1)], [("b", .number 2)]⟩ ∧
    extractKeysFromObject ⟨.object [("a", .number 1)], [("b", .number 2)]⟩ ["__proto__", "b"]
      = .ok ⟨.objectPrototype, [("b", .number 2)]⟩ :=
  ⟨rfl, rfl, rfl, rfl⟩

/-! ## Calendar strings -/

/-- What `toShamsiDateTimeString` returns: the date string, a space, and the
hour, the minute and the hundredths of the second, each on two digits. -/
theorem toShamsiDateTimeString_eq (date : Moment) :
    toShamsiDateTimeString date
      = toShamsiDateString date ++ " " ++ ⟨zeroFill date.hour 2⟩ ++ ":"
        ++ ⟨zeroFill date.minute 2⟩ ++ ":" ++ ⟨zeroFill (date.millisecond / 10) 2⟩ := by
  apply String.ext
  simp [toShamsiDateTimeString, toShamsiDateString, momentFormat]

/-- C15, failing input. For a timestamp whose local time is 17:54:07.450 on the
Jalaali day 1398/05/22, `toShamsiDateTimeString` returns `1398/05/22 17:54:45`:
the format token `SS` prints the hundredths of the second, the seconds token is
`ss`.  The date string followed by the time of day on two-digit hour, minute
and second is `1398/05/22 17:54:07`. -/
theorem toShamsiDateTimeString_prints_hundredths :
    toShamsiDateTimeString ⟨1398, 5, 22, 17, 54, 7, 450⟩ = "1398/05/22 17:54:45" ∧
    toShamsiDateString ⟨1398, 5, 22, 17, 54, 7, 450⟩ ++ " " ++ ⟨zeroFill 17 2⟩ ++ ":"
        ++ ⟨zeroFill 54 2⟩ ++ ":" ++ ⟨zeroFill 7 2⟩ = "1398/05/22 17:54:07" := by
  constructor <;> decide

/-! ## The store: a call changes no object that existed before it -/

namespace Store

theorem setProp_frame (h₀ ext : Store) (obj : Slot) (k : String) (v : Slot)
    (hfresh : ∀ a, obj = .ref a → h₀.length ≤ a) :
    ∃ ext', setProp (h₀ ++ ext) obj k v = h₀ ++ ext' := by
  cases obj with
  | ref a =>
    have ha := hfresh a rfl
    simp only [setProp]
    cases (h₀ ++ ext)[a]? with
    | none => exact ⟨ext, rfl⟩
    | some c =>
      cases c with
      | date t => exact ⟨ext, rfl⟩
      | array xs =>
        simp only []
        cases canonicalIndex? k with
        | none => exact ⟨ext, rfl⟩
        | some i => exact ⟨_, List.set_append_right a _ ha⟩
      | object fs =>
        simp only []
        split
        · exact ⟨ext, rfl⟩
        · exact ⟨_, List.set_append_right a _ ha⟩
  | undefined => exact ⟨ext, rfl⟩
  | null => exact ⟨ext, rfl⟩
  | bool b => exact ⟨ext, rfl⟩
  | number n => exact ⟨ext, rfl⟩
  | string s => exact ⟨ext, rfl⟩

theorem cloneSlots_frame (recur : Store → Slot → Store × Except Fault Slot)
    (hrec : ∀ h x, ∃ ext, (recur h x).1 = h ++ ext) :
    ∀ (xs : List Slot) (h : Store), ∃ ext, (cloneSlots recur h xs).1 = h ++ ext := by
  intro xs
  induction xs with
  | nil => intro h; exact ⟨[], by simp [cloneSlots]⟩
  | cons x xs ih =>
    intro h
    obtain ⟨e₁, he₁⟩ := hrec h x
    simp only [cloneSlots]
    cases hr : recur h x with
    | mk h₁ o =>
      rw [hr] at he₁
      simp only at he₁
      cases o with
      | error e => exact ⟨e₁, he₁⟩
      | ok y =>
        simp only []
        obtain ⟨e₂, he₂⟩ := ih h₁
        cases hc : cloneSlots recur h₁ xs with
        | mk h₂ o₂ =>
          rw [hc] at he₂
          simp only at he₂
          cases o₂ <;> exact ⟨e₁ ++ e₂, by simp [he₂, he₁]⟩

theorem cloneFields_frame (recur : Store → Slot → Store × Except Fault Slot)
    (hrec : ∀ h x, ∃ ext, (recur h x).1 = h ++ ext) :
    ∀ (fs : List (String × Slot)) (h : Store),
      ∃ ext, (cloneFields recur h fs).1 = h ++ ext := by
  intro fs
  induction fs with
  | nil => intro h; exact ⟨[], by simp [cloneFields]⟩
  | cons p fs ih =>
    obtain ⟨k, x⟩ := p
    intro h
    obtain ⟨e₁, he₁⟩ := hrec h x
    simp only [cloneFields]
    split
    · exact ih h
    · cases hr : recur h x with
      | mk h₁ o =>
        rw [hr] at he₁
        simp only at he₁
        cases o with
        | error e => exact ⟨e₁, he₁⟩
        | ok y =>
          simp only []
          obtain ⟨e₂, he₂⟩ := ih h₁
          split
          · exact ⟨e₁ ++ e₂, by rw [he₂, he₁, List.append_assoc]⟩
          · cases hc : cloneFields recur h₁ fs with
            | mk h₂ o₂ =>
              rw [hc] at he₂
              simp only at he₂
              cases o₂ <;> exact ⟨e₁ ++ e₂, by simp [he₂, he₁]⟩

/-- `clone` only allocates: the store after it is the store before it followed
by new objects, and a returned reference is to a new object. -/
theorem clone_frame : ∀ (fuel : Nat) (h : Store) (v : Slot),
    (∃ ext, (clone fuel h v).1 = h ++ ext) ∧
    (∀ obj a, (clone fuel h v).2 = .ok obj → obj = .ref a → h.length ≤ a) := by
  intro fuel
  induction fuel with
  | zero =>
    intro h v
    cases v with
    | ref a => simp [clone]
    | undefined =>
      refine ⟨⟨[], by simp [clone]⟩, ?_⟩
      intro obj a h1 h2
      simp only [clone, Except.ok.injEq] at h1
      subst h1
      cases h2
    | null =>
      refine ⟨⟨[], by simp [clone]⟩, ?_⟩
      intro obj a h1 h2
      simp only [clone, Except.ok.injEq] at h1
      subst h1
      cases h2
    | bool b =>
      refine ⟨⟨[], by simp [clone]⟩, ?_⟩
      intro obj a h1 h2
      simp only [clone, Except.ok.injEq] at h1
      subst h1
      cases h2
    | number n =>
      refine ⟨⟨[], by simp [clone]⟩, ?_⟩
      intro obj a h1 h2
      simp only [clone, Except.ok.injEq] at h1
      subst h1
      cases h2
    | string s =>
      refine ⟨⟨[], by simp [clone]⟩, ?_⟩
      intro obj a h1 h2
      simp only [clone, Except.ok.injEq] at h1
      subst h1
      cases h2
  | succ fuel ih =>
    intro h v
    cases v with
    | ref a =>
      simp only [clone]
      cases h[a]? with
      | none => simp
      | some c =>
        cases c with
        | date t =>
          refine ⟨⟨_, rfl⟩, ?_⟩
          intro obj b hobj hb
          simp only [Except.ok.injEq] at hobj
          subst hobj
          cases hb
          exact Nat.le_refl _
        | array xs =>
          simp only []
          obtain ⟨e₁, he₁⟩ := cloneSlots_frame (clone fuel) (fun h x => (ih h x).1) xs h
          cases hc : cloneSlots (clone fuel) h xs with
          | mk h₁ o =>
            rw [hc] at he₁
            simp only at he₁
            cases o with
            | error e => exact ⟨⟨e₁, he₁⟩, by simp⟩
            | ok ys =>
              refine ⟨⟨e₁ ++ [.array ys], by simp [he₁]⟩, ?_⟩
              intro obj b hobj hb
              simp only [Except.ok.injEq] at hobj
              subst hobj
              cases hb
              simp [he₁]
        | object fs =>
          simp only []
          obtain ⟨e₁, he₁⟩ := cloneFields_frame (clone fuel) (fun h x => (ih h x).1) fs h
          cases hc : cloneFields (clone fuel) h fs with
          | mk h₁ o =>
            rw [hc] at he₁
            simp only at he₁
            cases o with
            | error e => exact ⟨⟨e₁, he₁⟩, by simp⟩
            | ok gs =>
              refine ⟨⟨e₁ ++ [.object gs], by simp [he₁]⟩, ?_⟩
              intro obj b hobj hb
              simp only [Except.ok.injEq] at hobj
              subst hobj
              cases hb
              simp [he₁]
    | undefined =>
      refine ⟨⟨[], by simp [clone]⟩, ?_⟩
      intro obj a h1 h2
      simp only [clone, Except.ok.injEq] at h1
      subst h1
      cases h2
    | null =>
      refine ⟨⟨[], by simp [clone]⟩, ?_⟩
      intro obj a h1 h2
      simp only [clone, Except.ok.injEq] at h1
      subst h1
      cases h2
    | bool b =>
      refine ⟨⟨[], by simp [clone]⟩, ?_⟩
      intro obj a h1 h2
      simp only [clone, Except.ok.injEq] at h1
      subst h1
      cases h2
    | number n =>
      refine ⟨⟨[], by simp [clone]⟩, ?_⟩
      intro obj a h1 h2
      simp only [clone, Except.ok.injEq] at h1
      subst h1
      cases h2
    | string s =>
      refine ⟨⟨[], by simp [clone]⟩, ?_⟩
      intro obj a h1 h2
      simp only [clone, Except.ok.injEq] at h1
      subst h1
      cases h2

theorem trimObjectLoop_step (notTrimFields : List String) (f : String) (rest : List String)
    (h : Store) (obj : Slot) (own : Bool) (hown : hasOwnProperty h obj f = .ok own) :
    trimObjectLoop notTrimFields (f :: rest) h obj
      = (if own = true ∧ typeOf (getProp h obj f) = "string" ∧ f ∉ notTrimFields then
          trimObjectLoop notTrimFields rest (setProp h obj f (callTrim (getProp h obj f))) obj
        else if own = true ∧ isArray h (.string f) = true ∧ f ∉ notTrimFields then
          trimObjectLoop notTrimFields rest (trimElements h (getProp h obj f)) obj
        else trimObjectLoop notTrimFields rest h obj) := by
  rw [trimObjectLoop, hown]

theorem trimNestedLoop_step (notTrimFields : List String)
    (recur : Store → Slot → Store × Except Fault Slot) (f : String) (rest : List String)
    (h : Store) (obj : Slot) (own : Bool) (hown : hasOwnProperty h obj f = .ok own) :
    trimNestedLoop notTrimFields recur (f :: rest) h obj
      = (if own = true ∧ typeOf (getProp h obj f) = "string" ∧ f ∉ notTrimFields then
          trimNestedLoop notTrimFields recur rest
            (setProp h obj f (callTrim (getProp h obj f))) obj
        else if own = true ∧ typeOf (getProp h obj f) = "object" ∧ f ∉ notTrimFields then
          match recur h (getProp h obj f) with
          | (h₁, .ok r) => trimNestedLoop notTrimFields recur rest (setProp h₁ obj f r) obj
          | (h₁, .error e) => (h₁, .error e)
        else if own = true ∧ isArray h (.string f) = true ∧ f ∉ notTrimFields then
          trimNestedLoop notTrimFields recur rest (trimElements h (getProp h obj f)) obj
        else trimNestedLoop notTrimFields recur rest h obj) := by
  rw [trimNestedLoop, hown]

theorem trimObjectLoop_frame (notTrimFields : List String) (h₀ : Store) (obj : Slot)
    (hfresh : ∀ a, obj = .ref a → h₀.length ≤ a) :
    ∀ (ks : List String) (ext : Store),
      ∃ ext', (trimObjectLoop notTrimFields ks (h₀ ++ ext) obj).1 = h₀ ++ ext' := by
  intro ks
  induction ks with
  | nil => intro ext; exact ⟨ext, rfl⟩
  | cons f rest ih =>
    intro ext
    cases hown : hasOwnProperty (h₀ ++ ext) obj f with
    | error e =>
      refine ⟨ext, ?_⟩
      rw [trimObjectLoop, hown]
    | ok own =>
      have hdead : ¬ (own = true ∧
          isArray (h₀ ++ ext) (.string f) = true ∧ f ∉ notTrimFields) := by simp [isArray]
      rw [trimObjectLoop_step _ _ _ _ _ _ hown]
      by_cases hc : own = true ∧
          typeOf (getProp (h₀ ++ ext) obj f) = "string" ∧ f ∉ notTrimFields
      · obtain ⟨e₁, he₁⟩ := setProp_frame h₀ ext obj f
          (callTrim (getProp (h₀ ++ ext) obj f)) hfresh
        rw [if_pos hc, he₁]
        exact ih e₁
      · rw [if_neg hc, if_neg hdead]
        exact ih ext

theorem trimNestedLoop_frame (notTrimFields : List String)
    (recur : Store → Slot → Store × Except Fault Slot)
    (hrec : ∀ h x, ∃ ext, (recur h x).1 = h ++ ext) (h₀ : Store) (obj : Slot)
    (hfresh : ∀ a, obj = .ref a → h₀.length ≤ a) :
    ∀ (ks : List String) (ext : Store),
      ∃ ext', (trimNestedLoop notTrimFields recur ks (h₀ ++ ext) obj).1 = h₀ ++ ext' := by
  intro ks
  induction ks with
  | nil => intro ext; exact ⟨ext, rfl⟩
  | cons f rest ih =>
    intro ext
    cases hown : hasOwnProperty (h₀ ++ ext) obj f with
    | error e =>
      refine ⟨ext, ?_⟩
      rw [trimNestedLoop, hown]
    | ok own =>
      have hdead : ¬ (own = true ∧
          isArray (h₀ ++ ext) (.string f) = true ∧ f ∉ notTrimFields) := by simp [isArray]
      rw [trimNestedLoop_step _ _ _ _ _ _ _ hown]
      by_cases hc : own = true ∧
          typeOf (getProp (h₀ ++ ext) obj f) = "string" ∧ f ∉ notTrimFields
      · obtain ⟨e₁, he₁⟩ := setProp_frame h₀ ext obj f
          (callTrim (getProp (h₀ ++ ext) obj f)) hfresh
        rw [if_pos hc, he₁]
        exact ih e₁
      · by_cases hc₂ : own = true ∧
            typeOf (getProp (h₀ ++ ext) obj f) = "object" ∧ f ∉ notTrimFields
        · rw [if_neg hc, if_pos hc₂]
          obtain ⟨e₁, he₁⟩ := hrec (h₀ ++ ext) (getProp (h₀ ++ ext) obj f)
          cases hr : recur (h₀ ++ ext) (getProp (h₀ ++ ext) obj f) with
          | mk h₁ o =>
            rw [hr] at he₁
            simp only at he₁
            cases o with
            | error e => exact ⟨ext ++ e₁, by simp [he₁]⟩
            | ok r =>
              simp only []
              rw [he₁, List.append_assoc]
              obtain ⟨e₂, he₂⟩ := setProp_frame h₀ (ext ++ e₁) obj f r hfresh
              rw [he₂]
              exact ih e₂
        · rw [if_neg hc, if_neg hc₂, if_neg hdead]
          exact ih ext

/-- `trimNestedObject` on the store only allocates and writes to what it
allocated: the store after it is the store before it followed by new objects. -/
theorem trimNestedObject_frame (notTrimFields : List String) :
    ∀ (fuel : Nat) (h : Store) (v : Slot),
      ∃ ext, (trimNestedObject notTrimFields fuel h v).1 = h ++ ext := by
  intro fuel
  induction fuel with
  | zero => intro h v; exact ⟨[], by simp [trimNestedObject]⟩
  | succ fuel ih =>
    intro h v
    obtain ⟨⟨e₁, he₁⟩, hfresh⟩ := clone_frame fuel h v
    simp only [trimNestedObject]
    cases hc : clone fuel h v with
    | mk h₁ o =>
      rw [hc] at he₁ hfresh
      simp only at he₁ hfresh
      cases o with
      | error e => exact ⟨e₁, he₁⟩
      | ok obj =>
        simp only []
        cases objectKeys h₁ obj with
        | error e => exact ⟨e₁, he₁⟩
        | ok fields =>
          simp only []
          obtain ⟨e₂, he₂⟩ := trimNestedLoop_frame notTrimFields
            (trimNestedObject notTrimFields fuel) ih h obj (fun a ha => hfresh obj a rfl ha)
            fields e₁
          rw [he₁]
          cases hl : trimNestedLoop notTrimFields (trimNestedObject notTrimFields fuel) fields
              (h ++ e₁) obj with
          | mk h₂ o₂ =>
            rw [hl] at he₂
            simp only at he₂
            cases o₂ <;> exact ⟨e₂, he₂⟩

/-- `trimObject` on the store only allocates and writes to what it allocated. -/
theorem trimObject_frame (notTrimFields : List String) (fuel : Nat) (h : Store) (v : Slot) :
    ∃ ext, (trimObject notTrimFields fuel h v).1 = h ++ ext := by
  obtain ⟨⟨e₁, he₁⟩, hfresh⟩ := clone_frame fuel h v
  simp only [trimObject]
  cases hc : clone fuel h v with
  | mk h₁ o =>
    rw [hc] at he₁ hfresh
    simp only at he₁ hfresh
    cases o with
    | error e => exact ⟨e₁, he₁⟩
    | ok obj =>
      simp only []
      cases objectKeys h₁ obj with
      | error e => exact ⟨e₁, he₁⟩
      | ok fields =>
        simp only []
        obtain ⟨e₂, he₂⟩ := trimObjectLoop_frame notTrimFields h obj
          (fun a ha => hfresh obj a rfl ha) fields e₁
        rw [he₁]
        cases hl : trimObjectLoop notTrimFields fields (h ++ e₁) obj with
        | mk h₂ o₂ =>
          rw [hl] at he₂
          simp only at he₂
          cases o₂ <;> exact ⟨e₂, he₂⟩

end Store

namespace Store

theorem readSlots_congr (f g : Slot → Option JSValue) :
    ∀ xs : List Slot, (∀ x ∈ xs, f x = g x) → readSlots f xs = readSlots g xs := by
  intro xs
  induction xs with
  | nil => intro _; rfl
  | cons x xs ih =>
    intro h
    simp only [readSlots, h x (List.mem_cons_self _ _),
      ih (fun y hy => h y (List.mem_cons_of_mem _ hy))]

theorem readFields_congr (f g : Slot → Option JSValue) :
    ∀ fs : List (String × Slot), (∀ p ∈ fs, f p.2 = g p.2) →
      readFields f fs = readFields g fs := by
  intro fs
  induction fs with
  | nil => intro _; rfl
  | cons p fs ih =>
    obtain ⟨k, x⟩ := p
    intro h
    simp only [readFields, h (k, x) (List.mem_cons_self _ _),
      ih (fun q hq => h q (List.mem_cons_of_mem _ hq))]

/-- New objects after a closed store do not change what a slot of that store
denotes. -/
theorem read_frame (h ext : Store) (hc : closed h = true) :
    ∀ (n : Nat) (v : Slot), holds h v = true → read n (h ++ ext) v = read n h v := by
  have hcl : ∀ c ∈ h, ∀ s ∈ slotsOf c, holds h s = true := by
    intro c hcm s hs
    have := List.all_eq_true.1 hc c hcm
    exact List.all_eq_true.1 this s hs
  intro n
  induction n with
  | zero => intro v _; rfl
  | succ n ih =>
    intro v hv
    cases v with
    | ref a =>
      have ha : a < h.length := by simpa [holds] using hv
      have hget : (h ++ ext)[a]? = h[a]? := List.getElem?_append_left ha
      simp only [read, hget]
      cases hcell : h[a]? with
      | none => rfl
      | some c =>
        have hmem : c ∈ h := List.mem_iff_getElem?.2 ⟨a, hcell⟩
        cases c with
        | date t => rfl
        | array xs =>
          simp only []
          rw [readSlots_congr (read n (h ++ ext)) (read n h) xs
            (fun x hx => ih x (hcl _ hmem x (by simpa [slotsOf] using hx)))]
        | object fs =>
          simp only []
          rw [readFields_congr (read n (h ++ ext)) (read n h) fs
            (fun p hp => ih p.2 (hcl _ hmem p.2 (by
              simp only [slotsOf, List.mem_map]
              exact ⟨p, hp, rfl⟩)))]
    | undefined => rfl
    | null => rfl
    | bool b => rfl
    | number m => rfl
    | string s => rfl

/-- The store rendering at work on `{a: '  a  ', c: {a: ' 10 '}}`, the argument
at address 1 and its inner mapping at address 0: `trimNestedObject` leaves both
where they are, allocates its copies behind them and returns the address of the
trimmed copy. -/
theorem trimNestedObject_on_store :
    trimNestedObject [] 3
        [.object [("a", .string " 10 ")], .object [("a", .string "  a  "), ("c", .ref 0)]]
        (.ref 1)
      = ([.object [("a", .string " 10 ")], .object [("a", .string "  a  "), ("c", .ref 0)],
          .object [("a", .string " 10 ")], .object [("a", .string "a"), ("c", .ref 4)],
          .object [("a", .string "10")]], .ok (.ref 3)) ∧
    read 3 (trimNestedObject [] 3
        [.object [("a", .string " 10 ")], .object [("a", .string "  a  "), ("c", .ref 0)]]
        (.ref 1)).1 (.ref 3)
      = some (.object [("a", .string "a"), ("c", .object [("a", .string "10")])]) ∧
    read 3 (trimNestedObject [] 3
        [.object [("a", .string " 10 ")], .object [("a", .string "  a  "), ("c", .ref 0)]]
        (.ref 1)).1 (.ref 1)
      = some (.object [("a", .string "  a  "), ("c", .object [("a", .string " 10 ")])]) ∧
    PodUtilities.trimNestedObject [] 3
        (.object [("a", .string "  a  "), ("c", .object [("a", .string " 10 ")])])
      = .ok (.object [("a", .string "a"), ("c", .object [("a", .string "10")])]) :=
  ⟨rfl, rfl, rfl, rfl⟩

end Store

/-- C13. Neither `trimObject` nor `trimNestedObject` mutates its argument: the
call allocates new objects and writes only to them, so every object that
existed before the call is the same after it, and the argument denotes after
the call the value it denoted before, whether the call returns or throws. -/
theorem trim_does_not_mutate (notTrimFields : List String) (fuel : Nat) (h : Store)
    (inpObj : Slot) (hc : Store.closed h = true) (hv : Store.holds h inpObj = true) :
    List.take h.length (Store.trimObject notTrimFields fuel h inpObj).1 = h ∧
    (∀ n, Store.read n (Store.trimObject notTrimFields fuel h inpObj).1 inpObj
      = Store.read n h inpObj) ∧
    List.take h.length (Store.trimNestedObject notTrimFields fuel h inpObj).1 = h ∧
    (∀ n, Store.read n (Store.trimNestedObject notTrimFields fuel h inpObj).1 inpObj
      = Store.read n h inpObj) := by
  obtain ⟨e₁, he₁⟩ := Store.trimObject_frame notTrimFields fuel h inpObj
  obtain ⟨e₂, he₂⟩ := Store.trimNestedObject_frame notTrimFields fuel h inpObj
  rw [he₁, he₂]
  exact ⟨List.take_left _ _, fun n => Store.read_frame h e₁ hc n inpObj hv,
    List.take_left _ _, fun n => Store.read_frame h e₂ hc n inpObj hv⟩

/-- C13, witness for `trim_does_not_mutate`: after `trimShallow({a: '  a  '})`
the input's `a` is still `'  a  '`, and the result is a new object whose `a`
is `'a'`. -/
theorem trim_does_not_mutate_witness :
    Store.closed [.object [("a", .string "  a  ")]] = true ∧
    Store.holds [.object [("a", .string "  a  ")]] (.ref 0) = true ∧
    Store.trimObject [] 1 [.object [("a", .string "  a  ")]] (.ref 0)
      = ([.object [("a", .string "  a  ")], .object [("a", .string "a")]], .ok (.ref 1)) ∧
    Store.read 2 (Store.trimObject [] 1 [.object [("a", .string "  a  ")]] (.ref 0)).1 (.ref 0)
      = some (.object [("a", .string "  a  ")]) ∧
    Store.read 2 (Store.trimObject [] 1 [.object [("a", .string "  a  ")]] (.ref 0)).1 (.ref 1)
      = some (.object [("a", .string "a")]) :=
  ⟨by decide, by decide, rfl,
    ((trim_does_not_mutate [] 1 [.object [("a", .string "  a  ")]] (.ref 0)
      (by decide) (by decide)).2.1 2).trans rfl, rfl⟩


end PodUtilities
